import Mathlib

/-!
csv_checker: field classifiers and the row-partitioning loop

A shallow embedding of `csv_checker.go`.

* A Go `string` is a sequence of bytes; it is embedded as `List Nat`
  (each element a byte value, `0 ≤ b < 256`).
* `[]rune(str)` is the UTF-8 decoding of the bytes, every invalid byte
  decoding to `U+FFFD` with width one.
* The program calls three functions of the Go standard library, whose
  source is not part of the repository; they are embedded from the
  library's behaviour:
  - `unicode.IsPrint` / `unicode.IsDigit` are given exactly on Latin-1
    (`r ≤ 0xFF`), where the library decides them from a fixed 256-entry
    table; above Latin-1 they consult the Unicode range tables, which are a
    parameter (`UnicodeTables`) of the development;
  - `strconv.ParseFloat(str, 32)` is embedded as the predicate `err == nil`
    (`ParseFloatOk`).
* The body of the `for` loop of `main` (lines 147-219) is a step function on
  the state made of the two output sequences, the log and the counter `i`;
  the out-of-range panic of `index[x]` is an explicit outcome. The two
  `csv.Writer`s and the logger are the sequences of what was handed to
  them; a write error is outside the embedding.
* The loop is embedded twice. `mainLoop` and `run` take the sequence of
  records that `r.Read()` yields and describe what the loop does with them.
  `readLoop` and `runFile` add the reader: the input is the sequence of rows
  of the file, and the run ends in the `log.Fatal` of lines 154-156 at a row
  that the default `csv.Reader` refuses, which is a malformed row or a row
  whose number of fields differs from the first row's. On rows of one width
  the two embeddings agree (`runFile_uniform`).
-/

namespace CsvChecker

/-! ## Go strings -/

/-- A Go string: its bytes. -/
abbrev GoString := List Nat

/-- A record as returned by `csv.Reader.Read`: its fields in column order. -/
abbrev Record := List GoString

/-- The Unicode replacement character, `utf8.RuneError`. -/
def RuneError : Nat := 0xFFFD

/-- UTF-8 encoding of one rune, as done by the Go conversion `string(r)`
(surrogates and values above `0x10FFFF` encode as `U+FFFD`). -/
def encodeRune (r : Nat) : GoString :=
  if r < 0x80 then [r]
  else if r < 0x800 then [0xC0 ||| (r >>> 6), 0x80 ||| (r &&& 0x3F)]
  else if (0xD800 ≤ r ∧ r ≤ 0xDFFF) ∨ 0x10FFFF < r then [0xEF, 0xBF, 0xBD]
  else if r < 0x10000 then
    [0xE0 ||| (r >>> 12), 0x80 ||| ((r >>> 6) &&& 0x3F), 0x80 ||| (r &&& 0x3F)]
  else
    [0xF0 ||| (r >>> 18), 0x80 ||| ((r >>> 12) &&& 0x3F),
     0x80 ||| ((r >>> 6) &&& 0x3F), 0x80 ||| (r &&& 0x3F)]

/-- The bytes of a Go string literal. -/
def utf8 (s : String) : GoString :=
  s.data.flatMap (fun c => encodeRune c.toNat)

/-- Size of the UTF-8 sequence announced by a lead byte together with the
accepted range of the second byte (`first` and `acceptRanges` of package
`utf8`); `none` for a byte that cannot start a multi-byte sequence. -/
def leadInfo (b0 : Nat) : Option (Nat × Nat × Nat) :=
  if 0xC2 ≤ b0 ∧ b0 ≤ 0xDF then some (2, 0x80, 0xBF)
  else if b0 = 0xE0 then some (3, 0xA0, 0xBF)
  else if b0 = 0xED then some (3, 0x80, 0x9F)
  else if 0xE1 ≤ b0 ∧ b0 ≤ 0xEF then some (3, 0x80, 0xBF)
  else if b0 = 0xF0 then some (4, 0x90, 0xBF)
  else if b0 = 0xF4 then some (4, 0x80, 0x8F)
  else if 0xF1 ≤ b0 ∧ b0 ≤ 0xF3 then some (4, 0x80, 0xBF)
  else none

/-- Continuation byte test (`locb ≤ b ≤ hicb`). -/
def isCont (b : Nat) : Bool := 0x80 ≤ b && b ≤ 0xBF

/-- Decoding of the first rune of a non-empty string: the rune and its width
in bytes (`utf8.DecodeRuneInString`). -/
def decodeRune : GoString → Nat × Nat
  | [] => (RuneError, 0)
  | b0 :: rest =>
    if b0 < 0x80 then (b0, 1)
    else
      match leadInfo b0 with
      | none => (RuneError, 1)
      | some (sz, lo, hi) =>
        if rest.length + 1 < sz then (RuneError, 1)
        else
          match rest with
          | [] => (RuneError, 1)
          | b1 :: rest1 =>
            if b1 < lo ∨ hi < b1 then (RuneError, 1)
            else if sz ≤ 2 then (((b0 &&& 0x1F) <<< 6) ||| (b1 &&& 0x3F), 2)
            else
              match rest1 with
              | [] => (RuneError, 1)
              | b2 :: rest2 =>
                if !isCont b2 then (RuneError, 1)
                else if sz ≤ 3 then
                  (((b0 &&& 0x0F) <<< 12) ||| ((b1 &&& 0x3F) <<< 6) ||| (b2 &&& 0x3F), 3)
                else
                  match rest2 with
                  | [] => (RuneError, 1)
                  | b3 :: _ =>
                    if !isCont b3 then (RuneError, 1)
                    else
                      (((b0 &&& 0x07) <<< 18) ||| ((b1 &&& 0x3F) <<< 12)
                        ||| ((b2 &&& 0x3F) <<< 6) ||| (b3 &&& 0x3F), 4)

/-- Decoding loop of `[]rune(str)`; `fuel` bounds the number of runes. -/
def runesAux : Nat → GoString → List Nat
  | 0, _ => []
  | _, [] => []
  | fuel + 1, b :: rest =>
    (decodeRune (b :: rest)).1 ::
      runesAux fuel ((b :: rest).drop (decodeRune (b :: rest)).2)

/-- The conversion `[]rune(str)`. -/
def runes (str : GoString) : List Nat := runesAux str.length str

/-! ## Package `unicode` -/

/-- The part of the Unicode range tables that `unicode.IsPrint` and
`unicode.IsDigit` consult for runes above Latin-1. -/
structure UnicodeTables where
  /-- Membership in `unicode.PrintRanges` (categories L, M, N, P, S). -/
  print : Nat → Bool
  /-- Membership in `unicode.Digit` (category Nd). -/
  digit : Nat → Bool

/-- Go `unicode.MaxLatin1`. -/
def MaxLatin1 : Nat := 0xFF

/-- Go `unicode.IsPrint`: on Latin-1 the `pp` bit of the `properties` table
(set for U+0020..U+007E and U+00A1..U+00FF except the soft hyphen U+00AD). -/
def IsPrint (t : UnicodeTables) (r : Nat) : Bool :=
  if r ≤ MaxLatin1 then
    (0x20 ≤ r && r ≤ 0x7E) || (0xA1 ≤ r && r ≤ 0xFF && r != 0xAD)
  else t.print r

/-- Go `unicode.IsDigit`. -/
def IsDigit (t : UnicodeTables) (r : Nat) : Bool :=
  if r ≤ MaxLatin1 then 0x30 ≤ r && r ≤ 0x39
  else t.digit r

/-- A small fragment of the Unicode tables, for concrete evaluations: the
Arabic-Indic digits U+0660..U+0669 are decimal digits, and they and the
Greek and Cyrillic blocks U+0391..U+03A1, U+0410..U+044F are printable. -/
def sampleTables : UnicodeTables where
  print := fun r => (0x660 ≤ r && r ≤ 0x669) || (0x391 ≤ r && r ≤ 0x3A1)
    || (0x410 ≤ r && r ≤ 0x44F)
  digit := fun r => 0x660 ≤ r && r ≤ 0x669

/-! ## Package `strconv`: the error result of `ParseFloat(str, 32)`

Only `err == nil` is observed by `IsFloat`, so the embedding computes that
bit: the accepted syntax follows `special` and `readFloat` byte for byte,
and the range error is the condition under which the correctly rounded
32-bit value is infinite. -/

/-- Go `strconv.lower`: `c | ('x' - 'X')`. -/
def lower (c : Nat) : Nat := c ||| 0x20

/-- Byte test `'0' <= c && c <= '9'`. -/
def isDecDigit (c : Nat) : Bool := 0x30 ≤ c && c ≤ 0x39

/-- Byte test `'a' <= lower(c) && lower(c) <= 'f'`. -/
def isHexLetter (c : Nat) : Bool := 0x61 ≤ lower c && lower c ≤ 0x66

/-- Go `commonPrefixLenIgnoreCase(s, prefix)`; `prefix` is lower case. -/
def commonPrefixLenIgnoreCase : GoString → GoString → Nat
  | c :: s, p :: pre =>
    if (if 0x41 ≤ c ∧ c ≤ 0x5A then c + 0x20 else c) ≠ p then 0
    else 1 + commonPrefixLenIgnoreCase s pre
  | _, _ => 0

/-- The `'i', 'I'` case of `special`, entered directly or by fallthrough
after a sign of `nsign` bytes. -/
def specialInf (s : GoString) (nsign : Nat) : Option Nat :=
  let n := commonPrefixLenIgnoreCase s (utf8 "infinity")
  let n := if 3 < n ∧ n < 8 then 3 else n
  if n = 3 ∨ n = 8 then some (nsign + n) else none

/-- Go `special`: the number of bytes of a leading `Inf`, `Infinity` or `NaN`
spelling, `none` when there is none. -/
def special : GoString → Option Nat
  | [] => none
  | c :: rest =>
    if c = 0x2B ∨ c = 0x2D then specialInf rest 1
    else if c = 0x69 ∨ c = 0x49 then specialInf (c :: rest) 0
    else if c = 0x6E ∨ c = 0x4E then
      if commonPrefixLenIgnoreCase (c :: rest) (utf8 "nan") = 3 then some 3 else none
    else none

/-- Go `underscoreOK`, the scan of the number proper; `saw` is `0` for the
beginning, `1` for a digit or base prefix, `2` for an underscore and `3` for
anything else. -/
def underscoreScan (hex : Bool) : GoString → Nat → Bool
  | [], saw => saw != 2
  | c :: rest, saw =>
    if isDecDigit c || (hex && isHexLetter c) then underscoreScan hex rest 1
    else if c = 0x5F then
      if saw != 1 then false else underscoreScan hex rest 2
    else if saw = 2 then false
    else underscoreScan hex rest 3

/-- Go `underscoreOK`. -/
def underscoreOK (s : GoString) : Bool :=
  let s := match s with
    | c :: rest => if c = 0x2D ∨ c = 0x2B then rest else c :: rest
    | [] => []
  match s with
  | c0 :: c1 :: rest =>
    if c0 = 0x30 ∧ (lower c1 = 0x62 ∨ lower c1 = 0x6F ∨ lower c1 = 0x78) then
      underscoreScan (lower c1 = 0x78) rest 1
    else underscoreScan false (c0 :: c1 :: rest) 0
  | s => underscoreScan false s 0

/-- Locals of the digit loop of `readFloat`. -/
structure MantState where
  sawdot : Bool := false
  sawdigits : Bool := false
  nd : Nat := 0
  ndMant : Nat := 0
  dp : Int := 0
  mantissa : Nat := 0
  underscores : Bool := false

/-- The digit loop of `readFloat` (label `loop`): consumes underscores, one
dot and digits, and returns the locals with the unread rest. -/
def mantLoop (base maxMantDigits : Nat) : GoString → MantState → MantState × GoString
  | [], st => (st, [])
  | c :: rest, st =>
    if c = 0x5F then mantLoop base maxMantDigits rest { st with underscores := true }
    else if c = 0x2E then
      if st.sawdot then (st, c :: rest)
      else mantLoop base maxMantDigits rest { st with sawdot := true, dp := st.nd }
    else if isDecDigit c then
      if c = 0x30 ∧ st.nd = 0 then
        mantLoop base maxMantDigits rest { st with sawdigits := true, dp := st.dp - 1 }
      else if st.ndMant < maxMantDigits then
        mantLoop base maxMantDigits rest
          { st with sawdigits := true, nd := st.nd + 1,
                    mantissa := st.mantissa * base + (c - 0x30), ndMant := st.ndMant + 1 }
      else mantLoop base maxMantDigits rest { st with sawdigits := true, nd := st.nd + 1 }
    else if base = 16 ∧ isHexLetter c then
      if st.ndMant < maxMantDigits then
        mantLoop base maxMantDigits rest
          { st with sawdigits := true, nd := st.nd + 1,
                    mantissa := st.mantissa * 16 + (lower c - 0x61 + 10),
                    ndMant := st.ndMant + 1 }
      else mantLoop base maxMantDigits rest { st with sawdigits := true, nd := st.nd + 1 }
    else (st, c :: rest)

/-- The exponent digit loop: `e` saturates once it reaches 10000; returns
`e`, whether an underscore was seen, and the unread rest. -/
def expLoop : GoString → Nat → Bool → Nat × Bool × GoString
  | [], e, u => (e, u, [])
  | c :: rest, e, u =>
    if c = 0x5F then expLoop rest e true
    else if isDecDigit c then expLoop rest (if e < 10000 then e * 10 + (c - 0x30) else e) u
    else (e, u, c :: rest)

/-- The optional exponent of `readFloat` and `decimal.set`: `none` when the
exponent is malformed (or missing although mandatory), otherwise the signed
shift of the decimal point, the underscore flag and the unread rest. -/
def expPart (expChar : Nat) (mandatory : Bool) : GoString → Option (Int × Bool × GoString)
  | [] => if mandatory then none else some (0, false, [])
  | c :: rest =>
    if lower c = expChar then
      match rest with
      | [] => none
      | s :: rest1 =>
        let body := if s = 0x2B ∨ s = 0x2D then rest1 else s :: rest1
        let esign : Int := if s = 0x2D then -1 else 1
        match body with
        | [] => none
        | d :: _ =>
          if !isDecDigit d then none
          else
            let r := expLoop body 0 false
            some ((r.1 : Int) * esign, r.2.1, r.2.2)
    else if mandatory then none
    else some (0, false, c :: rest)

/-- What `atof32` uses of the results of `readFloat`. -/
structure FloatSyntax where
  mantissa : Nat
  exp : Int
  hex : Bool
  /-- Number of bytes consumed. -/
  n : Nat

/-- Go `readFloat`; `none` stands for `ok == false`. -/
def readFloat (s : GoString) : Option FloatSyntax :=
  match s with
  | [] => none
  | c :: rest =>
    let body := if c = 0x2B ∨ c = 0x2D then rest else c :: rest
    let hex : Bool := match body with
      | c0 :: c1 :: _ :: _ => c0 = 0x30 ∧ lower c1 = 0x78
      | _ => false
    let digits := if hex then body.drop 2 else body
    let base := if hex then 16 else 10
    let r := mantLoop base (if hex then 16 else 19) digits {}
    let st := r.1
    if !st.sawdigits then none
    else
      let dp : Int := if st.sawdot then st.dp else st.nd
      let dp := if hex then dp * 4 else dp
      let ndMant := if hex then st.ndMant * 4 else st.ndMant
      match expPart (if hex then 0x70 else 0x65) hex r.2 with
      | none => none
      | some (shift, u, rest') =>
        let n := s.length - rest'.length
        if (st.underscores || u) && !underscoreOK (s.take n) then none
        else
          some { mantissa := st.mantissa,
                 exp := if st.mantissa ≠ 0 then dp + shift - ndMant else 0,
                 hex := hex, n := n }

/-- Locals of the digit loop of `decimal.set`; `digits` is the number whose
decimal expansion is the digits read from the first non-zero one on, and
`nd` is their count. -/
structure Decimal where
  sawdot : Bool := false
  sawdigits : Bool := false
  digits : Nat := 0
  nd : Nat := 0
  dp : Int := 0

/-- The digit loop of `decimal.set`. The library stores the first 800
significant digits and notes whether a non-zero digit was dropped; the
embedding keeps every digit, so that `digits` and `nd` give the exact value
of the text. Only the overflow test reads them, and the overflow threshold
has 39 digits, so that the digits beyond the 800th do not change its
result. -/
def decimalLoop : GoString → Decimal → Decimal × GoString
  | [], d => (d, [])
  | c :: rest, d =>
    if c = 0x5F then decimalLoop rest d
    else if c = 0x2E then
      if d.sawdot then (d, c :: rest)
      else decimalLoop rest { d with sawdot := true, dp := d.nd }
    else if isDecDigit c then
      if c = 0x30 ∧ d.nd = 0 then
        decimalLoop rest { d with sawdigits := true, dp := d.dp - 1 }
      else
        decimalLoop rest
          { d with sawdigits := true, digits := d.digits * 10 + (c - 0x30), nd := d.nd + 1 }
    else (d, c :: rest)

/-- Go `decimal.set`: the digits, their count and the position of the
decimal point; `none` stands for `ok == false`. -/
def decimalSet (s : GoString) : Option (Nat × Nat × Int) :=
  match s with
  | [] => none
  | c :: rest =>
    let body := if c = 0x2B ∨ c = 0x2D then rest else c :: rest
    let r := decimalLoop body {}
    let d := r.1
    if !d.sawdigits then none
    else
      let dp : Int := if d.sawdot then d.dp else d.nd
      match expPart 0x65 false r.2 with
      | none => none
      | some (shift, _, rest') =>
        if rest' ≠ [] then none else some (d.digits, d.nd, dp + shift)

/-- The least magnitude that rounds to infinity at 32 bits: half an ulp above
the largest finite `float32`, `2^128 - 2^103`. -/
def float32Overflow : Nat := 2 ^ 128 - 2 ^ 103

/-- Overflow result of `decimal.floatBits(&float32info)` for the value
`0.d[0:nd] * 10^dp`: the early exits of the Go function, then the comparison
with the rounding threshold. -/
def floatBitsOverflow (digits nd : Nat) (dp : Int) : Bool :=
  if nd = 0 then false
  else if dp > 310 then true
  else if dp ≤ 0 then false
  else float32Overflow * 10 ^ nd ≤ digits * 10 ^ dp.toNat

/-- Range error of `atofHex` at 32 bits for the value `mantissa * 2^exp`. -/
def atofHexOverflow (mantissa : Nat) (exp : Int) : Bool :=
  if mantissa = 0 ∨ exp ≤ 0 then false
  else if exp > 128 then true
  else float32Overflow ≤ mantissa * 2 ^ exp.toNat

/-- Go `atof32`: whether the returned error is nil, and the number of bytes
consumed. -/
def atof32 (s : GoString) : Bool × Nat :=
  match special s with
  | some n => (true, n)
  | none =>
    match readFloat s with
    | none => (false, 0)
    | some f =>
      if f.hex then (!atofHexOverflow f.mantissa f.exp, f.n)
      else
        match decimalSet (s.take f.n) with
        | none => (false, f.n)
        | some (digits, nd, dp) => (!floatBitsOverflow digits nd dp, f.n)

/-- Go `strconv.ParseFloat(s, 32)`, reduced to `err == nil`: the whole string
must have been consumed without error. -/
def ParseFloatOk (s : GoString) : Bool :=
  let r := atof32 s
  r.1 && r.2 == s.length

/-! ## The classifiers of `csv_checker.go` -/

/-- The loop over `runes` of `OnlyPrintable` (lines 40-45): false at the
first rune that `unicode.IsPrint` refuses, true when none is left. -/
def printLoop (t : UnicodeTables) : List Nat → Bool
  | [] => true
  | c :: cs => if !IsPrint t c then false else printLoop t cs

/-- The loop over `runes` of `OnlyDigits` (lines 59-64): false at the first
rune that `unicode.IsDigit` refuses, true when none is left. -/
def digitLoop (t : UnicodeTables) : List Nat → Bool
  | [] => true
  | c :: cs => if !IsDigit t c then false else digitLoop t cs

/-- Go `OnlyPrintable` (lines 31-46). -/
def OnlyPrintable (t : UnicodeTables) (str noblank : GoString) : Bool :=
  let runes := runes str
  if str = [] then
    if noblank = utf8 "NO_BLANK" then false else true
  else printLoop t runes

/-- Go `OnlyDigits` (lines 50-65). -/
def OnlyDigits (t : UnicodeTables) (str noblank : GoString) : Bool :=
  if str = [] then
    if noblank = utf8 "NO_BLANK" then false else true
  else
    let runes := runes str
    digitLoop t runes

/-- Go `IsFloat` (lines 68-81). -/
def IsFloat (str noblank : GoString) : Bool :=
  if str = [] then
    if noblank = utf8 "NO_BLANK" then false else true
  else if ParseFloatOk str then true
  else false

/-! ## The row loop of `main` (lines 146-219) -/

/-- The state the loop of `main` works on: the rows written to the accepted
file (`newcsv`) and to the rejected file (`errcsv`), the lines handed to
`log.Println`, and the counter `i`. -/
structure State where
  good : List Record
  bad : List Record
  log : List String
  i : Nat
deriving DecidableEq, Repr

/-- The state before the first `r.Read()`: nothing written, `i := 0`. -/
def State.init : State := { good := [], bad := [], log := [], i := 0 }

/-- What the field loop changes: the flag `bad_record` and the log. -/
structure Scan where
  bad_record : Bool
  log : List String
deriving DecidableEq, Repr

/-- `fmt.Sprintf("Row %v, Field %v" + rest, i+1, x+1)`. -/
def rowFieldMsg (i x : Nat) (rest : String) : String :=
  "Row " ++ toString (i + 1) ++ ", Field " ++ toString (x + 1) ++ rest

/-- The message of the `default` case. -/
def beyondMsg : String := "ERROR: CSV Field is beyond defined definition list."

/-- One iteration of `for x, v := range record` (lines 157-206): the lookup
`index[x]`, which panics (`none`) when `x` is out of range, then the
`switch` on `string(index[x])`. -/
def fieldCase (t : UnicodeTables) (index : GoString) (i x : Nat) (v : GoString)
    (sc : Scan) : Option Scan :=
  match index[x]? with
  | none => none
  | some b =>
    let index_ch := encodeRune b
    if index_ch = utf8 "S" then
      if !OnlyPrintable t v (utf8 "BLANK_ALLOWED") then
        some { bad_record := true, log := sc.log ++ [rowFieldMsg i x " is not a string"] }
      else some sc
    else if index_ch = utf8 "F" then
      if !IsFloat v (utf8 "BLANK_ALLOWED") then
        some { bad_record := true,
               log := sc.log ++ [rowFieldMsg i x " is not a floating point number"] }
      else some sc
    else if index_ch = utf8 "N" then
      if !OnlyDigits t v (utf8 "BLANK_ALLOW") then
        some { bad_record := true, log := sc.log ++ [rowFieldMsg i x " is not an integer"] }
      else some sc
    else if index_ch = utf8 "B" then
      if !OnlyPrintable t v (utf8 "NO_BLANK") then
        some { bad_record := true,
               log := sc.log ++ [rowFieldMsg i x " is not a string or is blank"] }
      else some sc
    else if index_ch = utf8 "Q" then
      if !IsFloat v (utf8 "NO_BLANK") then
        some { bad_record := true,
               log := sc.log ++ [rowFieldMsg i x " is not a floating point number or is blank"] }
      else some sc
    else if index_ch = utf8 "P" then
      if !OnlyDigits t v (utf8 "NO_BLANK") then
        some { bad_record := true,
               log := sc.log ++ [rowFieldMsg i x " is not an integer or is blank"] }
      else some sc
    else
      some { bad_record := true, log := sc.log ++ [beyondMsg] }

/-- Result of the field loop over one record. -/
inductive ScanResult where
  /-- All fields were checked. -/
  | completed (sc : Scan)
  /-- The lookup `index[x]` panicked; the log holds what was printed before. -/
  | panicked (log : List String)
deriving DecidableEq, Repr

/-- The loop `for x, v := range record` from position `x` on. -/
def scanRecord (t : UnicodeTables) (index : GoString) (i : Nat) :
    Nat → Record → Scan → ScanResult
  | _, [], sc => .completed sc
  | x, v :: vs, sc =>
    match fieldCase t index i x v sc with
    | none => .panicked sc.log
    | some sc' => scanRecord t index i (x + 1) vs sc'

/-- Result of a run of the loop of `main`. -/
inductive Outcome where
  /-- The input was exhausted (`io.EOF`). -/
  | finished (s : State)
  /-- The run stopped in an index-out-of-range panic, in state `s`. -/
  | panicked (s : State)
deriving DecidableEq, Repr

/-- One iteration of the outer `for` on a record that was read (lines
148-218): the field loop, then the write to one of the two files. -/
def rowStep (t : UnicodeTables) (index : GoString) (s : State) (record : Record) : Outcome :=
  match scanRecord t index s.i 0 record { bad_record := false, log := s.log } with
  | .panicked log => .panicked { s with log := log }
  | .completed sc =>
    if sc.bad_record = true then
      .finished { s with bad := s.bad ++ [record], log := sc.log }
    else
      .finished { s with good := s.good ++ [record], log := sc.log, i := s.i + 1 }

/-- The outer `for` of `main` over the records the reader yields, in order. -/
def mainLoop (t : UnicodeTables) (index : GoString) : List Record → State → Outcome
  | [], s => .finished s
  | record :: rest, s =>
    match rowStep t index s record with
    | .finished s' => mainLoop t index rest s'
    | .panicked s' => .panicked s'

/-- A whole run: schema `index`, the input records, empty outputs, `i := 0`. -/
def run (t : UnicodeTables) (index : GoString) (input : List Record) : Outcome :=
  mainLoop t index input State.init

/-! ## The loop of `main` with its reader (lines 145-219) -/

/-- What `r.Read()` finds next in the input file: a record, or text that the
reader cannot parse as a record (a bare quote, for example). -/
inductive Row where
  | record (fields : Record)
  | malformed
deriving DecidableEq, Repr

/-- Result of a run of the loop of `main` on an input file. -/
inductive FileOutcome where
  /-- The input was exhausted (`io.EOF`). -/
  | finished (s : State)
  /-- The run stopped in an index-out-of-range panic, in state `s`. -/
  | panicked (s : State)
  /-- The run stopped in `log.Fatal(err)` because `r.Read()` returned an
  error; `s` is the state before that read (the line `log.Fatal` prints is
  not recorded). -/
  | readError (s : State)
deriving DecidableEq, Repr

/-- The state reached by a run on a file, however it ended. -/
def FileOutcome.state : FileOutcome → State
  | .finished s => s
  | .panicked s => s
  | .readError s => s

/-- The outer `for` of `main` with the reader (lines 145-219). The reader is
the default `csv.NewReader`: its `FieldsPerRecord` is 0 at first, is set to
the number of fields of the first record, and from then on a record with
another number of fields makes `Read` return `ErrFieldCount`; any error of
`Read` other than `io.EOF` ends the run in `log.Fatal`. -/
def readLoop (t : UnicodeTables) (index : GoString) :
    Nat → List Row → State → FileOutcome
  | _, [], s => .finished s
  | _, .malformed :: _, s => .readError s
  | fieldsPerRecord, .record record :: rest, s =>
    if fieldsPerRecord > 0 ∧ record.length ≠ fieldsPerRecord then .readError s
    else
      match rowStep t index s record with
      | .finished s' =>
        readLoop t index (if fieldsPerRecord > 0 then fieldsPerRecord else record.length)
          rest s'
      | .panicked s' => .panicked s'

/-- A whole run on an input file: schema `index`, the rows of the file, a
fresh reader, empty outputs, `i := 0`. -/
def runFile (t : UnicodeTables) (index : GoString) (rows : List Row) : FileOutcome :=
  readLoop t index 0 rows State.init

/-- The outcome of the loop over the records, seen as an outcome on a file. -/
def Outcome.toFile : Outcome → FileOutcome
  | .finished s => .finished s
  | .panicked s => .panicked s

/-- The state of the reader after the rows `xs` were read without error. -/
def fieldsAfter (fpr : Nat) : List Row → Nat
  | [] => fpr
  | .malformed :: rest => fieldsAfter fpr rest
  | .record r :: rest => fieldsAfter (if fpr > 0 then fpr else r.length) rest

/-! ## The specification's reading of a schema tag -/

/-- Validity of a field under a schema tag as the specification's dispatch
table words it: `S`, `F`, `N` select the printable, float and digit
classifier with blanks allowed, `B`, `Q`, `P` the same classifiers with
blanks refused, and a field under any other tag is invalid. -/
def specFieldValid (t : UnicodeTables) (tag : Nat) (v : GoString) : Bool :=
  if tag = 0x53 then OnlyPrintable t v (utf8 "BLANK_ALLOWED")
  else if tag = 0x46 then IsFloat v (utf8 "BLANK_ALLOWED")
  else if tag = 0x4E then OnlyDigits t v (utf8 "BLANK_ALLOWED")
  else if tag = 0x42 then OnlyPrintable t v (utf8 "NO_BLANK")
  else if tag = 0x51 then IsFloat v (utf8 "NO_BLANK")
  else if tag = 0x50 then OnlyDigits t v (utf8 "NO_BLANK")
  else false

/-- The tag is one of `S`, `F`, `N`, `B`, `Q`, `P`. -/
def recognizedTag (tag : Nat) : Bool :=
  tag = 0x53 || tag = 0x46 || tag = 0x4E || tag = 0x42 || tag = 0x51 || tag = 0x50

/-- The diagnostic the specification lists for a failing field under a tag,
with `R` the reported row number and `C` the field number. -/
def specMessage (tag R C : Nat) : String :=
  if tag = 0x53 then "Row " ++ toString R ++ ", Field " ++ toString C ++ " is not a string"
  else if tag = 0x46 then
    "Row " ++ toString R ++ ", Field " ++ toString C ++ " is not a floating point number"
  else if tag = 0x4E then
    "Row " ++ toString R ++ ", Field " ++ toString C ++ " is not an integer"
  else if tag = 0x42 then
    "Row " ++ toString R ++ ", Field " ++ toString C ++ " is not a string or is blank"
  else if tag = 0x51 then
    "Row " ++ toString R ++ ", Field " ++ toString C
      ++ " is not a floating point number or is blank"
  else if tag = 0x50 then
    "Row " ++ toString R ++ ", Field " ++ toString C ++ " is not an integer or is blank"
  else "ERROR: CSV Field is beyond defined definition list."

/-- The field at position `x` is valid under the schema tag at position `x`
(a position without a tag has no valid field). -/
def fieldValidAt (t : UnicodeTables) (index : GoString) (x : Nat) (v : GoString) : Bool :=
  match index[x]? with
  | some tag => specFieldValid t tag v
  | none => false

/-- Every field of the record is valid under the schema tag at its position. -/
def specRecordValid (t : UnicodeTables) (index : GoString) (record : Record) : Bool :=
  record.enum.all (fun p => fieldValidAt t index p.1 p.2)

/-- All fields of `record`, placed at positions `x`, `x+1`, ..., are valid
under their tags. -/
def validFrom (t : UnicodeTables) (index : GoString) : Nat → Record → Bool
  | _, [] => true
  | x, v :: vs => fieldValidAt t index x v && validFrom t index (x + 1) vs

/-- The diagnostics the specification expects for `record` placed at
positions `x`, `x+1`, ...: one message per invalid field, in field order. -/
def diagsFrom (t : UnicodeTables) (index : GoString) (i : Nat) : Nat → Record → List String
  | _, [] => []
  | x, v :: vs =>
    (if fieldValidAt t index x v then []
     else [specMessage (index.getD x 0) (i + 1) (x + 1)])
      ++ diagsFrom t index i (x + 1) vs

/-- The state reached by a run, whether it finished or panicked. -/
def Outcome.state : Outcome → State
  | .finished s => s
  | .panicked s => s

/-- The schema has a tag at position `x` and it is not one of `S`, `F`, `N`,
`B`, `Q`, `P`. -/
def unrecognizedAt (index : GoString) (x : Nat) : Bool :=
  match index[x]? with
  | some tag => !recognizedTag tag
  | none => false

/-- The line is one of the seven field-validation messages of the
specification, for some tag, row number and field number. -/
def IsSpecMessage (m : String) : Prop :=
  ∃ tag R C : Nat, 1 ≤ R ∧ 1 ≤ C ∧ m = specMessage tag R C

/-- The optional tag that replaces a required one: `B`, `Q`, `P` become `S`,
`F`, `N`; every other byte is kept. -/
def relaxTag (tag : Nat) : Nat :=
  if tag = 0x42 then 0x53 else if tag = 0x51 then 0x46 else if tag = 0x50 then 0x4E else tag

/-- The schema with every required tag replaced by its optional tag. -/
def relaxSchema (index : GoString) : GoString := index.map relaxTag

/-- The diagnostic expected for the field `v` at position `x` of a row
scanned with counter `i`: none when the field is valid under its tag. -/
def fieldDiag (t : UnicodeTables) (index : GoString) (i : Nat) (p : Nat × GoString) :
    Option String :=
  if fieldValidAt t index p.1 p.2 then none
  else some (specMessage (index.getD p.1 0) (i + 1) (p.1 + 1))

/-! ## The specification's decimal numbers -/

/-- Value of a string of decimal digits, most significant digit first. -/
def digitsVal (bs : GoString) : Nat := bs.foldl (fun a c => a * 10 + (c - 0x30)) 0

/-- Every byte of the string is one of `0`..`9`. -/
def AllDigits (bs : GoString) : Prop := ∀ c ∈ bs, 0x30 ≤ c ∧ c ≤ 0x39

/-- The string is empty, `+` or `-`. -/
def IsSignText (s : GoString) : Prop := s = [] ∨ s = [0x2B] ∨ s = [0x2D]

/-- The text of a decimal floating-point number as the specification
describes it: an optional sign, digits, an optional fractional part (a
point and digits), an optional exponent (the letter `e` or `E`, an optional
sign, digits). -/
structure DecimalText where
  sign : GoString
  intPart : GoString
  frac : Option GoString
  exp : Option (Nat × GoString × GoString)

/-- The bytes of the fractional part, point included. -/
def DecimalText.fracText (d : DecimalText) : GoString :=
  match d.frac with
  | none => []
  | some f => 0x2E :: f

/-- The bytes of the exponent, letter included. -/
def DecimalText.expText (d : DecimalText) : GoString :=
  match d.exp with
  | none => []
  | some (e, es, ed) => e :: (es ++ ed)

/-- The bytes of the number. -/
def DecimalText.text (d : DecimalText) : GoString :=
  d.sign ++ (d.intPart ++ (d.fracText ++ d.expText))

/-- The digits after the point. -/
def DecimalText.fracDigits (d : DecimalText) : GoString := d.frac.getD []

/-- The parts are what the specification says: a sign or nothing, digits
before the point and digits after it with at least one digit among them,
and an exponent made of `e` or `E`, a sign or nothing, and at least one
digit. -/
def DecimalText.WellFormed (d : DecimalText) : Prop :=
  IsSignText d.sign ∧ AllDigits d.intPart ∧ d.intPart ++ d.fracDigits ≠ [] ∧
  (∀ f, d.frac = some f → AllDigits f) ∧
  (∀ e es ed, d.exp = some (e, es, ed) →
    (e = 0x65 ∨ e = 0x45) ∧ IsSignText es ∧ AllDigits ed ∧ ed ≠ [])

/-- The digits of the exponent. -/
def DecimalText.expDigits (d : DecimalText) : GoString :=
  match d.exp with
  | none => []
  | some (_, _, ed) => ed

/-- The number written by all the digits before the exponent. -/
def DecimalText.mantissa (d : DecimalText) : Nat := digitsVal (d.intPart ++ d.fracDigits)

/-- The value of the digits of an exponent as `ParseFloat` reads them: a
digit is taken in only while the value read so far is below 10000, so that
the result is the value of the digits when that is below 100000. -/
def expVal (bs : GoString) : Nat :=
  bs.foldl (fun e c => if e < 10000 then e * 10 + (c - 0x30) else e) 0

/-- The signed value of the exponent. -/
def DecimalText.exponent (d : DecimalText) : Int :=
  match d.exp with
  | none => 0
  | some (_, es, ed) => if es = [0x2D] then -(expVal ed : Int) else (expVal ed : Int)

/-- The magnitude of the number is `mantissa * 10 ^ scale`. -/
def DecimalText.scale (d : DecimalText) : Int := d.exponent - (d.fracDigits.length : Int)

/-- The magnitude of the number reaches `2^128 - 2^103`, from where on the
nearest 32-bit value is infinite. -/
def DecimalText.overflows (d : DecimalText) : Bool :=
  if 0 ≤ d.scale then decide (float32Overflow ≤ d.mantissa * 10 ^ d.scale.toNat)
  else decide (float32Overflow * 10 ^ (-d.scale).toNat ≤ d.mantissa)

/-- What the digit loop of `decimal.set` maintains: `digits` is a number of
exactly `nd` decimal digits (zero when `nd = 0`). -/
def Decimal.Inv (d : Decimal) : Prop :=
  d.digits < 10 ^ d.nd ∧ (0 < d.nd → 10 ^ (d.nd - 1) ≤ d.digits)

/-! ## The specification's texts -/

/-- A Unicode scalar value: a code point that is not a surrogate. -/
def IsScalar (c : Nat) : Prop := c < 0xD800 ∨ (0xE000 ≤ c ∧ c < 0x110000)

/-- The UTF-8 text of a sequence of code points. -/
def encodeRunes (cs : List Nat) : GoString := cs.flatMap encodeRune

/-- ASCII lower-casing of a byte. -/
def asciiLower (c : Nat) : Nat := if 0x41 ≤ c ∧ c ≤ 0x5A then c + 0x20 else c

/-- The string is a spelling, in any letter case, of `nan`, or of `inf` or
`infinity` with an optional sign. -/
def IsSpecialText (s : GoString) : Prop :=
  s.map asciiLower ∈ [utf8 "nan", utf8 "inf", utf8 "+inf", utf8 "-inf",
    utf8 "infinity", utf8 "+infinity", utf8 "-infinity"]

/-- After an optional sign the string starts with `0x` or `0X` and goes on
with at least one more byte. -/
def HasHexPrefix (s : GoString) : Prop :=
  ∃ sign c rest, IsSignText sign ∧ (c = 0x78 ∨ c = 0x58) ∧ rest ≠ [] ∧
    s = sign ++ 0x30 :: c :: rest

/-- The byte is a hexadecimal digit: `0`..`9`, `a`..`f` or `A`..`F`. -/
def IsHexDigit (c : Nat) : Prop :=
  (0x30 ≤ c ∧ c ≤ 0x39) ∨ (0x41 ≤ c ∧ c ≤ 0x46) ∨ (0x61 ≤ c ∧ c ≤ 0x66)

/-- Every byte of the string is a hexadecimal digit. -/
def AllHexDigits (bs : GoString) : Prop := ∀ c ∈ bs, IsHexDigit c

/-- The value of a hexadecimal digit. -/
def hexDigitVal (c : Nat) : Nat :=
  if c ≤ 0x39 then c - 0x30 else if c ≤ 0x46 then c - 0x41 + 10 else c - 0x61 + 10

/-- Value of a string of hexadecimal digits, most significant digit first. -/
def hexVal (bs : GoString) : Nat := bs.foldl (fun a c => a * 16 + hexDigitVal c) 0

/-- The text of a hexadecimal floating-point number as `ParseFloat` reads
it: an optional sign, `0x` or `0X`, hexadecimal digits, an optional
fractional part (a point and hexadecimal digits), and a binary exponent (the
letter `p` or `P`, an optional sign, decimal digits). -/
structure HexText where
  sign : GoString
  x : Nat
  intPart : GoString
  frac : Option GoString
  p : Nat
  expSign : GoString
  expDigits : GoString

/-- The bytes of the fractional part, point included. -/
def HexText.fracText (h : HexText) : GoString :=
  match h.frac with
  | none => []
  | some f => 0x2E :: f

/-- The digits after the point. -/
def HexText.fracDigits (h : HexText) : GoString := h.frac.getD []

/-- The bytes of the exponent, letter included. -/
def HexText.expText (h : HexText) : GoString := h.p :: (h.expSign ++ h.expDigits)

/-- The bytes of the number. -/
def HexText.text (h : HexText) : GoString :=
  h.sign ++ (0x30 :: h.x :: (h.intPart ++ (h.fracText ++ h.expText)))

/-- The parts are as described: a sign or nothing, `x` or `X`, hexadecimal
digits before the point and after it with at least one digit among them,
and an exponent made of `p` or `P`, a sign or nothing, and at least one
decimal digit. -/
def HexText.WellFormed (h : HexText) : Prop :=
  IsSignText h.sign ∧ (h.x = 0x78 ∨ h.x = 0x58) ∧ AllHexDigits h.intPart ∧
  (∀ f, h.frac = some f → AllHexDigits f) ∧ h.intPart ++ h.fracDigits ≠ [] ∧
  (h.p = 0x70 ∨ h.p = 0x50) ∧ IsSignText h.expSign ∧ AllDigits h.expDigits ∧
  h.expDigits ≠ []

/-- The number written by all the digits before the exponent. -/
def HexText.mantissa (h : HexText) : Nat := hexVal (h.intPart ++ h.fracDigits)

/-- The signed value of the binary exponent. -/
def HexText.exponent (h : HexText) : Int :=
  if h.expSign = [0x2D] then -(expVal h.expDigits : Int) else (expVal h.expDigits : Int)

/-- The magnitude of the number is `mantissa * 2 ^ scale`. -/
def HexText.scale (h : HexText) : Int := h.exponent - 4 * (h.fracDigits.length : Int)

/-- The magnitude of the number reaches `2^128 - 2^103`, from where on the
nearest 32-bit value is infinite. -/
def HexText.overflows (h : HexText) : Bool :=
  if 0 ≤ h.scale then decide (float32Overflow ≤ h.mantissa * 2 ^ h.scale.toNat)
  else decide (float32Overflow * 2 ^ (-h.scale).toNat ≤ h.mantissa)

/-- What the digit loop of `readFloat` maintains in base 16, `V` being the
value of the digits read so far: `mantissa` holds the first 16 significant
digits of `V`, which has exactly `nd` significant digits. -/
def MantState.HexInv (st : MantState) (V : Nat) : Prop :=
  st.ndMant ≤ st.nd ∧ (st.ndMant < 16 → st.ndMant = st.nd) ∧ st.ndMant ≤ 16 ∧
  st.mantissa = V / 16 ^ (st.nd - st.ndMant) ∧ V < 16 ^ st.nd ∧
  (0 < st.nd → 16 ^ (st.nd - 1) ≤ V)

/-! ## Underscores -/

/-- The string without its underscores. -/
def stripUnderscores (s : GoString) : GoString := s.filter (fun c => c != 0x5F)

/-- The test of `underscoreOK` for "digit": a decimal digit, or one of the
letters `a`..`f` (in either case) when the number has the base prefix
`0x`. -/
def digitLike (hex : Bool) (c : Nat) : Bool := isDecDigit c || (hex && isHexLetter c)

/-- The byte is a decimal digit: `0`..`9`. -/
def IsDecDigit (c : Nat) : Prop := 0x30 ≤ c ∧ c ≤ 0x39

/-- The byte is a hexadecimal digit or the letter `x` or `X` of the base
prefix. -/
def IsHexDigitOrX (c : Nat) : Prop := IsHexDigit c ∨ c = 0x78 ∨ c = 0x58

/-- Every underscore of the string stands directly after a byte that
satisfies `before` and directly before a byte that satisfies `after`. -/
def Separated (before after : Nat → Prop) (s : GoString) : Prop :=
  ∀ a b, s = a ++ 0x5F :: b →
    (∃ a' p, a = a' ++ [p] ∧ before p) ∧ (∃ q b', b = q :: b' ∧ after q)

/-! ## Basic facts about the embedding -/

theorem utf8_S : utf8 "S" = [0x53] := by decide
theorem utf8_F : utf8 "F" = [0x46] := by decide
theorem utf8_N : utf8 "N" = [0x4E] := by decide
theorem utf8_B : utf8 "B" = [0x42] := by decide
theorem utf8_Q : utf8 "Q" = [0x51] := by decide
theorem utf8_P : utf8 "P" = [0x50] := by decide

theorem blank_allowed_ne : utf8 "BLANK_ALLOWED" ≠ utf8 "NO_BLANK" := by decide

theorem blank_allow_ne : utf8 "BLANK_ALLOW" ≠ utf8 "NO_BLANK" := by decide

/-- The conversion `string(b)` yields a one-byte ASCII string `[c]` exactly
for `b = c`. -/
theorem encodeRune_eq_single (b c : Nat) (hc : c < 0x80) :
    encodeRune b = [c] ↔ b = c := by
  unfold encodeRune
  constructor
  · intro h
    split at h
    · simpa using h
    · split at h
      · simp at h
      · split at h
        · simp at h
        · split at h <;> simp at h
  · rintro rfl
    simp [hc]

/-- Only the exact token `NO_BLANK` is special: the misspelt mode of tag `N`
behaves as `BLANK_ALLOWED`. -/
theorem OnlyDigits_blank_allow (t : UnicodeTables) (v : GoString) :
    OnlyDigits t v (utf8 "BLANK_ALLOW") = OnlyDigits t v (utf8 "BLANK_ALLOWED") := by
  unfold OnlyDigits
  simp only [blank_allow_ne, blank_allowed_ne, if_false]

/-- The `switch` of the field loop, read through the specification's table:
a field that is valid under its tag leaves the locals alone, any other sets
`bad_record` and prints the message listed for the tag. -/
theorem fieldCase_eq (t : UnicodeTables) (index : GoString) (i x tag : Nat) (v : GoString)
    (sc : Scan) (h : index[x]? = some tag) :
    fieldCase t index i x v sc =
      some (if specFieldValid t tag v then sc
            else { bad_record := true, log := sc.log ++ [specMessage tag (i + 1) (x + 1)] }) := by
  unfold fieldCase
  simp only [h, utf8_S, utf8_F, utf8_N, utf8_B, utf8_Q, utf8_P, OnlyDigits_blank_allow]
  simp only [encodeRune_eq_single tag 0x53 (by decide), encodeRune_eq_single tag 0x46 (by decide),
    encodeRune_eq_single tag 0x4E (by decide), encodeRune_eq_single tag 0x42 (by decide),
    encodeRune_eq_single tag 0x51 (by decide), encodeRune_eq_single tag 0x50 (by decide)]
  unfold specFieldValid specMessage rowFieldMsg beyondMsg
  by_cases h1 : tag = 0x53
  · subst h1; cases OnlyPrintable t v (utf8 "BLANK_ALLOWED") <;> simp
  by_cases h2 : tag = 0x46
  · subst h2; cases IsFloat v (utf8 "BLANK_ALLOWED") <;> simp
  by_cases h3 : tag = 0x4E
  · subst h3; cases OnlyDigits t v (utf8 "BLANK_ALLOWED") <;> simp
  by_cases h4 : tag = 0x42
  · subst h4; cases OnlyPrintable t v (utf8 "NO_BLANK") <;> simp
  by_cases h5 : tag = 0x51
  · subst h5; cases IsFloat v (utf8 "NO_BLANK") <;> simp
  by_cases h6 : tag = 0x50
  · subst h6; cases OnlyDigits t v (utf8 "NO_BLANK") <;> simp
  simp [h1, h2, h3, h4, h5, h6]

/-! ## The field loop and the row step -/

theorem validFrom_eq_all (t : UnicodeTables) (index : GoString) (record : Record) (x : Nat) :
    validFrom t index x record
      = (record.enumFrom x).all (fun p => fieldValidAt t index p.1 p.2) := by
  induction record generalizing x with
  | nil => rfl
  | cons v vs ih => simp [validFrom, List.enumFrom_cons, ih]

theorem validFrom_zero (t : UnicodeTables) (index : GoString) (record : Record) :
    validFrom t index 0 record = specRecordValid t index record := by
  rw [validFrom_eq_all]; rfl

theorem validFrom_iff (t : UnicodeTables) (index : GoString) (record : Record) (x : Nat) :
    validFrom t index x record = true ↔
      ∀ k v, record[k]? = some v → fieldValidAt t index (x + k) v = true := by
  induction record generalizing x with
  | nil => simp [validFrom]
  | cons w ws ih =>
    simp only [validFrom, Bool.and_eq_true, ih]
    constructor
    · rintro ⟨h0, h1⟩ k v hk
      cases k with
      | zero => simp at hk; subst hk; simpa using h0
      | succ k =>
        have := h1 k v (by simpa using hk)
        rwa [show x + 1 + k = x + (k + 1) by omega] at this
    · intro h
      refine ⟨by simpa using h 0 w (by simp), fun k v hk => ?_⟩
      have := h (k + 1) v (by simpa using hk)
      rwa [show x + (k + 1) = x + 1 + k by omega] at this

/-- A record all of whose fields are valid is not wider than the schema. -/
theorem validFrom_length (t : UnicodeTables) (index : GoString) (record : Record) (x : Nat)
    (h : validFrom t index x record = true) (hx : x ≤ index.length) :
    x + record.length ≤ index.length := by
  induction record generalizing x with
  | nil => simpa using hx
  | cons v vs ih =>
    simp only [validFrom, Bool.and_eq_true] at h
    have hlt : x < index.length := by
      by_contra hge
      have : index[x]? = none := List.getElem?_eq_none (by omega)
      simp [fieldValidAt, this] at h
    have := ih (x + 1) h.2 hlt
    simp only [List.length_cons]; omega

theorem diagsFrom_of_valid (t : UnicodeTables) (index : GoString) (i : Nat) (record : Record)
    (x : Nat) (h : validFrom t index x record = true) :
    diagsFrom t index i x record = [] := by
  induction record generalizing x with
  | nil => rfl
  | cons v vs ih =>
    simp only [validFrom, Bool.and_eq_true] at h
    simp [diagsFrom, h.1, ih (x + 1) h.2]

/-- The field loop on a record that fits the schema checks every field: the
flag becomes true exactly when some field is invalid, and the log grows by
one message per invalid field. -/
theorem scanRecord_fits (t : UnicodeTables) (index : GoString) (i : Nat) (record : Record)
    (x : Nat) (sc : Scan) (h : x + record.length ≤ index.length) :
    scanRecord t index i x record sc =
      .completed { bad_record := sc.bad_record || !validFrom t index x record,
                   log := sc.log ++ diagsFrom t index i x record } := by
  induction record generalizing x sc with
  | nil => simp [scanRecord, validFrom, diagsFrom]
  | cons v vs ih =>
    simp only [List.length_cons] at h
    have hx : x < index.length := by omega
    have hget : index[x]? = some index[x] := List.getElem?_eq_getElem hx
    have hD : index.getD x 0 = index[x] := by
      simp [List.getD_eq_getElem?_getD, hget]
    rw [scanRecord, fieldCase_eq t index i x _ v sc hget]
    simp only []
    rw [ih (x + 1) _ (by omega)]
    simp only [validFrom, diagsFrom, fieldValidAt, hget, hD]
    cases hv : specFieldValid t index[x] v <;> simp

/-- The field loop on a record wider than the schema panics. -/
theorem scanRecord_too_wide (t : UnicodeTables) (index : GoString) (i : Nat) (record : Record)
    (x : Nat) (sc : Scan) (hx : x ≤ index.length) (h : index.length < x + record.length) :
    ∃ log, scanRecord t index i x record sc = .panicked log := by
  induction record generalizing x sc with
  | nil => simp at h; omega
  | cons v vs ih =>
    simp only [List.length_cons] at h
    by_cases hlt : x < index.length
    · have hget : index[x]? = some index[x] := List.getElem?_eq_getElem hlt
      rw [scanRecord, fieldCase_eq t index i x _ v sc hget]
      exact ih (x + 1) _ (by omega) (by omega)
    · have hnone : index[x]? = none := List.getElem?_eq_none (by omega)
      exact ⟨sc.log, by simp [scanRecord, fieldCase, hnone]⟩

/-- The row step on a record that fits the schema. -/
theorem rowStep_fits (t : UnicodeTables) (index : GoString) (s : State) (record : Record)
    (h : record.length ≤ index.length) :
    rowStep t index s record =
      .finished (if specRecordValid t index record then
          { s with good := s.good ++ [record], i := s.i + 1 }
        else
          { s with bad := s.bad ++ [record],
                   log := s.log ++ diagsFrom t index s.i 0 record }) := by
  unfold rowStep
  rw [scanRecord_fits t index s.i record 0 _ (by omega), validFrom_zero]
  cases hv : specRecordValid t index record
  · simp
  · have := diagsFrom_of_valid t index s.i record 0 (by rw [validFrom_zero]; exact hv)
    simp [this]

/-- The row step on a record wider than the schema panics, leaving both
outputs and the counter as they were. -/
theorem rowStep_too_wide (t : UnicodeTables) (index : GoString) (s : State) (record : Record)
    (h : index.length < record.length) :
    ∃ log, rowStep t index s record = .panicked { s with log := log } := by
  unfold rowStep
  obtain ⟨log, hlog⟩ := scanRecord_too_wide t index s.i record 0
    { bad_record := false, log := s.log } (by omega) (by omega)
  exact ⟨log, by rw [hlog]⟩

/-- A run that finishes has split its input by `specRecordValid`, and every
record of the input fits the schema. -/
theorem mainLoop_finished (t : UnicodeTables) (index : GoString) (input : List Record)
    (s s' : State) (h : mainLoop t index input s = .finished s') :
    s'.good = s.good ++ input.filter (fun r => specRecordValid t index r) ∧
    s'.bad = s.bad ++ input.filter (fun r => !specRecordValid t index r) ∧
    s'.i = s.i + (input.filter (fun r => specRecordValid t index r)).length ∧
    ∀ r ∈ input, r.length ≤ index.length := by
  induction input generalizing s with
  | nil =>
    simp only [mainLoop, Outcome.finished.injEq] at h
    subst h; simp
  | cons r rs ih =>
    by_cases hw : r.length ≤ index.length
    · rw [mainLoop, rowStep_fits t index s r hw] at h
      simp only [] at h
      obtain ⟨h1, h2, h3, h4⟩ := ih _ h
      have h5 : ∀ a ∈ r :: rs, a.length ≤ index.length := by
        intro a ha
        rcases List.mem_cons.1 ha with rfl | ha
        · exact hw
        · exact h4 a ha
      cases hv : specRecordValid t index r
      · simp only [hv, Bool.false_eq_true, if_false] at h1 h2 h3
        refine ⟨?_, ?_, ?_, h5⟩
        · simp [h1, hv]
        · simp [h2, hv]
        · simp [h3, hv]
      · simp only [hv, if_true] at h1 h2 h3
        refine ⟨?_, ?_, ?_, h5⟩
        · simp [h1, hv]
        · simp [h2, hv]
        · simp only [h3, List.filter_cons, hv, if_true, List.length_cons]; omega
    · obtain ⟨log, hlog⟩ := rowStep_too_wide t index s r (by omega)
      rw [mainLoop, hlog] at h
      exact absurd h (by simp)

/-- A run over records that are all valid accepts them all and logs nothing. -/
theorem mainLoop_all_valid (t : UnicodeTables) (index : GoString) (input : List Record)
    (s : State) (h : ∀ r ∈ input, specRecordValid t index r = true) :
    mainLoop t index input s =
      .finished { s with good := s.good ++ input, i := s.i + input.length } := by
  induction input generalizing s with
  | nil => simp [mainLoop]
  | cons r rs ih =>
    have hv : specRecordValid t index r = true := h r (by simp)
    have hw : r.length ≤ index.length := by
      have := validFrom_length t index r 0 (by rw [validFrom_zero]; exact hv) (by omega)
      omega
    rw [mainLoop, rowStep_fits t index s r hw]
    simp only [hv, if_true]
    rw [ih _ (fun r' hr' => h r' (by simp [hr']))]
    simp; omega

theorem specRecordValid_iff (t : UnicodeTables) (index : GoString) (record : Record) :
    specRecordValid t index record = true ↔
      ∀ (x : Nat) (v : GoString), record[x]? = some v →
        ∃ tag, index[x]? = some tag ∧ specFieldValid t tag v = true := by
  rw [← validFrom_zero, validFrom_iff]
  constructor
  · intro h x v hx
    have := h x v hx
    rw [Nat.zero_add] at this
    unfold fieldValidAt at this
    cases hi : index[x]? with
    | none => simp [hi] at this
    | some tag => exact ⟨tag, rfl, by simpa [hi] using this⟩
  · intro h x v hx
    obtain ⟨tag, htag, hv⟩ := h x v hx
    rw [Nat.zero_add]
    simp [fieldValidAt, htag, hv]

/-- Splitting a list by a list of verdicts that was computed from it is
filtering. -/
theorem filter_zip_map {α : Type} (p : α → Bool) (l : List α) :
    ((l.zip (l.map p)).filter (fun q => q.2)).map (fun q => q.1) = l.filter p ∧
    ((l.zip (l.map p)).filter (fun q => !q.2)).map (fun q => q.1) = l.filter (fun a => !p a) := by
  induction l with
  | nil => simp
  | cons a as ih =>
    cases h : p a <;> simp [h, ih.1, ih.2]

/-! ## The diagnostics -/

/-- A `Row ...` message is never the message of the `default` case. -/
theorem row_msg_ne_beyond (a : String) : "Row " ++ a ≠ beyondMsg := by
  intro h
  have := congrArg String.data h
  simp [String.data_append, beyondMsg] at this

theorem specMessage_eq_beyond_iff (tag R C : Nat) :
    specMessage tag R C = beyondMsg ↔ recognizedTag tag = false := by
  unfold specMessage recognizedTag
  simp only [String.append_assoc]
  by_cases h1 : tag = 0x53
  · simp [h1, row_msg_ne_beyond]
  by_cases h2 : tag = 0x46
  · simp [h2, row_msg_ne_beyond]
  by_cases h3 : tag = 0x4E
  · simp [h3, row_msg_ne_beyond]
  by_cases h4 : tag = 0x42
  · simp [h4, row_msg_ne_beyond]
  by_cases h5 : tag = 0x51
  · simp [h5, row_msg_ne_beyond]
  by_cases h6 : tag = 0x50
  · simp [h6, row_msg_ne_beyond]
  simp [h1, h2, h3, h4, h5, h6, beyondMsg]

theorem specFieldValid_of_unrecognized (t : UnicodeTables) (tag : Nat) (v : GoString)
    (h : recognizedTag tag = false) : specFieldValid t tag v = false := by
  unfold recognizedTag at h
  simp only [Bool.or_eq_false_iff, decide_eq_false_iff_not] at h
  obtain ⟨⟨⟨⟨⟨h1, h2⟩, h3⟩, h4⟩, h5⟩, h6⟩ := h
  simp [specFieldValid, h1, h2, h3, h4, h5, h6]

/-- Among the diagnostics of a record that fits the schema, the message of
the `default` case occurs once per field under an unrecognized tag. -/
theorem diagsFrom_count_beyond (t : UnicodeTables) (index : GoString) (i : Nat)
    (record : Record) (x : Nat) (h : x + record.length ≤ index.length) :
    (diagsFrom t index i x record).count beyondMsg
      = ((record.enumFrom x).filter (fun p => unrecognizedAt index p.1)).length := by
  induction record generalizing x with
  | nil => simp [diagsFrom]
  | cons v vs ih =>
    simp only [List.length_cons] at h
    have hx : x < index.length := by omega
    have hget : index[x]? = some index[x] := List.getElem?_eq_getElem hx
    have hD : index.getD x 0 = index[x] := by
      simp [List.getD_eq_getElem?_getD, hget]
    simp only [diagsFrom, List.count_append, ih (x + 1) (by omega), List.enumFrom_cons,
      List.filter_cons, fieldValidAt, unrecognizedAt, hget, hD]
    cases hr : recognizedTag index[x]
    · simp [specFieldValid_of_unrecognized t _ v hr,
        (specMessage_eq_beyond_iff index[x] (i + 1) (x + 1)).2 hr]
      omega
    · have hne : specMessage index[x] (i + 1) (x + 1) ≠ beyondMsg := by
        intro hc
        rw [specMessage_eq_beyond_iff, hr] at hc
        exact absurd hc (by simp)
      cases hv : specFieldValid t index[x] v
      · simp [List.count_cons, hne]
      · simp

/-- A field under an unrecognized tag makes the record invalid. -/
theorem specRecordValid_of_unrecognized (t : UnicodeTables) (index : GoString)
    (record : Record) (x : Nat) (hx : x < record.length)
    (hu : unrecognizedAt index x = true) : specRecordValid t index record = false := by
  cases hv : specRecordValid t index record
  · rfl
  · obtain ⟨tag, htag, hok⟩ :=
      (specRecordValid_iff t index record).1 hv x record[x] (List.getElem?_eq_getElem hx)
    simp only [unrecognizedAt, htag, Bool.not_eq_true'] at hu
    rw [specFieldValid_of_unrecognized t tag _ hu] at hok
    exact absurd hok (by simp)

theorem fieldCase_log (t : UnicodeTables) (index : GoString) (i x : Nat) (v : GoString)
    (sc sc' : Scan) (h : fieldCase t index i x v sc = some sc')
    (hlog : ∀ m ∈ sc.log, IsSpecMessage m) : ∀ m ∈ sc'.log, IsSpecMessage m := by
  cases hi : index[x]? with
  | none => simp [fieldCase, hi] at h
  | some tag =>
    rw [fieldCase_eq t index i x tag v sc hi] at h
    cases hv : specFieldValid t tag v
    · simp only [hv, Bool.false_eq_true, if_false, Option.some.injEq] at h
      subst h
      intro m hm
      rcases List.mem_append.1 hm with hm | hm
      · exact hlog m hm
      · exact ⟨tag, i + 1, x + 1, by omega, by omega, by simpa using hm⟩
    · simp only [hv, if_true, Option.some.injEq] at h
      subst h
      exact hlog

theorem scanRecord_log (t : UnicodeTables) (index : GoString) (i : Nat) (record : Record)
    (x : Nat) (sc : Scan) (hlog : ∀ m ∈ sc.log, IsSpecMessage m) :
    match scanRecord t index i x record sc with
    | .completed sc' => ∀ m ∈ sc'.log, IsSpecMessage m
    | .panicked log => ∀ m ∈ log, IsSpecMessage m := by
  induction record generalizing x sc with
  | nil => simpa [scanRecord] using hlog
  | cons v vs ih =>
    rw [scanRecord]
    cases hf : fieldCase t index i x v sc with
    | none => simpa using hlog
    | some sc' => exact ih (x + 1) sc' (fieldCase_log t index i x v sc sc' hf hlog)

theorem rowStep_log (t : UnicodeTables) (index : GoString) (s : State) (record : Record)
    (hlog : ∀ m ∈ s.log, IsSpecMessage m) :
    ∀ m ∈ (rowStep t index s record).state.log, IsSpecMessage m := by
  have := scanRecord_log t index s.i record 0 { bad_record := false, log := s.log } hlog
  unfold rowStep
  cases hs : scanRecord t index s.i 0 record { bad_record := false, log := s.log } with
  | panicked log =>
    rw [hs] at this
    simpa [Outcome.state] using this
  | completed sc =>
    rw [hs] at this
    by_cases hb : sc.bad_record = true
    · simpa [Outcome.state, hb] using this
    · simpa [Outcome.state, hb] using this

theorem mainLoop_log (t : UnicodeTables) (index : GoString) (input : List Record) (s : State)
    (hlog : ∀ m ∈ s.log, IsSpecMessage m) :
    ∀ m ∈ (mainLoop t index input s).state.log, IsSpecMessage m := by
  induction input generalizing s with
  | nil => simpa [mainLoop, Outcome.state] using hlog
  | cons r rs ih =>
    have hr := rowStep_log t index s r hlog
    rw [mainLoop]
    cases hs : rowStep t index s r with
    | finished s' =>
      rw [hs] at hr
      exact ih s' (by simpa [Outcome.state] using hr)
    | panicked s' =>
      rw [hs] at hr
      simpa [Outcome.state] using hr

/-! ## Runes and digits -/

theorem leadInfo_bounds (b0 sz lo hi : Nat) (h : leadInfo b0 = some (sz, lo, hi)) :
    0x80 ≤ lo := by
  unfold leadInfo at h
  split_ifs at h <;> simp at h <;> omega

theorem decodeRune_width_pos (b0 : Nat) (rest : GoString) :
    1 ≤ (decodeRune (b0 :: rest)).2 := by
  simp only [decodeRune]
  repeat' split
  all_goals simp

theorem decodeRune_keeps_ascii (s : GoString) (b : Nat) (hb : b ∈ s) (hlt : b < 0x80) :
    (decodeRune s).1 = b ∨ b ∈ s.drop (decodeRune s).2 := by
  cases s with
  | nil => simp at hb
  | cons b0 rest =>
    simp only [decodeRune]
    by_cases h0 : b0 < 0x80
    · simp only [h0, if_true]
      rcases List.mem_cons.1 hb with rfl | h
      · exact Or.inl rfl
      · exact Or.inr (by simpa using h)
    · have hrest : b ∈ rest := by
        rcases List.mem_cons.1 hb with rfl | h
        · omega
        · exact h
      simp only [h0, if_false]
      right
      split
      · simpa using hrest
      · rename_i sz lo hi hlead
        have hlo := leadInfo_bounds b0 sz lo hi hlead
        repeat' split
        all_goals simp only [List.drop_succ_cons, List.drop_zero]
        all_goals (try exact hrest)
        all_goals simp only [isCont, Bool.not_eq_true', Bool.and_eq_false_iff, decide_eq_false_iff_not, List.mem_cons, not_or] at *
        all_goals first
          | (rcases hrest with h | h <;> first | exact h | omega)
          | (rcases hrest with h | h | h <;> first | exact h | omega)
          | (rcases hrest with h | h | h | h <;> first | exact h | omega)

/-- The decoding loop does not depend on its fuel once the fuel covers the
length of the string: every step consumes at least one byte. -/
theorem runesAux_fuel (fuel₁ fuel₂ : Nat) (s : GoString)
    (h₁ : s.length ≤ fuel₁) (h₂ : s.length ≤ fuel₂) :
    runesAux fuel₁ s = runesAux fuel₂ s := by
  induction fuel₁ generalizing fuel₂ s with
  | zero =>
    have : s = [] := List.length_eq_zero.1 (by omega)
    subst this
    cases fuel₂ <;> rfl
  | succ n ih =>
    cases s with
    | nil => cases fuel₂ <;> rfl
    | cons c rest =>
      cases fuel₂ with
      | zero => simp at h₂
      | succ m =>
        have hw := decodeRune_width_pos c rest
        simp only [runesAux]
        rw [ih m ((c :: rest).drop (decodeRune (c :: rest)).2)
          (by simp only [List.length_drop, List.length_cons] at h₁ ⊢; omega)
          (by simp only [List.length_drop, List.length_cons] at h₂ ⊢; omega)]

/-- One step of the conversion `[]rune(str)` on a non-empty string. -/
theorem runes_cons (c : Nat) (rest : GoString) :
    runes (c :: rest) =
      (decodeRune (c :: rest)).1 :: runes ((c :: rest).drop (decodeRune (c :: rest)).2) := by
  have hw := decodeRune_width_pos c rest
  unfold runes
  rw [List.length_cons, runesAux]
  rw [runesAux_fuel rest.length _ ((c :: rest).drop (decodeRune (c :: rest)).2)
    (by simp only [List.length_drop, List.length_cons]; omega) (Nat.le_refl _)]

/-- An ASCII byte of a string is one of its runes. -/
theorem mem_runesAux_of_ascii (b : Nat) (hlt : b < 0x80) (fuel : Nat) (s : GoString)
    (hfuel : s.length ≤ fuel) (hb : b ∈ s) : b ∈ runesAux fuel s := by
  induction fuel generalizing s with
  | zero =>
    have : s = [] := List.length_eq_zero.1 (by omega)
    subst this; simp at hb
  | succ fuel ih =>
    cases s with
    | nil => simp at hb
    | cons c rest =>
      rw [runesAux]
      rcases decodeRune_keeps_ascii (c :: rest) b hb hlt with h | h
      · rw [h]; exact List.mem_cons_self _ _
      · refine List.mem_cons_of_mem _ (ih _ ?_ h)
        have := decodeRune_width_pos c rest
        simp only [List.length_drop, List.length_cons] at hfuel ⊢
        omega

theorem mem_runes_of_ascii (b : Nat) (hlt : b < 0x80) (s : GoString) (hb : b ∈ s) :
    b ∈ runes s :=
  mem_runesAux_of_ascii b hlt s.length s (Nat.le_refl _) hb

/-- An ASCII string is its own rune sequence. -/
theorem runesAux_ascii (fuel : Nat) (s : GoString) (hfuel : s.length ≤ fuel)
    (h : ∀ b ∈ s, b < 0x80) : runesAux fuel s = s := by
  induction fuel generalizing s with
  | zero =>
    have : s = [] := List.length_eq_zero.1 (by omega)
    subst this; rfl
  | succ fuel ih =>
    cases s with
    | nil => rfl
    | cons c rest =>
      have hc : c < 0x80 := h c (by simp)
      have hd : decodeRune (c :: rest) = (c, 1) := by simp [decodeRune, hc]
      rw [runesAux, hd]
      simp only [List.drop_succ_cons, List.drop_zero]
      rw [ih rest (by simpa using hfuel) (fun b hb => h b (by simp [hb]))]

theorem runes_ascii (s : GoString) (h : ∀ b ∈ s, b < 0x80) : runes s = s :=
  runesAux_ascii s.length s (Nat.le_refl _) h

theorem digitLoop_iff (t : UnicodeTables) (rs : List Nat) :
    digitLoop t rs = true ↔ ∀ r ∈ rs, IsDigit t r = true := by
  induction rs with
  | nil => simp [digitLoop]
  | cons r rs ih =>
    rw [digitLoop]
    cases hr : IsDigit t r <;> simp [hr, ih]

theorem OnlyDigits_nonempty (t : UnicodeTables) (s mode : GoString) (hs : s ≠ []) :
    OnlyDigits t s mode = digitLoop t (runes s) := by
  simp [OnlyDigits, hs]

theorem IsDigit_latin1 (t : UnicodeTables) (r : Nat) (h : r ≤ 0xFF) :
    IsDigit t r = true ↔ 0x30 ≤ r ∧ r ≤ 0x39 := by
  simp [IsDigit, MaxLatin1, h]

/-! ## Runs -/

theorem mainLoop_append (t : UnicodeTables) (index : GoString) (xs ys : List Record)
    (s : State) :
    mainLoop t index (xs ++ ys) s =
      match mainLoop t index xs s with
      | .finished s' => mainLoop t index ys s'
      | .panicked s' => .panicked s' := by
  induction xs generalizing s with
  | nil => simp [mainLoop]
  | cons r rs ih =>
    simp only [List.cons_append, mainLoop]
    cases rowStep t index s r with
    | finished s' => simpa using ih s'
    | panicked s' => rfl

/-- A run over records that all fit the schema finishes. -/
theorem mainLoop_fits (t : UnicodeTables) (index : GoString) (input : List Record)
    (s : State) (h : ∀ r ∈ input, r.length ≤ index.length) :
    ∃ s', mainLoop t index input s = .finished s' := by
  induction input generalizing s with
  | nil => exact ⟨s, rfl⟩
  | cons r rs ih =>
    rw [mainLoop, rowStep_fits t index s r (h r (by simp))]
    exact ih _ (fun q hq => h q (by simp [hq]))

/-- A run stops in a panic at the first record wider than the schema, with
the outputs and the counter reached on the records before it. -/
theorem mainLoop_too_wide (t : UnicodeTables) (index : GoString) (pre post : List Record)
    (r : Record) (s : State) (hpre : ∀ q ∈ pre, q.length ≤ index.length)
    (hr : index.length < r.length) :
    ∃ s₁ log, mainLoop t index pre s = .finished s₁ ∧
      rowStep t index s₁ r = .panicked { s₁ with log := log } ∧
      mainLoop t index (pre ++ r :: post) s = .panicked { s₁ with log := log } := by
  obtain ⟨s₁, hs₁⟩ := mainLoop_fits t index pre s hpre
  obtain ⟨log, hlog⟩ := rowStep_too_wide t index s₁ r hr
  refine ⟨s₁, log, hs₁, hlog, ?_⟩
  rw [mainLoop_append, hs₁]
  simp only [mainLoop, hlog]

/-- A run that panicked did so at a record wider than the schema, all
records before it fitting. -/
theorem mainLoop_panicked (t : UnicodeTables) (index : GoString) (input : List Record)
    (s s' : State) (h : mainLoop t index input s = .panicked s') :
    ∃ pre r post, input = pre ++ r :: post ∧ (∀ q ∈ pre, q.length ≤ index.length) ∧
      index.length < r.length := by
  induction input generalizing s with
  | nil => simp [mainLoop] at h
  | cons r rs ih =>
    by_cases hw : r.length ≤ index.length
    · rw [mainLoop, rowStep_fits t index s r hw] at h
      obtain ⟨pre, q, post, hin, hpre, hq⟩ := ih _ h
      refine ⟨r :: pre, q, post, by simp [hin], ?_, hq⟩
      intro a ha
      rcases List.mem_cons.1 ha with rfl | ha
      · exact hw
      · exact hpre a ha
    · exact ⟨[], r, rs, rfl, by simp, by omega⟩

/-- The row step only appends to the two outputs. -/
theorem rowStep_prefix (t : UnicodeTables) (index : GoString) (s : State) (r : Record) :
    s.good <+: (rowStep t index s r).state.good ∧
    s.bad <+: (rowStep t index s r).state.bad := by
  by_cases hw : r.length ≤ index.length
  · rw [rowStep_fits t index s r hw]
    cases specRecordValid t index r <;> simp [Outcome.state]
  · obtain ⟨log, hlog⟩ := rowStep_too_wide t index s r (by omega)
    rw [hlog]
    simp [Outcome.state]

/-- A run only appends to the two outputs. -/
theorem mainLoop_prefix (t : UnicodeTables) (index : GoString) (input : List Record)
    (s : State) :
    s.good <+: (mainLoop t index input s).state.good ∧
    s.bad <+: (mainLoop t index input s).state.bad := by
  induction input generalizing s with
  | nil => simp [mainLoop, Outcome.state]
  | cons r rs ih =>
    have hr := rowStep_prefix t index s r
    rw [mainLoop]
    cases hs : rowStep t index s r with
    | finished s' =>
      rw [hs] at hr
      simp only [Outcome.state] at hr
      exact ⟨hr.1.trans (ih s').1, hr.2.trans (ih s').2⟩
    | panicked s' =>
      rw [hs] at hr
      exact hr

theorem diagsFrom_eq_filterMap (t : UnicodeTables) (index : GoString) (i : Nat)
    (record : Record) (x : Nat) :
    diagsFrom t index i x record = (record.enumFrom x).filterMap (fieldDiag t index i) := by
  induction record generalizing x with
  | nil => rfl
  | cons v vs ih =>
    simp only [diagsFrom, List.enumFrom_cons, List.filterMap_cons, fieldDiag, ih]
    cases fieldValidAt t index x v <;> simp

theorem diagsFrom_eq_nil_iff (t : UnicodeTables) (index : GoString) (i : Nat)
    (record : Record) (x : Nat) :
    diagsFrom t index i x record = [] ↔ validFrom t index x record = true := by
  induction record generalizing x with
  | nil => simp [diagsFrom, validFrom]
  | cons v vs ih =>
    simp only [diagsFrom, validFrom, List.append_eq_nil, ih, Bool.and_eq_true]
    cases fieldValidAt t index x v <;> simp

/-- The log after the row step on a record that fits the schema: one message
per invalid field, in field order. -/
theorem rowStep_fits_log (t : UnicodeTables) (index : GoString) (s s' : State)
    (record : Record) (hw : record.length ≤ index.length)
    (h : rowStep t index s record = .finished s') :
    s'.log = s.log ++ record.enum.filterMap (fieldDiag t index s.i) := by
  rw [rowStep_fits t index s record hw] at h
  have hd : diagsFrom t index s.i 0 record = record.enum.filterMap (fieldDiag t index s.i) :=
    diagsFrom_eq_filterMap t index s.i record 0
  cases hv : specRecordValid t index record
  · simp only [hv, Bool.false_eq_true, if_false, Outcome.finished.injEq] at h
    subst h
    simp [hd]
  · have hnil := diagsFrom_of_valid t index s.i record 0 (by rw [validFrom_zero]; exact hv)
    simp only [hv, if_true, Outcome.finished.injEq] at h
    subst h
    rw [← hd, hnil]
    simp

/-- A finished run, cut before one of its records. -/
theorem mainLoop_split (t : UnicodeTables) (index : GoString) (pre post : List Record)
    (r : Record) (s s' : State) (h : mainLoop t index (pre ++ r :: post) s = .finished s') :
    r.length ≤ index.length ∧
    ∃ s₁ s₂, mainLoop t index pre s = .finished s₁ ∧ rowStep t index s₁ r = .finished s₂ ∧
      mainLoop t index post s₂ = .finished s' := by
  have hfit := (mainLoop_finished t index _ s s' h).2.2.2
  have hr : r.length ≤ index.length := hfit r (by simp)
  obtain ⟨s₁, hs₁⟩ := mainLoop_fits t index pre s (fun q hq => hfit q (by simp [hq]))
  rw [mainLoop_append, hs₁] at h
  simp only [mainLoop] at h
  refine ⟨hr, s₁, _, hs₁, rowStep_fits t index s₁ r hr, ?_⟩
  rw [rowStep_fits t index s₁ r hr] at h
  exact h

theorem printLoop_iff (t : UnicodeTables) (rs : List Nat) :
    printLoop t rs = true ↔ ∀ r ∈ rs, IsPrint t r = true := by
  induction rs with
  | nil => simp [printLoop]
  | cons r rs ih =>
    rw [printLoop]
    cases hr : IsPrint t r <;> simp [hr, ih]

theorem OnlyPrintable_nonempty (t : UnicodeTables) (s mode : GoString) (hs : s ≠ []) :
    OnlyPrintable t s mode = printLoop t (runes s) := by
  simp [OnlyPrintable, hs]

theorem IsFloat_nonempty (s mode : GoString) (hs : s ≠ []) :
    IsFloat s mode = ParseFloatOk s := by
  simp [IsFloat, hs]

theorem IsPrint_ascii (t : UnicodeTables) (r : Nat) (h : r < 0x80) :
    IsPrint t r = true ↔ 0x20 ≤ r ∧ r ≤ 0x7E := by
  have h1 : r ≤ MaxLatin1 := by unfold MaxLatin1; omega
  simp only [IsPrint, h1, if_true, Bool.or_eq_true, Bool.and_eq_true, decide_eq_true_eq]
  constructor
  · rintro (h | h)
    · exact h
    · omega
  · intro h; exact Or.inl h

theorem specFieldValid_relax (t : UnicodeTables) (tag : Nat) (v : GoString)
    (h : specFieldValid t tag v = true) : specFieldValid t (relaxTag tag) v = true := by
  have hne : v ≠ [] → OnlyPrintable t v (utf8 "NO_BLANK") = OnlyPrintable t v (utf8 "BLANK_ALLOWED")
      ∧ IsFloat v (utf8 "NO_BLANK") = IsFloat v (utf8 "BLANK_ALLOWED")
      ∧ OnlyDigits t v (utf8 "NO_BLANK") = OnlyDigits t v (utf8 "BLANK_ALLOWED") := by
    intro hv
    simp [OnlyPrintable, IsFloat, OnlyDigits, hv]
  by_cases hv : v = []
  · subst hv
    unfold specFieldValid relaxTag at *
    by_cases h4 : tag = 0x42
    · subst h4; simp [OnlyPrintable] at h
    by_cases h5 : tag = 0x51
    · subst h5; simp [IsFloat] at h
    by_cases h6 : tag = 0x50
    · subst h6; simp [OnlyDigits] at h
    simpa [h4, h5, h6] using h
  · obtain ⟨e1, e2, e3⟩ := hne hv
    unfold specFieldValid relaxTag at *
    by_cases h4 : tag = 0x42
    · subst h4; simpa [e1] using h
    by_cases h5 : tag = 0x51
    · subst h5; simpa [e2] using h
    by_cases h6 : tag = 0x50
    · subst h6; simpa [e3] using h
    simpa [h4, h5, h6] using h

theorem specRecordValid_relax (t : UnicodeTables) (index : GoString) (record : Record)
    (h : specRecordValid t index record = true) :
    specRecordValid t (relaxSchema index) record = true := by
  rw [specRecordValid_iff] at h ⊢
  intro x v hx
  obtain ⟨tag, htag, hv⟩ := h x v hx
  exact ⟨relaxTag tag, by simp [relaxSchema, htag], specFieldValid_relax t tag v hv⟩

/-! ## `ParseFloat` on the text of a decimal number -/

theorem digitsVal_append (as bs : GoString) :
    digitsVal (as ++ bs) = digitsVal as * 10 ^ bs.length + digitsVal bs := by
  unfold digitsVal
  rw [List.foldl_append]
  generalize List.foldl (fun a c => a * 10 + (c - 0x30)) 0 as = a
  induction bs generalizing a with
  | nil => simp
  | cons b bs ih =>
    simp only [List.foldl_cons, List.length_cons]
    rw [ih (a * 10 + (b - 48)), ih (0 * 10 + (b - 48))]
    ring

theorem digitsVal_cons (c : Nat) (bs : GoString) :
    digitsVal (c :: bs) = (c - 0x30) * 10 ^ bs.length + digitsVal bs := by
  have := digitsVal_append [c] bs
  simpa [digitsVal] using this

theorem digitsVal_lt (bs : GoString) (h : AllDigits bs) : digitsVal bs < 10 ^ bs.length := by
  induction bs with
  | nil => simp [digitsVal]
  | cons c cs ih =>
    rw [digitsVal_cons, List.length_cons, pow_succ]
    have hc := h c (by simp)
    have := ih (fun b hb => h b (by simp [hb]))
    have h9 : (c - 0x30) * 10 ^ cs.length ≤ 9 * 10 ^ cs.length :=
      Nat.mul_le_mul_right _ (by omega)
    omega

theorem lower_digit (c : Nat) (h : 0x30 ≤ c ∧ c ≤ 0x39) : lower c = c := by
  obtain ⟨h1, h2⟩ := h
  interval_cases c <;> rfl

theorem isDecDigit_of (c : Nat) (h : 0x30 ≤ c ∧ c ≤ 0x39) : isDecDigit c = true := by
  simp [isDecDigit, h.1, h.2]

/-- The digit loop of `readFloat` runs through a string of decimal digits. -/
theorem mantLoop_digits (ds rest : GoString) (st : MantState) (hds : AllDigits ds) :
    ∃ st', mantLoop 10 19 (ds ++ rest) st = mantLoop 10 19 rest st' ∧
      st'.sawdigits = (st.sawdigits || !ds.isEmpty) ∧
      st'.underscores = st.underscores ∧ st'.sawdot = st.sawdot := by
  induction ds generalizing st with
  | nil => exact ⟨st, rfl, by simp, rfl, rfl⟩
  | cons c cs ih =>
    have hc := hds c (by simp)
    have hcs : AllDigits cs := fun b hb => hds b (by simp [hb])
    have h1 : c ≠ 0x5F := by omega
    have h2 : c ≠ 0x2E := by omega
    rw [List.cons_append, mantLoop]
    simp only [h1, h2, if_false, isDecDigit_of c hc, if_true]
    split_ifs
    all_goals
      obtain ⟨st', e1, e2, e3, e4⟩ := ih _ hcs
      exact ⟨st', e1, by simp [e2], by simp [e3], by simp [e4]⟩

theorem decimalLoop_digit (c : Nat) (rest : GoString) (d : Decimal)
    (hc : 0x30 ≤ c ∧ c ≤ 0x39) (hinv : d.Inv) :
    ∃ d', decimalLoop (c :: rest) d = decimalLoop rest d' ∧
      d'.sawdot = d.sawdot ∧ d'.sawdigits = true ∧
      d'.digits = d.digits * 10 + (c - 0x30) ∧ d'.Inv ∧ d'.nd ≤ d.nd + 1 ∧
      d'.dp - d'.nd = d.dp - d.nd - 1 := by
  have h1 : c ≠ 0x5F := by omega
  have h2 : c ≠ 0x2E := by omega
  obtain ⟨hlt, hge⟩ := hinv
  rw [decimalLoop]
  simp only [h1, h2, if_false, isDecDigit_of c hc, if_true]
  by_cases hz : c = 0x30 ∧ d.nd = 0
  · simp only [hz, and_self, if_true]
    refine ⟨_, rfl, rfl, rfl, ?_, ⟨?_, ?_⟩, ?_, ?_⟩
    · have : d.digits = 0 := by
        have := hlt; rw [hz.2] at this; simpa using this
      simp [this]
    · simpa [hz.2] using hlt
    · intro h; simp at h
    · simp
    · simp only []; omega
  · simp only [hz, if_false]
    refine ⟨_, rfl, rfl, rfl, rfl, ⟨?_, ?_⟩, ?_, ?_⟩
    · simp only [pow_succ]; omega
    · intro _
      simp only [Nat.add_sub_cancel]
      by_cases hnd : d.nd = 0
      · have hd0 : d.digits = 0 := by
          have := hlt; rw [hnd] at this; simpa using this
        have hc0 : c ≠ 0x30 := fun hc0 => hz ⟨hc0, hnd⟩
        rw [hnd, hd0]; simp; omega
      · have := hge (by omega)
        have hp : 10 ^ d.nd = 10 ^ (d.nd - 1) * 10 := by
          rw [← pow_succ]; congr 1; omega
        omega
    · simp
    · simp only []; push_cast; omega

/-- The digit loop of `decimal.set` runs through a string of decimal digits
and accumulates its value. -/
theorem decimalLoop_digits (ds rest : GoString) (d : Decimal) (hds : AllDigits ds)
    (hinv : d.Inv) :
    ∃ d', decimalLoop (ds ++ rest) d = decimalLoop rest d' ∧
      d'.sawdot = d.sawdot ∧ d'.sawdigits = (d.sawdigits || !ds.isEmpty) ∧
      d'.digits = d.digits * 10 ^ ds.length + digitsVal ds ∧ d'.Inv ∧
      d'.nd ≤ d.nd + ds.length ∧
      d'.dp - d'.nd = d.dp - d.nd - ds.length := by
  induction ds generalizing d with
  | nil => exact ⟨d, rfl, rfl, by simp, by simp [digitsVal], hinv, by simp, by simp⟩
  | cons c cs ih =>
    have hc := hds c (by simp)
    have hcs : AllDigits cs := fun b hb => hds b (by simp [hb])
    obtain ⟨d₁, e1, e2, e3, e4, e5, e6, e7⟩ :=
      decimalLoop_digit c (cs ++ rest) d hc hinv
    obtain ⟨d₂, f1, f2, f3, f4, f5, f6, f7⟩ := ih d₁ hcs e5
    refine ⟨d₂, by rw [List.cons_append, e1, f1], by rw [f2, e2], by simp [f3, e3], ?_, f5,
      ?_, ?_⟩
    · rw [f4, e4, digitsVal_cons, List.length_cons, pow_succ]; ring
    · simp only [List.length_cons]; omega
    · simp only [List.length_cons]; push_cast; omega

/-- The exponent loop runs through a string of decimal digits whose value
stays below the saturation bound and returns that value. -/
theorem expLoop_digits (ds : GoString) (e : Nat) (u : Bool) (hds : AllDigits ds)
    (hcap : e * 10 ^ ds.length + digitsVal ds < 100000) :
    expLoop ds e u = (e * 10 ^ ds.length + digitsVal ds, u, []) := by
  induction ds generalizing e with
  | nil => simp [expLoop, digitsVal]
  | cons c cs ih =>
    have hc := hds c (by simp)
    have hcs : AllDigits cs := fun b hb => hds b (by simp [hb])
    have h1 : c ≠ 0x5F := by omega
    rw [digitsVal_cons, List.length_cons, pow_succ] at hcap
    have hpos : 1 ≤ 10 ^ cs.length := Nat.one_le_pow _ _ (by decide)
    have he : e < 10000 := by
      have : e * 10 * 1 ≤ e * (10 ^ cs.length * 10) := by
        rw [Nat.mul_assoc]
        exact Nat.mul_le_mul_left _ (by omega)
      omega
    rw [expLoop]
    simp only [h1, if_false, isDecDigit_of c hc, if_true, he]
    rw [ih (e * 10 + (c - 0x30)) hcs (by
      have : (e * 10 + (c - 0x30)) * 10 ^ cs.length
          = e * (10 ^ cs.length * 10) + (c - 0x30) * 10 ^ cs.length := by ring
      omega)]
    rw [digitsVal_cons, List.length_cons, pow_succ]
    congr 1
    ring

/-- The exponent loop runs through a string of decimal digits and returns
the value that `expVal` describes. -/
theorem expLoop_expVal (ds : GoString) (e : Nat) (u : Bool) (hds : AllDigits ds) :
    expLoop ds e u
      = (ds.foldl (fun e c => if e < 10000 then e * 10 + (c - 0x30) else e) e, u, []) := by
  induction ds generalizing e with
  | nil => simp [expLoop]
  | cons c cs ih =>
    have hc := hds c (by simp)
    have hcs : AllDigits cs := fun b hb => hds b (by simp [hb])
    have h1 : c ≠ 0x5F := by omega
    rw [expLoop]
    simp only [h1, if_false, isDecDigit_of c hc, if_true, List.foldl_cons]
    exact ih _ hcs

/-- Below 100000 the exponent is read as the value of its digits. -/
theorem expVal_eq_digitsVal (ds : GoString) (hds : AllDigits ds)
    (hcap : digitsVal ds < 100000) : expVal ds = digitsVal ds := by
  have h1 := expLoop_expVal ds 0 false hds
  have h2 := expLoop_digits ds 0 false hds (by simpa using hcap)
  rw [h1] at h2
  simpa [expVal] using congrArg Prod.fst h2

theorem utf8_infinity :
    utf8 "infinity" = [0x69, 0x6E, 0x66, 0x69, 0x6E, 0x69, 0x74, 0x79] := by decide

/-- The exponent of a well-formed decimal text, read by `expPart`. -/
theorem expPart_expText (d : DecimalText) (hwf : d.WellFormed) :
    expPart 0x65 false d.expText = some (d.exponent, false, []) := by
  obtain ⟨-, -, -, -, hexp⟩ := hwf
  unfold DecimalText.expText DecimalText.exponent
  cases hx : d.exp with
  | none => simp [expPart]
  | some p =>
    obtain ⟨e, es, ed⟩ := p
    obtain ⟨he, hes, hed, hne⟩ := hexp e es ed hx
    simp only []
    have hl : lower e = 0x65 := by rcases he with rfl | rfl <;> rfl
    have hloop : expLoop ed 0 false = (expVal ed, false, []) := expLoop_expVal ed 0 false hed
    obtain ⟨c, cs, rfl⟩ := List.exists_cons_of_ne_nil hne
    have hc := hed c (by simp)
    have hd := isDecDigit_of c hc
    rcases hes with rfl | rfl | rfl
    · have h1 : c ≠ 0x2B := by omega
      have h2 : c ≠ 0x2D := by omega
      simp [expPart, hl, h1, h2, hd, hloop]
    · simp [expPart, hl, hd, hloop]
    · simp [expPart, hl, hd, hloop]

/-- The digits and the point of a well-formed decimal text start with a
digit or with the point. -/
theorem body_head (d : DecimalText) (hwf : d.WellFormed) :
    ∃ c cs, d.intPart ++ (d.fracText ++ d.expText) = c :: cs ∧
      ((0x30 ≤ c ∧ c ≤ 0x39) ∨ c = 0x2E) := by
  obtain ⟨-, hip, hne, -, -⟩ := hwf
  cases hi : d.intPart with
  | cons c cs => exact ⟨c, _, rfl, Or.inl (hip c (by simp [hi]))⟩
  | nil =>
    unfold DecimalText.fracDigits at hne
    unfold DecimalText.fracText
    cases hf : d.frac with
    | none => simp [hi, hf] at hne
    | some f => exact ⟨0x2E, _, rfl, Or.inr rfl⟩

/-- A well-formed decimal text is not a spelling of infinity or NaN. -/
theorem special_text (d : DecimalText) (hwf : d.WellFormed) : special d.text = none := by
  obtain ⟨c, cs, hcs, hc⟩ := body_head d hwf
  obtain ⟨hsign, -, -, -, -⟩ := hwf
  unfold DecimalText.text
  rw [hcs]
  have hpre : ∀ rest, commonPrefixLenIgnoreCase (c :: rest) (utf8 "infinity") = 0 := by
    intro rest
    rw [utf8_infinity, commonPrefixLenIgnoreCase]
    have h1 : ¬ (0x41 ≤ c ∧ c ≤ 0x5A) := by omega
    have h2 : c ≠ 0x69 := by omega
    simp [h1, h2]
  rcases hsign with h | h | h <;> rw [h]
  · have h1 : ¬ (c = 0x2B ∨ c = 0x2D) := by omega
    have h2 : ¬ (c = 0x69 ∨ c = 0x49) := by omega
    have h3 : ¬ (c = 0x6E ∨ c = 0x4E) := by omega
    simp [special, h1, h2, h3]
  · simp [special, specialInf, hpre]
  · simp [special, specialInf, hpre]

/-- The exponent text starts with `e` or `E` when it is not empty. -/
theorem expText_head (d : DecimalText) (hwf : d.WellFormed) :
    d.expText = [] ∨ ∃ e rest, d.expText = e :: rest ∧ (e = 0x65 ∨ e = 0x45) := by
  obtain ⟨-, -, -, -, hexp⟩ := hwf
  unfold DecimalText.expText
  cases hx : d.exp with
  | none => exact Or.inl rfl
  | some p =>
    obtain ⟨e, es, ed⟩ := p
    exact Or.inr ⟨e, es ++ ed, rfl, (hexp e es ed hx).1⟩

theorem mantLoop_stop (d : DecimalText) (hwf : d.WellFormed) (st : MantState) :
    mantLoop 10 19 d.expText st = (st, d.expText) := by
  rcases expText_head d hwf with h | ⟨e, rest, h, he⟩
  · rw [h]; rfl
  · rw [h, mantLoop]
    rcases he with rfl | rfl <;> simp [isDecDigit]

theorem decimalLoop_stop (d : DecimalText) (hwf : d.WellFormed) (dd : Decimal) :
    decimalLoop d.expText dd = (dd, d.expText) := by
  rcases expText_head d hwf with h | ⟨e, rest, h, he⟩
  · rw [h]; rfl
  · rw [h, decimalLoop]
    rcases he with rfl | rfl <;> simp [isDecDigit]

/-- The digit loop of `readFloat` on the digits of a well-formed decimal
text: it sees digits, no underscore, and stops at the exponent. -/
theorem mantLoop_body (d : DecimalText) (hwf : d.WellFormed) :
    ∃ st, mantLoop 10 19 (d.intPart ++ (d.fracText ++ d.expText)) {} = (st, d.expText) ∧
      st.sawdigits = true ∧ st.underscores = false := by
  have hwf' := hwf
  obtain ⟨-, hip, hne, hfrac, -⟩ := hwf
  obtain ⟨st₁, e1, e2, e3, e4⟩ := mantLoop_digits d.intPart (d.fracText ++ d.expText) {} hip
  rw [e1]
  unfold DecimalText.fracDigits at hne
  unfold DecimalText.fracText
  cases hf : d.frac with
  | none =>
    have hsd : st₁.sawdigits = true := by
      rw [e2]; cases h : d.intPart with
      | nil => simp [h, hf] at hne
      | cons _ _ => rfl
    simp only [List.nil_append]
    exact ⟨st₁, mantLoop_stop d hwf' st₁, hsd, e3⟩
  | some f =>
    have hdot : st₁.sawdot = false := e4
    simp only [List.cons_append]
    rw [mantLoop]
    simp only [show (0x2E : Nat) ≠ 0x5F by decide, if_false, if_true, hdot,
      Bool.false_eq_true]
    obtain ⟨st₂, f1, f2, f3, -⟩ := mantLoop_digits f d.expText
      { st₁ with sawdot := true, dp := st₁.nd } (hfrac f hf)
    rw [f1]
    refine ⟨st₂, mantLoop_stop d hwf' st₂, ?_, by rw [f3]; exact e3⟩
    rw [f2]
    simp only [e2]
    cases hi : d.intPart with
    | cons _ _ => rfl
    | nil =>
      cases hff : f with
      | nil => simp [hi, hf, hff] at hne
      | cons _ _ => rfl

/-- The digit loop of `decimal.set` on the digits of a well-formed decimal
text: it accumulates the mantissa and places the decimal point after the
integer part. -/
theorem decimalLoop_body (d : DecimalText) (hwf : d.WellFormed) :
    ∃ dd, decimalLoop (d.intPart ++ (d.fracText ++ d.expText)) {} = (dd, d.expText) ∧
      dd.sawdigits = true ∧ dd.digits = d.mantissa ∧ dd.Inv ∧
      (if dd.sawdot then dd.dp else (dd.nd : Int)) - dd.nd = - (d.fracDigits.length : Int) := by
  have hwf' := hwf
  obtain ⟨-, hip, hne, hfrac, -⟩ := hwf
  have hinv0 : ({} : Decimal).Inv := ⟨by decide, by intro h; exact absurd h (by decide)⟩
  obtain ⟨d₁, e1, e2, e3, e4, e5, e6, e7⟩ :=
    decimalLoop_digits d.intPart (d.fracText ++ d.expText) {} hip hinv0
  have hdig : d₁.digits = digitsVal d.intPart := by simpa using e4
  rw [e1]
  unfold DecimalText.fracDigits at hne
  unfold DecimalText.fracText DecimalText.mantissa DecimalText.fracDigits
  cases hf : d.frac with
  | none =>
    have hsd : d₁.sawdigits = true := by
      rw [e3]; cases h : d.intPart with
      | nil => simp [h, hf] at hne
      | cons _ _ => rfl
    simp only [List.nil_append, Option.getD_none, List.append_nil, List.length_nil]
    have hdot : d₁.sawdot = false := e2
    exact ⟨d₁, decimalLoop_stop d hwf' d₁, hsd, hdig, e5, by simp [hdot]⟩
  | some f =>
    have hdot : d₁.sawdot = false := e2
    simp only [List.cons_append, Option.getD_some]
    rw [decimalLoop]
    simp only [show (0x2E : Nat) ≠ 0x5F by decide, if_false, if_true, hdot,
      Bool.false_eq_true]
    have hinv1 : ({ d₁ with sawdot := true, dp := (d₁.nd : Int) } : Decimal).Inv := e5
    obtain ⟨d₂, f1, f2, f3, f4, f5, f6, f7⟩ := decimalLoop_digits f d.expText
      { d₁ with sawdot := true, dp := d₁.nd } (hfrac f hf) hinv1
    rw [f1]
    refine ⟨d₂, decimalLoop_stop d hwf' d₂, ?_, ?_, f5, ?_⟩
    · rw [f3]
      simp only [e3]
      cases hi : d.intPart with
      | cons _ _ => rfl
      | nil =>
        cases hff : f with
        | nil => simp [hi, hf, hff] at hne
        | cons _ _ => rfl
    · rw [f4, digitsVal_append, hdig]
    · have hsd2 : d₂.sawdot = true := f2
      simp only [hsd2, if_true]
      simp only [] at f7
      omega

theorem readFloat_aux (c : Nat) (rest body : GoString)
    (hb : (if c = 0x2B ∨ c = 0x2D then rest else c :: rest) = body)
    (hhex : ∀ b ∈ body, lower b ≠ 0x78) (st : MantState) (r2 : GoString)
    (hm : mantLoop 10 19 body {} = (st, r2)) (hsd : st.sawdigits = true)
    (hu : st.underscores = false) (shift : Int)
    (he : expPart 0x65 false r2 = some (shift, false, [])) :
    ∃ f, readFloat (c :: rest) = some f ∧ f.hex = false ∧ f.n = (c :: rest).length := by
  unfold readFloat
  simp only [hb]
  rcases body with _ | ⟨c0, _ | ⟨c1, _ | ⟨c2, t3⟩⟩⟩
  · simp [mantLoop] at hm
    rw [← hm.1] at hsd
    simp at hsd
  · simp [hm, hsd, hu, he]
  · simp [hm, hsd, hu, he]
  · have h1 := hhex c1 (by simp)
    simp [h1, hm, hsd, hu, he]

theorem decimalSet_aux (c : Nat) (rest body : GoString)
    (hb : (if c = 0x2B ∨ c = 0x2D then rest else c :: rest) = body)
    (dd : Decimal) (r2 : GoString)
    (hm : decimalLoop body {} = (dd, r2)) (hsd : dd.sawdigits = true) (shift : Int)
    (he : expPart 0x65 false r2 = some (shift, false, [])) :
    decimalSet (c :: rest)
      = some (dd.digits, dd.nd, (if dd.sawdot then dd.dp else (dd.nd : Int)) + shift) := by
  unfold decimalSet
  simp only [hb]
  simp [hm, hsd, he]

theorem float32Overflow_pos : 0 < float32Overflow := by
  unfold float32Overflow; norm_num

theorem float32Overflow_le : float32Overflow ≤ 10 ^ 39 := by
  unfold float32Overflow; norm_num

/-- The overflow test of `floatBits`, with its early exits, decides whether
`digits * 10 ^ (dp - nd)` reaches the rounding threshold. -/
theorem floatBitsOverflow_eq (digits nd : Nat) (dp : Int) (hlt : digits < 10 ^ nd)
    (hge : 0 < nd → 10 ^ (nd - 1) ≤ digits) :
    floatBitsOverflow digits nd dp =
      if 0 ≤ dp - nd then decide (float32Overflow ≤ digits * 10 ^ (dp - nd).toNat)
      else decide (float32Overflow * 10 ^ (-(dp - nd)).toNat ≤ digits) := by
  have hT := float32Overflow_pos
  have hT' := float32Overflow_le
  have h10 : ∀ n : Nat, 0 < 10 ^ n := fun n => Nat.pow_pos (by decide)
  have hmono : ∀ {m n : Nat}, m ≤ n → 10 ^ m ≤ 10 ^ n :=
    fun h => Nat.pow_le_pow_right (by decide) h
  unfold floatBitsOverflow
  by_cases hnd : nd = 0
  · subst hnd
    have hd : digits = 0 := by simpa using hlt
    subst hd
    simp only [if_true, Nat.zero_mul]
    split_ifs
    · simp; omega
    · have := h10 (-(dp - ((0 : Nat) : Int))).toNat
      have : 0 < float32Overflow * 10 ^ (-(dp - ((0 : Nat) : Int))).toNat :=
        Nat.mul_pos hT this
      simp; omega
  · have hge' := hge (by omega)
    simp only [hnd, if_false]
    by_cases hbig : dp > 310
    · simp only [hbig, if_true]
      obtain ⟨p, rfl⟩ : ∃ p : Nat, dp = p := ⟨dp.toNat, by omega⟩
      by_cases hk : 0 ≤ (p : Int) - nd
      · simp only [hk, if_true]
        have e : ((p : Int) - nd).toNat = p - nd := by omega
        rw [e]
        have h1 : 10 ^ (nd - 1) * 10 ^ (p - nd) ≤ digits * 10 ^ (p - nd) :=
          Nat.mul_le_mul_right _ hge'
        have h2 : 10 ^ (nd - 1) * 10 ^ (p - nd) = 10 ^ (p - 1) := by
          rw [← pow_add]; congr 1; omega
        have h3 : 10 ^ 39 ≤ 10 ^ (p - 1) := hmono (by omega)
        simp; omega
      · simp only [hk, if_false]
        have e : (-((p : Int) - nd)).toNat = nd - p := by omega
        rw [e]
        have h1 : float32Overflow * 10 ^ (nd - p) ≤ 10 ^ 39 * 10 ^ (nd - p) :=
          Nat.mul_le_mul_right _ hT'
        have h2 : 10 ^ 39 * 10 ^ (nd - p) = 10 ^ (39 + (nd - p)) := by rw [← pow_add]
        have h3 : 10 ^ (39 + (nd - p)) ≤ 10 ^ (nd - 1) := hmono (by omega)
        simp; omega
    · simp only [hbig, if_false]
      by_cases hsmall : dp ≤ 0
      · simp only [hsmall, if_true]
        obtain ⟨q, rfl⟩ : ∃ q : Nat, dp = -(q : Int) := ⟨(-dp).toNat, by omega⟩
        have hk : ¬ (0 ≤ -(q : Int) - nd) := by omega
        simp only [hk, if_false]
        have e : (-(-(q : Int) - nd)).toNat = nd + q := by omega
        rw [e]
        have h1 : 10 ^ nd ≤ 10 ^ (nd + q) := hmono (by omega)
        have h2 : 1 * 10 ^ (nd + q) ≤ float32Overflow * 10 ^ (nd + q) :=
          Nat.mul_le_mul_right _ hT
        simp; omega
      · simp only [hsmall, if_false]
        obtain ⟨p, rfl⟩ : ∃ p : Nat, dp = p := ⟨dp.toNat, by omega⟩
        have ep : ((p : Int)).toNat = p := by omega
        rw [ep]
        by_cases hk : 0 ≤ (p : Int) - nd
        · simp only [hk, if_true]
          have e : ((p : Int) - nd).toNat = p - nd := by omega
          rw [e]
          have h2 : digits * 10 ^ p = digits * 10 ^ (p - nd) * 10 ^ nd := by
            rw [Nat.mul_assoc, ← pow_add]; congr 2; omega
          rw [h2]
          simp only [decide_eq_decide]
          exact mul_le_mul_right (h10 nd)
        · simp only [hk, if_false]
          have e : (-((p : Int) - nd)).toNat = nd - p := by omega
          rw [e]
          have h2 : float32Overflow * 10 ^ nd = float32Overflow * 10 ^ (nd - p) * 10 ^ p := by
            rw [Nat.mul_assoc, ← pow_add]; congr 2; omega
          rw [h2]
          simp only [decide_eq_decide]
          exact mul_le_mul_right (h10 p)

theorem lower_ne_x (b : Nat)
    (h : (0x30 ≤ b ∧ b ≤ 0x39) ∨ b = 0x2E ∨ b = 0x65 ∨ b = 0x45 ∨ b = 0x2B ∨ b = 0x2D) :
    lower b ≠ 0x78 := by
  rcases h with h | rfl | rfl | rfl | rfl | rfl
  · rw [lower_digit b h]; omega
  all_goals decide

/-- No byte of the digits, fraction and exponent of a well-formed decimal
text is an `x`, so the text has no hexadecimal base prefix. -/
theorem body_no_x (d : DecimalText) (hwf : d.WellFormed) :
    ∀ b ∈ d.intPart ++ (d.fracText ++ d.expText), lower b ≠ 0x78 := by
  obtain ⟨-, hip, -, hfrac, hexp⟩ := hwf
  intro b hb
  apply lower_ne_x
  simp only [List.mem_append] at hb
  rcases hb with hb | hb | hb
  · exact Or.inl (hip b hb)
  · unfold DecimalText.fracText at hb
    cases hf : d.frac with
    | none => simp [hf] at hb
    | some f =>
      simp only [hf, List.mem_cons] at hb
      rcases hb with rfl | hb
      · exact Or.inr (Or.inl rfl)
      · exact Or.inl (hfrac f hf b hb)
  · unfold DecimalText.expText at hb
    cases hx : d.exp with
    | none => simp [hx] at hb
    | some p =>
      obtain ⟨e, es, ed⟩ := p
      obtain ⟨he, hes, hed, -⟩ := hexp e es ed hx
      simp only [hx, List.mem_cons, List.mem_append] at hb
      rcases hb with rfl | hb | hb
      · rcases he with rfl | rfl
        · exact Or.inr (Or.inr (Or.inl rfl))
        · exact Or.inr (Or.inr (Or.inr (Or.inl rfl)))
      · rcases hes with rfl | rfl | rfl
        · simp at hb
        · simp at hb; subst hb; exact Or.inr (Or.inr (Or.inr (Or.inr (Or.inl rfl))))
        · simp at hb; subst hb; exact Or.inr (Or.inr (Or.inr (Or.inr (Or.inr rfl))))
      · exact Or.inl (hed b hb)

/-- A well-formed decimal text is its sign, if any, followed by the rest. -/
theorem text_shape (d : DecimalText) (hwf : d.WellFormed) :
    ∃ c rest, d.text = c :: rest ∧
      (if c = 0x2B ∨ c = 0x2D then rest else c :: rest)
        = d.intPart ++ (d.fracText ++ d.expText) := by
  obtain ⟨c, cs, hcs, hc⟩ := body_head d hwf
  obtain ⟨hsign, -, -, -, -⟩ := hwf
  unfold DecimalText.text
  rcases hsign with h | h | h <;> rw [h]
  · refine ⟨c, cs, by simp [hcs], ?_⟩
    have h1 : ¬ (c = 0x2B ∨ c = 0x2D) := by omega
    simp [h1, hcs]
  · exact ⟨0x2B, _, rfl, by simp⟩
  · exact ⟨0x2D, _, rfl, by simp⟩

/-- `ParseFloat(s, 32)` on the text of a decimal number: the error is nil
exactly when the magnitude of the number stays below the overflow
threshold. -/
theorem ParseFloatOk_decimalText (d : DecimalText) (hwf : d.WellFormed) :
    ParseFloatOk d.text = !d.overflows := by
  obtain ⟨c, rest, htext, hbody⟩ := text_shape d hwf
  obtain ⟨st, hm, hsd, hu⟩ := mantLoop_body d hwf
  obtain ⟨dd, hdm, hdsd, hdig, hinv, hdp⟩ := decimalLoop_body d hwf
  have he := expPart_expText d hwf
  obtain ⟨f, hf, hfhex, hfn⟩ :=
    readFloat_aux c rest _ hbody (body_no_x d hwf) st _ hm hsd hu _ he
  have hds := decimalSet_aux c rest _ hbody dd _ hdm hdsd _ he
  have hsp := special_text d hwf
  have hk : (if dd.sawdot then dd.dp else (dd.nd : Int)) + d.exponent - dd.nd = d.scale := by
    unfold DecimalText.scale; omega
  unfold ParseFloatOk atof32
  rw [hsp, htext]
  simp only [hf, hfhex, hfn, List.take_length, hds, Bool.false_eq_true, if_false]
  rw [floatBitsOverflow_eq _ _ _ hinv.1 hinv.2, hk, hdig]
  simp [DecimalText.overflows]

/-! ## UTF-8 texts -/

theorem or_C0 (a : Nat) (h : a < 0x20) : 0xC0 ||| a = 0xC0 + a := by
  have := Nat.mul_add_lt_is_or (i := 6) (b := a) (by omega) 3
  simpa using this.symm

theorem or_80 (a : Nat) (h : a < 0x40) : 0x80 ||| a = 0x80 + a := by
  have := Nat.mul_add_lt_is_or (i := 7) (b := a) (by omega) 1
  simpa using this.symm

theorem or_E0 (a : Nat) (h : a < 0x10) : 0xE0 ||| a = 0xE0 + a := by
  have := Nat.mul_add_lt_is_or (i := 5) (b := a) (by omega) 7
  simpa using this.symm

theorem or_F0 (a : Nat) (h : a < 0x08) : 0xF0 ||| a = 0xF0 + a := by
  have := Nat.mul_add_lt_is_or (i := 4) (b := a) (by omega) 15
  simpa using this.symm

theorem and_3F (x : Nat) : x &&& 0x3F = x % 64 := Nat.and_pow_two_sub_one_eq_mod x 6
theorem and_1F (x : Nat) : x &&& 0x1F = x % 32 := Nat.and_pow_two_sub_one_eq_mod x 5
theorem and_0F (x : Nat) : x &&& 0x0F = x % 16 := Nat.and_pow_two_sub_one_eq_mod x 4
theorem and_07 (x : Nat) : x &&& 0x07 = x % 8 := Nat.and_pow_two_sub_one_eq_mod x 3

theorem shl_or (a b k : Nat) (h : b < 2 ^ k) : (a <<< k) ||| b = a * 2 ^ k + b := by
  rw [Nat.shiftLeft_eq, Nat.mul_comm a, ← Nat.mul_add_lt_is_or h a]

/-- The bytes of the encoding of a rune. -/
theorem encodeRune_bytes (r : Nat) :
    encodeRune r =
      if r < 0x80 then [r]
      else if r < 0x800 then [0xC0 + r / 64, 0x80 + r % 64]
      else if (0xD800 ≤ r ∧ r ≤ 0xDFFF) ∨ 0x10FFFF < r then [0xEF, 0xBF, 0xBD]
      else if r < 0x10000 then [0xE0 + r / 4096, 0x80 + r / 64 % 64, 0x80 + r % 64]
      else [0xF0 + r / 262144, 0x80 + r / 4096 % 64, 0x80 + r / 64 % 64, 0x80 + r % 64] := by
  unfold encodeRune
  simp only [Nat.shiftRight_eq_div_pow, and_3F]
  split_ifs with h1 h2 h3 h4
  · rfl
  · rw [or_C0 _ (by omega), or_80 _ (by omega)]
  · rfl
  · rw [or_E0 _ (by omega), or_80 _ (by omega), or_80 _ (by omega)]
  · rw [or_F0 _ (by omega), or_80 _ (by omega), or_80 _ (by omega), or_80 _ (by omega)]

theorem decode2 (b0 b1 : Nat) (rest : GoString) (h0 : 0xC2 ≤ b0 ∧ b0 ≤ 0xDF)
    (h1 : 0x80 ≤ b1 ∧ b1 ≤ 0xBF) :
    decodeRune (b0 :: b1 :: rest) = (b0 % 32 * 64 + b1 % 64, 2) := by
  have hl : leadInfo b0 = some (2, 0x80, 0xBF) := by simp [leadInfo, h0]
  have e0 : ¬ b0 < 0x80 := by omega
  have e1 : ¬ (b1 < 0x80 ∨ 0xBF < b1) := by omega
  simp only [decodeRune, e0, if_false, hl, List.length_cons, e1, and_1F, and_3F]
  rw [shl_or _ _ 6 (by omega)]
  simp

theorem decode3 (b0 b1 b2 lo hi : Nat) (rest : GoString)
    (hl : leadInfo b0 = some (3, lo, hi)) (h0 : 0x80 ≤ b0)
    (h1 : lo ≤ b1 ∧ b1 ≤ hi) (h2 : 0x80 ≤ b2 ∧ b2 ≤ 0xBF) :
    decodeRune (b0 :: b1 :: b2 :: rest) = (b0 % 16 * 4096 + b1 % 64 * 64 + b2 % 64, 3) := by
  have e0 : ¬ b0 < 0x80 := by omega
  have e1 : ¬ (b1 < lo ∨ hi < b1) := by omega
  have e2 : isCont b2 = true := by simp [isCont, h2]
  have hlen : ¬ (rest.length + 1 + 1 + 1 < 3) := by omega
  have n1 : ¬ ((3 : Nat) ≤ 2) := by decide
  have n2 : (3 : Nat) ≤ 3 := by decide
  have hv : (b0 &&& 0x0F) <<< 12 ||| (b1 &&& 0x3F) <<< 6 ||| (b2 &&& 0x3F)
      = b0 % 16 * 4096 + b1 % 64 * 64 + b2 % 64 := by
    rw [and_0F, and_3F, and_3F, Nat.shiftLeft_eq (b1 % 64), shl_or _ _ 12 (by omega)]
    have : b0 % 16 * 2 ^ 12 + b1 % 64 * 2 ^ 6 = (b0 % 16 * 64 + b1 % 64) * 2 ^ 6 := by ring
    rw [this, ← Nat.shiftLeft_eq, shl_or _ _ 6 (by omega)]
    ring
  simp only [decodeRune, e0, if_false, hl, List.length_cons, e1, e2, hlen, n1, n2, if_true,
    Bool.not_true, Bool.false_eq_true, hv]

theorem decode4 (b0 b1 b2 b3 lo hi : Nat) (rest : GoString)
    (hl : leadInfo b0 = some (4, lo, hi)) (h0 : 0x80 ≤ b0)
    (h1 : lo ≤ b1 ∧ b1 ≤ hi) (h2 : 0x80 ≤ b2 ∧ b2 ≤ 0xBF) (h3 : 0x80 ≤ b3 ∧ b3 ≤ 0xBF) :
    decodeRune (b0 :: b1 :: b2 :: b3 :: rest)
      = (b0 % 8 * 262144 + b1 % 64 * 4096 + b2 % 64 * 64 + b3 % 64, 4) := by
  have e0 : ¬ b0 < 0x80 := by omega
  have e1 : ¬ (b1 < lo ∨ hi < b1) := by omega
  have e2 : isCont b2 = true := by simp [isCont, h2]
  have e3 : isCont b3 = true := by simp [isCont, h3]
  have hlen : ¬ (rest.length + 1 + 1 + 1 + 1 < 4) := by omega
  have n1 : ¬ ((4 : Nat) ≤ 2) := by decide
  have n2 : ¬ ((4 : Nat) ≤ 3) := by decide
  have hv : (b0 &&& 0x07) <<< 18 ||| (b1 &&& 0x3F) <<< 12 ||| (b2 &&& 0x3F) <<< 6
        ||| (b3 &&& 0x3F)
      = b0 % 8 * 262144 + b1 % 64 * 4096 + b2 % 64 * 64 + b3 % 64 := by
    rw [and_07, and_3F, and_3F, and_3F, Nat.shiftLeft_eq (b1 % 64),
      shl_or _ _ 18 (by omega)]
    have h12 : b0 % 8 * 2 ^ 18 + b1 % 64 * 2 ^ 12 = (b0 % 8 * 64 + b1 % 64) * 2 ^ 12 := by
      ring
    rw [h12, ← Nat.shiftLeft_eq, Nat.shiftLeft_eq (b2 % 64), shl_or _ _ 12 (by omega)]
    have h6 : (b0 % 8 * 64 + b1 % 64) * 2 ^ 12 + b2 % 64 * 2 ^ 6
        = ((b0 % 8 * 64 + b1 % 64) * 64 + b2 % 64) * 2 ^ 6 := by ring
    rw [h6, ← Nat.shiftLeft_eq, shl_or _ _ 6 (by omega)]
    ring
  simp only [decodeRune, e0, if_false, hl, List.length_cons, e1, e2, e3, hlen, n1, n2,
    if_true, Bool.not_true, Bool.false_eq_true, hv]

/-- Decoding undoes encoding on every Unicode scalar value. -/
theorem decodeRune_encodeRune (c : Nat) (hc : IsScalar c) (rest : GoString) :
    decodeRune (encodeRune c ++ rest) = (c, (encodeRune c).length) := by
  rw [encodeRune_bytes]
  unfold IsScalar at hc
  by_cases h1 : c < 0x80
  · simp [h1, decodeRune]
  by_cases h2 : c < 0x800
  · simp only [h1, h2, if_false, if_true, List.cons_append, List.nil_append]
    rw [decode2 _ _ _ (by omega) (by omega)]
    simp only [List.length_cons, List.length_nil, Prod.mk.injEq, and_true]
    omega
  have h3 : ¬ ((0xD800 ≤ c ∧ c ≤ 0xDFFF) ∨ 0x10FFFF < c) := by omega
  by_cases h4 : c < 0x10000
  · simp only [h1, h2, h3, h4, if_false, if_true, List.cons_append, List.nil_append]
    have hlead : ∃ lo hi, leadInfo (0xE0 + c / 4096) = some (3, lo, hi) ∧
        lo ≤ 0x80 + c / 64 % 64 ∧ 0x80 + c / 64 % 64 ≤ hi := by
      by_cases ha : c / 4096 = 0
      · exact ⟨0xA0, 0xBF, by simp [leadInfo, ha], by omega, by omega⟩
      by_cases hb : c / 4096 = 13
      · exact ⟨0x80, 0x9F, by simp [leadInfo, hb], by omega, by omega⟩
      · refine ⟨0x80, 0xBF, ?_, by omega, by omega⟩
        have g1 : ¬ (0xC2 ≤ 0xE0 + c / 4096 ∧ 0xE0 + c / 4096 ≤ 0xDF) := by omega
        have g2 : 0xE0 + c / 4096 ≠ 0xE0 := by omega
        have g3 : 0xE0 + c / 4096 ≠ 0xED := by omega
        have g4 : 0xE1 ≤ 0xE0 + c / 4096 ∧ 0xE0 + c / 4096 ≤ 0xEF := by omega
        simp [leadInfo, g1, g2, g3, g4]
    obtain ⟨lo, hi, hl, hlo, hhi⟩ := hlead
    rw [decode3 _ _ _ lo hi _ hl (by omega) ⟨hlo, hhi⟩ (by omega)]
    simp only [List.length_cons, List.length_nil, Prod.mk.injEq, and_true]
    omega
  · simp only [h1, h2, h3, h4, if_false, List.cons_append, List.nil_append]
    have hlead : ∃ lo hi, leadInfo (0xF0 + c / 262144) = some (4, lo, hi) ∧
        lo ≤ 0x80 + c / 4096 % 64 ∧ 0x80 + c / 4096 % 64 ≤ hi := by
      by_cases ha : c / 262144 = 0
      · exact ⟨0x90, 0xBF, by simp [leadInfo, ha], by omega, by omega⟩
      by_cases hb : c / 262144 = 4
      · exact ⟨0x80, 0x8F, by simp [leadInfo, hb], by omega, by omega⟩
      · refine ⟨0x80, 0xBF, ?_, by omega, by omega⟩
        have g1 : ¬ (0xC2 ≤ 0xF0 + c / 262144 ∧ 0xF0 + c / 262144 ≤ 0xDF) := by omega
        have g2 : 0xF0 + c / 262144 ≠ 0xE0 := by omega
        have g3 : 0xF0 + c / 262144 ≠ 0xED := by omega
        have g4 : ¬ (0xE1 ≤ 0xF0 + c / 262144 ∧ 0xF0 + c / 262144 ≤ 0xEF) := by omega
        have g5 : 0xF0 + c / 262144 ≠ 0xF0 := by omega
        have g6 : 0xF0 + c / 262144 ≠ 0xF4 := by omega
        have g7 : 0xF1 ≤ 0xF0 + c / 262144 ∧ 0xF0 + c / 262144 ≤ 0xF3 := by omega
        simp [leadInfo, g1, g2, g3, g4, g5, g6, g7]
    obtain ⟨lo, hi, hl, hlo, hhi⟩ := hlead
    rw [decode4 _ _ _ _ lo hi _ hl (by omega) ⟨hlo, hhi⟩ (by omega) (by omega)]
    simp only [List.length_cons, List.length_nil, Prod.mk.injEq, and_true]
    omega

theorem encodeRune_length_pos (c : Nat) : 0 < (encodeRune c).length := by
  rw [encodeRune_bytes]
  split_ifs <;> simp

/-- The conversion `[]rune(str)` gives back the code points of a UTF-8
text. -/
theorem runes_encodeRunes (cs : List Nat) (h : ∀ c ∈ cs, IsScalar c) :
    runes (encodeRunes cs) = cs := by
  induction cs with
  | nil => rfl
  | cons c cs ih =>
    have hc := h c (by simp)
    have hpos := encodeRune_length_pos c
    have henc : encodeRunes (c :: cs) = encodeRune c ++ encodeRunes cs := by
      simp [encodeRunes]
    rw [henc]
    obtain ⟨b, bs, hb⟩ := List.exists_cons_of_ne_nil
      (show encodeRune c ++ encodeRunes cs ≠ [] by
        intro hnil
        have := congrArg List.length hnil
        rw [List.length_append, List.length_nil] at this
        omega)
    have hd := decodeRune_encodeRune c hc (encodeRunes cs)
    rw [hb] at hd ⊢
    rw [runes_cons, hd]
    simp only []
    rw [← hb, List.drop_left, ih (fun c' hc' => h c' (by simp [hc']))]

theorem IsDigit_iff (t : UnicodeTables) (c : Nat) :
    IsDigit t c = true ↔ (0x30 ≤ c ∧ c ≤ 0x39) ∨ (0xFF < c ∧ t.digit c = true) := by
  unfold IsDigit MaxLatin1
  by_cases h : c ≤ 0xFF
  · simp only [h, if_true, Bool.and_eq_true, decide_eq_true_eq]
    constructor
    · intro h'; exact Or.inl h'
    · rintro (h' | h')
      · exact h'
      · omega
  · simp only [h, if_false]
    constructor
    · intro h'; exact Or.inr ⟨by omega, h'⟩
    · rintro (h' | h')
      · omega
      · exact h'.2

theorem IsPrint_iff (t : UnicodeTables) (c : Nat) :
    IsPrint t c = true ↔
      (0x20 ≤ c ∧ c ≤ 0x7E) ∨ (0xA1 ≤ c ∧ c ≤ 0xFF ∧ c ≠ 0xAD) ∨
        (0xFF < c ∧ t.print c = true) := by
  unfold IsPrint MaxLatin1
  by_cases h : c ≤ 0xFF
  · simp only [h, if_true, Bool.or_eq_true, Bool.and_eq_true, decide_eq_true_eq, bne_iff_ne,
      ne_eq]
    constructor
    · rintro (h' | ⟨⟨h1, h2⟩, h3⟩)
      · exact Or.inl h'
      · exact Or.inr (Or.inl ⟨h1, h2, h3⟩)
    · rintro (h' | ⟨h1, h2, h3⟩ | h')
      · exact Or.inl h'
      · exact Or.inr ⟨⟨h1, h2⟩, h3⟩
      · omega
  · rw [if_neg h]
    constructor
    · intro h'; exact Or.inr (Or.inr ⟨by omega, h'⟩)
    · rintro (⟨h1, h2⟩ | ⟨h1, h2, h3⟩ | h')
      · exact absurd h2 (by omega)
      · exact absurd h2 h
      · exact h'.2

theorem encodeRunes_ne_nil (cs : List Nat) (h : encodeRunes cs ≠ []) : cs ≠ [] := by
  rintro rfl; exact h rfl

/-- The runes of the bytes of a string literal are its characters. -/
theorem runes_utf8 (str : String) : runes (utf8 str) = str.data.map Char.toNat := by
  have h : utf8 str = encodeRunes (str.data.map Char.toNat) := by
    simp [utf8, encodeRunes, List.flatMap_map]
  rw [h, runes_encodeRunes]
  intro c hc
  obtain ⟨ch, -, rfl⟩ := List.mem_map.1 hc
  have hv := ch.valid
  unfold IsScalar
  simp only [Char.toNat, UInt32.isValidChar, Nat.isValidChar] at hv ⊢
  omega

/-! ## Runs on a file -/

/-- On records that all have the same number of fields the reader raises no
error, and the run on the file is the loop over the records. -/
theorem readLoop_uniform (t : UnicodeTables) (index : GoString) (rs : List Record)
    (n fpr : Nat) (s : State) (h : ∀ r ∈ rs, r.length = n) (hf : fpr = 0 ∨ fpr = n) :
    readLoop t index fpr (rs.map Row.record) s = (mainLoop t index rs s).toFile := by
  induction rs generalizing fpr s with
  | nil => rfl
  | cons r rs ih =>
    have hr : r.length = n := h r (by simp)
    have hne : ¬ (fpr > 0 ∧ r.length ≠ fpr) := by
      rcases hf with rfl | rfl
      · simp
      · simp [hr]
    simp only [List.map_cons, readLoop, hne, if_false, mainLoop]
    cases hs : rowStep t index s r with
    | finished s' =>
      simp only []
      apply ih
      · exact fun q hq => h q (by simp [hq])
      · by_cases hp : fpr > 0
        · simp only [hp, if_true]
          rcases hf with rfl | rfl
          · exact absurd hp (by simp)
          · exact Or.inr rfl
        · simp only [hp, if_false]
          exact Or.inr hr
    | panicked s' => rfl

theorem runFile_uniform (t : UnicodeTables) (index : GoString) (rs : List Record) (n : Nat)
    (h : ∀ r ∈ rs, r.length = n) :
    runFile t index (rs.map Row.record) = (run t index rs).toFile :=
  readLoop_uniform t index rs n 0 State.init h (Or.inl rfl)

/-- A run on a file only appends to the two outputs. -/
theorem readLoop_prefix (t : UnicodeTables) (index : GoString) (rows : List Row)
    (fpr : Nat) (s : State) :
    s.good <+: (readLoop t index fpr rows s).state.good ∧
    s.bad <+: (readLoop t index fpr rows s).state.bad := by
  induction rows generalizing fpr s with
  | nil => simp [readLoop, FileOutcome.state]
  | cons row rows ih =>
    cases row with
    | malformed => simp [readLoop, FileOutcome.state]
    | record r =>
      rw [readLoop]
      by_cases hbad : fpr > 0 ∧ r.length ≠ fpr
      · rw [if_pos hbad]
        simp [FileOutcome.state]
      · rw [if_neg hbad]
        have hr := rowStep_prefix t index s r
        cases hs : rowStep t index s r with
        | finished s' =>
          rw [hs] at hr
          simp only [Outcome.state] at hr
          simp only []
          exact ⟨hr.1.trans (ih _ s').1, hr.2.trans (ih _ s').2⟩
        | panicked s' =>
          rw [hs] at hr
          simpa [FileOutcome.state, Outcome.state] using hr

theorem readLoop_append (t : UnicodeTables) (index : GoString) (xs ys : List Row)
    (fpr : Nat) (s : State) :
    readLoop t index fpr (xs ++ ys) s =
      match readLoop t index fpr xs s with
      | .finished s' => readLoop t index (fieldsAfter fpr xs) ys s'
      | .panicked s' => .panicked s'
      | .readError s' => .readError s' := by
  induction xs generalizing fpr s with
  | nil => simp [readLoop, fieldsAfter]
  | cons row rows ih =>
    cases row with
    | malformed => simp [readLoop]
    | record r =>
      simp only [List.cons_append, readLoop, fieldsAfter]
      by_cases hbad : fpr > 0 ∧ r.length ≠ fpr
      · rw [if_pos hbad, if_pos hbad]
      · rw [if_neg hbad, if_neg hbad]
        cases rowStep t index s r with
        | finished s' => exact ih _ s'
        | panicked s' => rfl

/-- A run on a file that did not finish stopped at some row `k`, in the
state a complete run on the first `k` rows ends in, up to the log. -/
theorem readLoop_fault (t : UnicodeTables) (index : GoString) (rows : List Row)
    (fpr : Nat) (s : State) (o : FileOutcome) (ho : readLoop t index fpr rows s = o)
    (hnf : ∀ s', o ≠ .finished s') :
    ∃ (k : Nat) (row : Row) (s₀ : State), rows[k]? = some row ∧
      readLoop t index fpr (rows.take k) s = .finished s₀ ∧
      o.state.good = s₀.good ∧ o.state.bad = s₀.bad ∧ o.state.i = s₀.i ∧
      ((∃ s', o = .panicked s' ∧ ∃ r, row = .record r ∧ index.length < r.length ∧
          rowStep t index s₀ r = .panicked s') ∨
       (o = .readError s₀ ∧
          (row = .malformed ∨ ∃ r, row = .record r ∧ 0 < fieldsAfter fpr (rows.take k) ∧
            r.length ≠ fieldsAfter fpr (rows.take k)))) := by
  induction rows generalizing fpr s with
  | nil =>
    simp only [readLoop] at ho
    exact absurd ho.symm (hnf s)
  | cons row rows ih =>
    cases row with
    | malformed =>
      have ho' : o = .readError s := by rw [← ho, readLoop]
      subst ho'
      exact ⟨0, .malformed, s, by simp, rfl, rfl, rfl, rfl, Or.inr ⟨rfl, Or.inl rfl⟩⟩
    | record r =>
      rw [readLoop] at ho
      by_cases hbad : fpr > 0 ∧ r.length ≠ fpr
      · rw [if_pos hbad] at ho
        have ho' : o = .readError s := ho.symm
        subst ho'
        exact ⟨0, .record r, s, by simp, rfl, rfl, rfl, rfl,
          Or.inr ⟨rfl, Or.inr ⟨r, rfl, by simpa [fieldsAfter] using hbad.1,
            by simpa [fieldsAfter] using hbad.2⟩⟩⟩
      · rw [if_neg hbad] at ho
        cases hs : rowStep t index s r with
        | panicked s' =>
          rw [hs] at ho
          have ho' : o = .panicked s' := ho.symm
          subst ho'
          have hw : index.length < r.length := by
            by_contra hnot
            rw [rowStep_fits t index s r (by omega)] at hs
            exact absurd hs (by simp)
          obtain ⟨log, hlog⟩ := rowStep_too_wide t index s r hw
          rw [hlog] at hs
          simp only [Outcome.panicked.injEq] at hs
          subst hs
          exact ⟨0, .record r, s, by simp, rfl, rfl, rfl, rfl,
            Or.inl ⟨_, rfl, r, rfl, hw, hlog⟩⟩
        | finished s' =>
          rw [hs] at ho
          simp only [] at ho
          obtain ⟨k, row, s₀, h1, h2, h3, h4, h5, h6⟩ := ih _ s' ho
          refine ⟨k + 1, row, s₀, by simpa using h1, ?_, h3, h4, h5, ?_⟩
          · simp only [List.take_succ_cons, readLoop, hbad, if_false, hs]
            exact h2
          · simpa [fieldsAfter] using h6

/-- No record that fits the schema makes the run panic. -/
theorem readLoop_no_panic (t : UnicodeTables) (index : GoString) (rows : List Row)
    (fpr : Nat) (s : State) (h : ∀ r, Row.record r ∈ rows → r.length ≤ index.length) :
    ∀ s', readLoop t index fpr rows s ≠ .panicked s' := by
  induction rows generalizing fpr s with
  | nil => intro s'; simp [readLoop]
  | cons row rows ih =>
    intro s'
    cases row with
    | malformed => simp [readLoop]
    | record r =>
      rw [readLoop]
      by_cases hbad : fpr > 0 ∧ r.length ≠ fpr
      · rw [if_pos hbad]; simp
      · rw [if_neg hbad, rowStep_fits t index s r (h r (by simp))]
        exact ih _ _ (fun q hq => h q (by simp [hq])) s'

theorem fieldsAfter_pos (fpr : Nat) (rows : List Row) (h : 0 < fpr) :
    fieldsAfter fpr rows = fpr := by
  induction rows with
  | nil => rfl
  | cons row rows ih =>
    cases row with
    | malformed => simpa [fieldsAfter] using ih
    | record r => simpa [fieldsAfter, h] using ih

/-! ## The byte tests of `strconv` -/

theorem lower_eq (c : Nat) : lower c = 64 * (c / 64) + 32 + c % 32 := by
  unfold lower
  have hr : c % 32 < 2 ^ 5 := by omega
  have h1 : c % 64 = 2 ^ 5 * (c % 64 / 32) ||| (c % 32) := by
    rw [← Nat.mul_add_lt_is_or hr]; omega
  have h2 : c = 2 ^ 6 * (c / 64) ||| (c % 64) := by
    rw [← Nat.mul_add_lt_is_or (by omega)]; omega
  have h3 : (2 ^ 5 * (c % 64 / 32)) ||| 32 = 32 := by
    have : c % 64 / 32 = 0 ∨ c % 64 / 32 = 1 := by omega
    rcases this with h | h <;> rw [h] <;> rfl
  have h4 : 32 ||| c % 32 = 32 + c % 32 := by
    have := Nat.mul_add_lt_is_or hr 1
    simpa using this.symm
  have h5 : 2 ^ 6 * (c / 64) ||| (32 + c % 32) = 2 ^ 6 * (c / 64) + (32 + c % 32) := by
    rw [← Nat.mul_add_lt_is_or (by omega)]
  conv_lhs => rw [h2, h1]
  rw [Nat.or_assoc, Nat.or_assoc, Nat.or_comm (c % 32) 32, ← Nat.or_assoc (2 ^ 5 * _), h3, h4,
    h5]
  omega

theorem lower_eq_x (c : Nat) (h : lower c = 0x78) : c = 0x78 ∨ c = 0x58 := by
  rw [lower_eq] at h; omega

theorem lower_eq_e (c : Nat) (h : lower c = 0x65) : c = 0x65 ∨ c = 0x45 := by
  rw [lower_eq] at h; omega

/-! ## The spellings of NaN and infinity -/

theorem cpl_le (s p : GoString) :
    commonPrefixLenIgnoreCase s p ≤ s.length ∧ commonPrefixLenIgnoreCase s p ≤ p.length := by
  induction s generalizing p with
  | nil => simp [commonPrefixLenIgnoreCase]
  | cons c s ih =>
    cases p with
    | nil => simp [commonPrefixLenIgnoreCase]
    | cons q p =>
      rw [commonPrefixLenIgnoreCase]
      by_cases hc : (if 0x41 ≤ c ∧ c ≤ 0x5A then c + 0x20 else c) ≠ q
      · rw [if_pos hc]; simp
      · rw [if_neg hc]
        have := ih p
        simp only [List.length_cons]
        omega

theorem cpl_take (s p : GoString) (k : Nat) (h : k ≤ commonPrefixLenIgnoreCase s p) :
    (s.take k).map asciiLower = p.take k := by
  induction s generalizing p k with
  | nil =>
    have : k = 0 := by simpa [commonPrefixLenIgnoreCase] using h
    subst this; simp
  | cons c s ih =>
    cases p with
    | nil =>
      have : k = 0 := by simpa [commonPrefixLenIgnoreCase] using h
      subst this; simp
    | cons q p =>
      cases k with
      | zero => simp
      | succ k =>
        rw [commonPrefixLenIgnoreCase] at h
        by_cases hc : (if 0x41 ≤ c ∧ c ≤ 0x5A then c + 0x20 else c) ≠ q
        · rw [if_pos hc] at h; omega
        · rw [if_neg hc] at h
          have hq : asciiLower c = q := by
            unfold asciiLower; exact not_not.1 hc
          simp only [List.take_succ_cons, List.map_cons, hq]
          rw [ih p k (by omega)]

theorem cpl_ge (s p : GoString) (k : Nat) (hs : k ≤ s.length) (hp : k ≤ p.length)
    (h : (s.take k).map asciiLower = p.take k) : k ≤ commonPrefixLenIgnoreCase s p := by
  induction s generalizing p k with
  | nil =>
    have : k = 0 := by simpa using hs
    subst this; simp
  | cons c s ih =>
    cases p with
    | nil =>
      have : k = 0 := by simpa using hp
      subst this; simp
    | cons q p =>
      cases k with
      | zero => simp
      | succ k =>
        simp only [List.take_succ_cons, List.map_cons, List.cons.injEq] at h
        simp only [List.length_cons] at hs hp
        have hq : ¬ (if 0x41 ≤ c ∧ c ≤ 0x5A then c + 0x20 else c) ≠ q := by
          have := h.1; unfold asciiLower at this; exact not_not.2 this
        rw [commonPrefixLenIgnoreCase, if_neg hq]
        have := ih p k (by omega) (by omega) h.2
        omega

/-- The prefix length is the length of the string exactly when the string is
a spelling of the beginning of the pattern. -/
theorem cpl_eq_length (s p : GoString) (hp : s.length ≤ p.length) :
    commonPrefixLenIgnoreCase s p = s.length ↔ s.map asciiLower = p.take s.length := by
  constructor
  · intro h
    have := cpl_take s p s.length (by omega)
    simpa using this
  · intro h
    have h1 := cpl_ge s p s.length (Nat.le_refl _) hp (by simpa using h)
    have h2 := (cpl_le s p).1
    omega

theorem utf8_inf : utf8 "inf" = [0x69, 0x6E, 0x66] := by decide
theorem utf8_nan : utf8 "nan" = [0x6E, 0x61, 0x6E] := by decide

theorem specialInf_iff (s : GoString) (nsign : Nat) :
    specialInf s nsign = some (nsign + s.length) ↔
      s.map asciiLower = utf8 "inf" ∨ s.map asciiLower = utf8 "infinity" := by
  have hle := cpl_le s (utf8 "infinity")
  have hlen : (utf8 "infinity").length = 8 := by decide
  unfold specialInf
  simp only []
  constructor
  · intro h
    by_cases h1 : 3 < commonPrefixLenIgnoreCase s (utf8 "infinity") ∧
        commonPrefixLenIgnoreCase s (utf8 "infinity") < 8
    · rw [if_pos h1] at h
      simp only [true_or, if_true, Option.some.injEq] at h
      omega
    · rw [if_neg h1] at h
      by_cases h3 : commonPrefixLenIgnoreCase s (utf8 "infinity") = 3 ∨
          commonPrefixLenIgnoreCase s (utf8 "infinity") = 8
      · rw [if_pos h3] at h
        have hl : commonPrefixLenIgnoreCase s (utf8 "infinity") = s.length := by
          have := Option.some.inj h; omega
        have ht := (cpl_eq_length s (utf8 "infinity") (by omega)).1 hl
        rcases h3 with h3 | h3
        · left
          rw [ht, ← hl, h3]; decide
        · right
          rw [ht, ← hl, h3]; decide
      · rw [if_neg h3] at h
        exact absurd h (by simp)
  · intro h
    have key : commonPrefixLenIgnoreCase s (utf8 "infinity") = s.length ∧
        (s.length = 3 ∨ s.length = 8) := by
      rcases h with h | h
      · have hl : s.length = 3 := by
          have := congrArg List.length h; simpa [utf8_inf] using this
        refine ⟨(cpl_eq_length s _ (by omega)).2 ?_, Or.inl hl⟩
        rw [h, hl]; decide
      · have hl : s.length = 8 := by
          have := congrArg List.length h; simpa [utf8_infinity] using this
        refine ⟨(cpl_eq_length s _ (by omega)).2 ?_, Or.inr hl⟩
        rw [h, hl]; decide
    obtain ⟨k1, k2⟩ := key
    rw [k1]
    have hn : ¬ (3 < s.length ∧ s.length < 8) := by omega
    simp only [hn, if_false, k2, if_true]

theorem special_spellings :
    [utf8 "nan", utf8 "inf", utf8 "+inf", utf8 "-inf", utf8 "infinity", utf8 "+infinity",
      utf8 "-infinity"]
    = [[0x6E, 0x61, 0x6E], utf8 "inf", 0x2B :: utf8 "inf", 0x2D :: utf8 "inf",
       utf8 "infinity", 0x2B :: utf8 "infinity", 0x2D :: utf8 "infinity"] := by decide

theorem asciiLower_eq (c k : Nat) (hk : k < 0x41 ∨ 0x5A < k) :
    asciiLower c = k ↔ c = k ∨ (0x41 ≤ c ∧ c ≤ 0x5A ∧ c + 0x20 = k) := by
  unfold asciiLower
  split_ifs with h <;> omega

/-- The library function `special` consumes the whole string exactly when
the string is a spelling of NaN or of an infinity. -/
theorem special_iff (s : GoString) : special s = some s.length ↔ IsSpecialText s := by
  unfold IsSpecialText
  rw [special_spellings]
  cases s with
  | nil => simp [special, utf8_inf, utf8_infinity]
  | cons c rest =>
    have hi := specialInf_iff rest 1
    have hi0 := specialInf_iff (c :: rest) 0
    rw [utf8_inf, utf8_infinity] at hi hi0
    rw [utf8_inf, utf8_infinity]
    rw [special]
    by_cases h1 : c = 0x2B ∨ c = 0x2D
    · rw [if_pos h1, List.length_cons, Nat.add_comm, hi]
      have hl : asciiLower c = c := by
        unfold asciiLower; rw [if_neg (by omega)]
      simp only [List.map_cons, hl, List.mem_cons, List.cons.injEq, List.mem_singleton,
        List.not_mem_nil, or_false]
      rcases h1 with rfl | rfl <;> simp
    · rw [if_neg h1]
      by_cases h2 : c = 0x69 ∨ c = 0x49
      · rw [if_pos h2]
        have hl : asciiLower c = 0x69 := by
          unfold asciiLower; split_ifs <;> omega
        have hi0' := hi0
        rw [Nat.zero_add] at hi0'
        rw [hi0']
        simp only [List.map_cons, hl, List.mem_cons, List.cons.injEq, List.mem_singleton,
          List.not_mem_nil, or_false]
        simp
      · rw [if_neg h2]
        by_cases h3 : c = 0x6E ∨ c = 0x4E
        · rw [if_pos h3]
          have hl : asciiLower c = 0x6E := by
            unfold asciiLower; split_ifs <;> omega
          have hle := cpl_le (c :: rest) (utf8 "nan")
          have hlen : (utf8 "nan").length = 3 := by decide
          have hiff : (commonPrefixLenIgnoreCase (c :: rest) (utf8 "nan") = 3 ∧
              (c :: rest).length = 3) ↔ (c :: rest).map asciiLower = [0x6E, 0x61, 0x6E] := by
            constructor
            · rintro ⟨ha, hb⟩
              have := (cpl_eq_length (c :: rest) (utf8 "nan") (by omega)).1 (by omega)
              rw [this, hb]; decide
            · intro h
              have hb : (c :: rest).length = 3 := by
                have := congrArg List.length h; simpa using this
              refine ⟨?_, hb⟩
              rw [← hb]
              apply (cpl_eq_length (c :: rest) (utf8 "nan") (by omega)).2
              rw [h, hb]; decide
          have hmem : (c :: rest).map asciiLower ∈
              [[0x6E, 0x61, 0x6E], [0x69, 0x6E, 0x66], 0x2B :: [0x69, 0x6E, 0x66],
               0x2D :: [0x69, 0x6E, 0x66], [0x69, 0x6E, 0x66, 0x69, 0x6E, 0x69, 0x74, 0x79],
               0x2B :: [0x69, 0x6E, 0x66, 0x69, 0x6E, 0x69, 0x74, 0x79],
               0x2D :: [0x69, 0x6E, 0x66, 0x69, 0x6E, 0x69, 0x74, 0x79]]
              ↔ (c :: rest).map asciiLower = [0x6E, 0x61, 0x6E] := by
            simp only [List.map_cons, hl, List.mem_cons, List.cons.injEq, List.mem_singleton,
              List.not_mem_nil, or_false]
            simp
          rw [hmem, ← hiff]
          by_cases h4 : commonPrefixLenIgnoreCase (c :: rest) (utf8 "nan") = 3
          · rw [if_pos h4]
            simp only [Option.some.injEq, h4, true_and]
            exact eq_comm
          · rw [if_neg h4]
            simp [h4]
        · rw [if_neg h3]
          have hl1 : asciiLower c ≠ 0x6E := by
            unfold asciiLower; split_ifs <;> omega
          have hl2 : asciiLower c ≠ 0x69 := by
            unfold asciiLower; split_ifs <;> omega
          have hl3 : asciiLower c ≠ 0x2B := by
            unfold asciiLower; split_ifs <;> omega
          have hl4 : asciiLower c ≠ 0x2D := by
            unfold asciiLower; split_ifs <;> omega
          simp only [List.map_cons, List.mem_cons, List.cons.injEq, List.mem_singleton,
            List.not_mem_nil, or_false, hl1, hl2, hl3, hl4, false_and, or_self]
          simp

/-! ## The shape of what `ParseFloat` accepts -/

/-- When `readFloat` reads a hexadecimal number, the string has the base
prefix. -/
theorem readFloat_hex (s : GoString) (f : FloatSyntax) (h : readFloat s = some f)
    (hhex : f.hex = true) : HasHexPrefix s := by
  cases s with
  | nil => simp [readFloat] at h
  | cons c rest =>
    have key : ∀ body : GoString,
        (match body with
          | c0 :: c1 :: _ :: _ => decide (c0 = 0x30 ∧ lower c1 = 0x78)
          | _ => false) = true →
        ∃ c1 rest', (c1 = 0x78 ∨ c1 = 0x58) ∧ rest' ≠ [] ∧ body = 0x30 :: c1 :: rest' := by
      intro body hb
      rcases body with _ | ⟨c0, _ | ⟨c1, _ | ⟨c2, t3⟩⟩⟩
      · simp at hb
      · simp at hb
      · simp at hb
      · simp only [decide_eq_true_eq] at hb
        obtain ⟨rfl, hx⟩ := hb
        exact ⟨c1, c2 :: t3, lower_eq_x c1 hx, by simp, rfl⟩
    unfold readFloat at h
    simp only [] at h
    generalize hb : (if c = 0x2B ∨ c = 0x2D then rest else c :: rest) = body at h
    have hx : ∃ c1 rest', (c1 = 0x78 ∨ c1 = 0x58) ∧ rest' ≠ [] ∧ body = 0x30 :: c1 :: rest' := by
      split_ifs at h
      all_goals
        split at h
        · exact absurd h (by simp)
        · split_ifs at h
          all_goals
            simp only [Option.some.injEq] at h
            rw [← h] at hhex
            exact key _ hhex
    obtain ⟨c1, rest', hc1, hne, hbody⟩ := hx
    rw [hbody] at hb
    by_cases hs : c = 0x2B ∨ c = 0x2D
    · rw [if_pos hs] at hb
      refine ⟨[c], c1, rest', ?_, hc1, hne, by rw [hb]; rfl⟩
      rcases hs with rfl | rfl
      · exact Or.inr (Or.inl rfl)
      · exact Or.inr (Or.inr rfl)
    · rw [if_neg hs] at hb
      exact ⟨[], c1, rest', Or.inl rfl, hc1, hne, by rw [hb]; rfl⟩

/-- The exponent loop reaches the end of an underscore-free string only when
the string is made of digits. -/
theorem expLoop_shape (ds : GoString) (e : Nat) (u : Bool) (hu : 0x5F ∉ ds)
    (h : (expLoop ds e u).2.2 = []) : AllDigits ds := by
  induction ds generalizing e u with
  | nil => intro c hc; simp at hc
  | cons c cs ih =>
    have h1 : c ≠ 0x5F := fun hc => hu (by simp [hc])
    have hcs : 0x5F ∉ cs := fun hc => hu (by simp [hc])
    rw [expLoop] at h
    simp only [h1, if_false] at h
    by_cases hd : isDecDigit c = true
    · rw [if_pos hd] at h
      have hall := ih _ _ hcs h
      intro b hb
      rcases List.mem_cons.1 hb with rfl | hb
      · simpa [isDecDigit] using hd
      · exact hall b hb
    · rw [if_neg hd] at h
      exact absurd h (by simp)

/-- An underscore-free string that `expPart` reads to its end as an optional
exponent is empty or an exponent: `e` or `E`, an optional sign, digits. -/
theorem expPart_shape (r : GoString) (hu : 0x5F ∉ r) (shift : Int) (u : Bool)
    (h : expPart 0x65 false r = some (shift, u, [])) :
    r = [] ∨ ∃ e es ed, r = e :: (es ++ ed) ∧ (e = 0x65 ∨ e = 0x45) ∧ IsSignText es ∧
      AllDigits ed ∧ ed ≠ [] := by
  cases r with
  | nil => exact Or.inl rfl
  | cons c rest =>
    right
    simp only [expPart] at h
    by_cases hl : lower c = 0x65
    · rw [if_pos hl] at h
      cases rest with
      | nil => simp at h
      | cons s rest1 =>
        simp only [] at h
        have hbody : ∀ body : GoString, 0x5F ∉ body →
            (match body with
              | [] => none
              | d :: _ =>
                if (!isDecDigit d) = true then none
                else some (((expLoop body 0 false).1 : Int) * (if s = 0x2D then -1 else 1),
                  (expLoop body 0 false).2.1, (expLoop body 0 false).2.2))
              = some (shift, u, []) → AllDigits body ∧ body ≠ [] := by
          intro body hnu hb
          cases body with
          | nil => simp at hb
          | cons d t =>
            simp only [] at hb
            split_ifs at hb
            all_goals
              simp only [Option.some.injEq, Prod.mk.injEq] at hb
              exact ⟨expLoop_shape _ 0 false hnu hb.2.2, by simp⟩
        by_cases hs : s = 0x2B ∨ s = 0x2D
        · rw [if_pos hs] at h
          obtain ⟨hd, hne⟩ := hbody rest1 (fun hc => hu (by simp [hc])) h
          refine ⟨c, [s], rest1, rfl, lower_eq_e c hl, ?_, hd, hne⟩
          rcases hs with rfl | rfl
          · exact Or.inr (Or.inl rfl)
          · exact Or.inr (Or.inr rfl)
        · rw [if_neg hs] at h
          obtain ⟨hd, hne⟩ := hbody (s :: rest1) (fun hc => hu (by
            rcases List.mem_cons.1 hc with h' | h'
            · simp [← h']
            · simp [h'])) h
          exact ⟨c, [], s :: rest1, rfl, lower_eq_e c hl, Or.inl rfl, hd, hne⟩
    · rw [if_neg hl] at h
      simp at h

/-- The digit loop of `decimal.set` after the point on an underscore-free
string: it reads digits and stops. -/
theorem decimalLoop_shape_frac (body : GoString) (d0 : Decimal) (hu : 0x5F ∉ body)
    (hdot : d0.sawdot = true) :
    ∃ f r, body = f ++ r ∧ AllDigits f ∧ (decimalLoop body d0).2 = r ∧
      ((decimalLoop body d0).1.sawdigits = true → d0.sawdigits = true ∨ f ≠ []) := by
  induction body generalizing d0 with
  | nil => exact ⟨[], [], rfl, by intro c hc; simp at hc, rfl, fun h => Or.inl h⟩
  | cons c rest ih =>
    have h1 : c ≠ 0x5F := fun hc => hu (by simp [hc])
    have hrest : 0x5F ∉ rest := fun hc => hu (by simp [hc])
    rw [decimalLoop]
    simp only [h1, if_false]
    by_cases h2 : c = 0x2E
    · simp only [h2, if_true, hdot]
      exact ⟨[], 0x2E :: rest, rfl, by intro c hc; simp at hc, rfl, fun h => Or.inl h⟩
    · simp only [h2, if_false]
      by_cases hd : isDecDigit c = true
      · have hc : 0x30 ≤ c ∧ c ≤ 0x39 := by simpa [isDecDigit] using hd
        simp only [hd, if_true]
        have step : ∀ d1 : Decimal, d1.sawdot = true →
            ∃ f r, c :: rest = f ++ r ∧ AllDigits f ∧ (decimalLoop rest d1).2 = r ∧
              ((decimalLoop rest d1).1.sawdigits = true → d0.sawdigits = true ∨ f ≠ []) := by
          intro d1 hd1
          obtain ⟨f, r, e1, e2, e3, -⟩ := ih d1 hrest hd1
          refine ⟨c :: f, r, by rw [e1]; rfl, ?_, e3, fun _ => Or.inr (by simp)⟩
          intro b hb
          rcases List.mem_cons.1 hb with rfl | hb
          · exact hc
          · exact e2 b hb
        split_ifs
        · exact step _ hdot
        · exact step _ hdot
      · simp only [hd, if_false]
        exact ⟨[], c :: rest, rfl, by intro c hc; simp at hc, rfl, fun h => Or.inl h⟩

/-- The digit loop of `decimal.set` on an underscore-free string: it reads
digits, then possibly a point and digits, and stops. -/
theorem decimalLoop_shape (body : GoString) (d0 : Decimal) (hu : 0x5F ∉ body)
    (hdot : d0.sawdot = false) :
    ∃ ip fr r, body = ip ++ ((match fr with | none => [] | some f => 0x2E :: f) ++ r) ∧
      AllDigits ip ∧ (∀ f, fr = some f → AllDigits f) ∧ (decimalLoop body d0).2 = r ∧
      ((decimalLoop body d0).1.sawdigits = true →
        d0.sawdigits = true ∨ ip ++ fr.getD [] ≠ []) := by
  induction body generalizing d0 with
  | nil =>
    exact ⟨[], none, [], rfl, by intro c hc; simp at hc, by simp, rfl, fun h => Or.inl h⟩
  | cons c rest ih =>
    have h1 : c ≠ 0x5F := fun hc => hu (by simp [hc])
    have hrest : 0x5F ∉ rest := fun hc => hu (by simp [hc])
    rw [decimalLoop]
    simp only [h1, if_false]
    by_cases h2 : c = 0x2E
    · simp only [h2, if_true, hdot, Bool.false_eq_true, if_false]
      obtain ⟨f, r, e1, e2, e3, e4⟩ :=
        decimalLoop_shape_frac rest { d0 with sawdot := true, dp := d0.nd } hrest rfl
      refine ⟨[], some f, r, by rw [e1]; rfl, by intro c hc; simp at hc, ?_, e3, ?_⟩
      · intro f' hf'
        simp only [Option.some.injEq] at hf'
        subst hf'
        exact e2
      · intro h
        rcases e4 h with h' | h'
        · exact Or.inl h'
        · exact Or.inr (by simpa using h')
    · simp only [h2, if_false]
      by_cases hd : isDecDigit c = true
      · have hc : 0x30 ≤ c ∧ c ≤ 0x39 := by simpa [isDecDigit] using hd
        simp only [hd, if_true]
        have step : ∀ d1 : Decimal, d1.sawdot = false →
            ∃ ip fr r,
              c :: rest = ip ++ ((match fr with | none => [] | some f => 0x2E :: f) ++ r) ∧
              AllDigits ip ∧ (∀ f, fr = some f → AllDigits f) ∧ (decimalLoop rest d1).2 = r ∧
              ((decimalLoop rest d1).1.sawdigits = true →
                d0.sawdigits = true ∨ ip ++ fr.getD [] ≠ []) := by
          intro d1 hd1
          obtain ⟨ip, fr, r, e1, e2, e3, e4, -⟩ := ih d1 hrest hd1
          refine ⟨c :: ip, fr, r, by rw [e1]; rfl, ?_, e3, e4, fun _ => Or.inr (by simp)⟩
          intro b hb
          rcases List.mem_cons.1 hb with rfl | hb
          · exact hc
          · exact e2 b hb
        split_ifs
        · exact step _ hdot
        · exact step _ hdot
      · simp only [hd, if_false]
        exact ⟨[], none, c :: rest, rfl, by intro c hc; simp at hc, by simp, rfl,
          fun h => Or.inl h⟩

/-- An underscore-free string that `decimal.set` accepts is the text of a
decimal number. -/
theorem decimalSet_shape (s : GoString) (hu : 0x5F ∉ s) (x : Nat × Nat × Int)
    (h : decimalSet s = some x) : ∃ d : DecimalText, d.WellFormed ∧ d.text = s := by
  cases s with
  | nil => simp [decimalSet] at h
  | cons c rest =>
    have key : ∀ (sign body : GoString), IsSignText sign → c :: rest = sign ++ body →
        (if c = 0x2B ∨ c = 0x2D then rest else c :: rest) = body →
        ∃ d : DecimalText, d.WellFormed ∧ d.text = c :: rest := by
      intro sign body hsign hsb hbody
      have hub : 0x5F ∉ body := fun hc => hu (by rw [hsb]; simp [hc])
      unfold decimalSet at h
      simp only [hbody] at h
      have hsd : (decimalLoop body {}).1.sawdigits = true := by
        by_contra hn
        simp [hn] at h
      have hexp' : ∃ shift u,
          expPart 0x65 false (decimalLoop body {}).2 = some (shift, u, []) := by
        cases hx : expPart 0x65 false (decimalLoop body {}).2 with
        | none => simp [hsd, hx] at h
        | some p =>
          obtain ⟨shift, u, rest'⟩ := p
          by_cases hr : rest' = []
          · subst hr; exact ⟨shift, u, rfl⟩
          · simp [hsd, hx, hr] at h
      obtain ⟨shift, u, hexp⟩ := hexp'
      obtain ⟨ip, fr, r, e1, e2, e3, e4, e5⟩ := decimalLoop_shape body {} hub rfl
      rw [e4] at hexp
      have hur : 0x5F ∉ r := fun hc => hub (by rw [e1]; simp [hc])
      have hdig : ip ++ fr.getD [] ≠ [] := by
        rcases e5 hsd with h' | h'
        · exact absurd h' (by simp)
        · exact h'
      rcases expPart_shape r hur shift u hexp with hr | ⟨e, es, ed, hr, he, hes, hed, hne⟩
      · refine ⟨{ sign := sign, intPart := ip, frac := fr, exp := none },
          ⟨hsign, e2, hdig, e3, by simp⟩, ?_⟩
        rw [hsb, e1, hr]
        simp only [DecimalText.text, DecimalText.fracText, DecimalText.expText]
      · refine ⟨{ sign := sign, intPart := ip, frac := fr, exp := some (e, es, ed) },
          ⟨hsign, e2, hdig, e3, ?_⟩, ?_⟩
        · intro e' es' ed' heq
          simp only [Option.some.injEq, Prod.mk.injEq] at heq
          obtain ⟨rfl, rfl, rfl⟩ := heq
          exact ⟨he, hes, hed, hne⟩
        · rw [hsb, e1, hr]
          simp only [DecimalText.text, DecimalText.fracText, DecimalText.expText]
    by_cases hs : c = 0x2B ∨ c = 0x2D
    · refine key [c] rest ?_ rfl (by rw [if_pos hs])
      rcases hs with rfl | rfl
      · exact Or.inr (Or.inl rfl)
      · exact Or.inr (Or.inr rfl)
    · exact key [] (c :: rest) (Or.inl rfl) rfl (by rw [if_neg hs])

theorem float32Overflow_eq : float32Overflow = (2 ^ 25 - 1) * 2 ^ 103 := by
  unfold float32Overflow; norm_num

theorem float32Overflow_lt : float32Overflow < 2 ^ 128 := by
  unfold float32Overflow; norm_num

theorem float32Overflow_gt : 2 ^ 64 < float32Overflow := by
  unfold float32Overflow; norm_num

theorem pow16 (k : Nat) : 16 ^ k = 2 ^ (4 * k) := by
  rw [pow_mul]; norm_num

/-- When the binary exponent is at most 103 the threshold is a multiple of
the unit of the last kept bit, so that dropping the bits below it does not
change the comparison. -/
theorem hex_cmp_small (V k m x : Nat) (E : Int) (hm : m = V / 16 ^ k)
    (hx : E + 4 * (k : Int) = x) (hx103 : x ≤ 103) :
    (float32Overflow ≤ m * 2 ^ x) ↔
      (if 0 ≤ E then float32Overflow ≤ V * 2 ^ E.toNat
       else float32Overflow * 2 ^ (-E).toNat ≤ V) := by
  have hT : float32Overflow = (2 ^ 25 - 1) * 2 ^ (103 - x) * 2 ^ x := by
    rw [float32Overflow_eq, Nat.mul_assoc, ← pow_add]
    congr 2; omega
  have h2 : ∀ n : Nat, 0 < 2 ^ n := fun n => Nat.pow_pos (by decide)
  have h16 : 0 < 16 ^ k := Nat.pow_pos (by decide)
  have hQ : (float32Overflow ≤ m * 2 ^ x) ↔ (2 ^ 25 - 1) * 2 ^ (103 - x) * 16 ^ k ≤ V := by
    rw [hT, mul_le_mul_right (h2 x), hm, Nat.le_div_iff_mul_le h16]
  rw [hQ]
  by_cases hE : 0 ≤ E
  · rw [if_pos hE]
    obtain ⟨e, rfl⟩ : ∃ e : Nat, E = e := ⟨E.toNat, by omega⟩
    have hxe : x = e + 4 * k := by omega
    simp only [Int.toNat_ofNat]
    rw [hT, hxe, pow_add, pow16 k]
    rw [show (2 ^ 25 - 1) * 2 ^ (103 - (e + 4 * k)) * (2 ^ e * 2 ^ (4 * k))
        = (2 ^ 25 - 1) * 2 ^ (103 - (e + 4 * k)) * 2 ^ (4 * k) * 2 ^ e by ring]
    rw [mul_le_mul_right (h2 e)]
  · rw [if_neg hE]
    obtain ⟨e, rfl⟩ : ∃ e : Nat, E = -(e : Int) := ⟨(-E).toNat, by omega⟩
    have hxe : 4 * k = x + e := by omega
    simp only [neg_neg, Int.toNat_ofNat]
    rw [hT, pow16 k, hxe, pow_add]
    rw [show (2 ^ 25 - 1) * 2 ^ (103 - x) * 2 ^ x * 2 ^ e
        = (2 ^ 25 - 1) * 2 ^ (103 - x) * (2 ^ x * 2 ^ e) by ring]

/-- The range test of `atofHex` on the kept bits of the mantissa decides
whether the value of all the digits reaches the rounding threshold. -/
theorem atofHexOverflow_eq (V k m : Nat) (E : Int) (hm : m = V / 16 ^ k)
    (hk : 0 < k → 2 ^ 60 ≤ m) (hm64 : m < 2 ^ 64) :
    atofHexOverflow m (if m ≠ 0 then E + 4 * (k : Int) else 0) =
      if 0 ≤ E then decide (float32Overflow ≤ V * 2 ^ E.toNat)
      else decide (float32Overflow * 2 ^ (-E).toNat ≤ V) := by
  have hTlt := float32Overflow_lt
  have hTgt := float32Overflow_gt
  have h2 : ∀ n : Nat, 0 < 2 ^ n := fun n => Nat.pow_pos (by decide)
  have hmono : ∀ {a b : Nat}, a ≤ b → 2 ^ a ≤ 2 ^ b :=
    fun h => Nat.pow_le_pow_right (by decide) h
  have h16 : 0 < 16 ^ k := Nat.pow_pos (by decide)
  have hVlo : m * 16 ^ k ≤ V := by
    rw [hm]; exact Nat.div_mul_le_self V (16 ^ k)
  have hVhi : V < (m + 1) * 16 ^ k := by
    rw [hm]
    have := Nat.lt_succ_iff.2 (Nat.le_refl (V / 16 ^ k))
    exact (Nat.div_lt_iff_lt_mul h16).1 this
  -- the comparison of the specification, as a proposition
  have hrhs : ∀ p : Prop, [Decidable p] →
      ((if 0 ≤ E then float32Overflow ≤ V * 2 ^ E.toNat
        else float32Overflow * 2 ^ (-E).toNat ≤ V) ↔ p) →
      ((if 0 ≤ E then decide (float32Overflow ≤ V * 2 ^ E.toNat)
        else decide (float32Overflow * 2 ^ (-E).toNat ≤ V)) = decide p) := by
    intro p _ h
    by_cases hE : 0 ≤ E
    · rw [if_pos hE] at h ⊢; exact decide_eq_decide.2 h
    · rw [if_neg hE] at h ⊢; exact decide_eq_decide.2 h
  by_cases hm0 : m = 0
  · have hk0 : k = 0 := by
      by_contra hne
      have := hk (by omega)
      have := h2 60
      omega
    have hV0 : V = 0 := by
      subst hk0; simp at hVhi; omega
    subst hV0
    rw [hrhs False (by
      by_cases hE : 0 ≤ E
      · rw [if_pos hE]; simp; omega
      · rw [if_neg hE]
        have := h2 (-E).toNat
        have : 0 < float32Overflow * 2 ^ (-E).toNat := Nat.mul_pos (by omega) this
        simp; omega)]
    simp [atofHexOverflow, hm0]
  · have hm1 : 1 ≤ m := by omega
    simp only [hm0, ne_eq, not_false_eq_true, if_true]
    unfold atofHexOverflow
    simp only [hm0, false_or]
    by_cases hle : E + 4 * (k : Int) ≤ 0
    · rw [if_pos hle]
      rw [hrhs False]
      · simp
      · by_cases hE : 0 ≤ E
        · rw [if_pos hE]
          have hk0 : k = 0 := by omega
          have hE0 : E = 0 := by omega
          subst hk0; subst hE0
          simp at hVhi ⊢
          omega
        · rw [if_neg hE]
          obtain ⟨e, rfl⟩ : ∃ e : Nat, E = -(e : Int) := ⟨(-E).toNat, by omega⟩
          simp only [neg_neg, Int.toNat_ofNat, iff_false, not_le]
          have h1 : 16 ^ k ≤ 2 ^ e := by rw [pow16]; exact hmono (by omega)
          have h3 : (m + 1) * 16 ^ k ≤ 2 ^ 64 * 2 ^ e :=
            Nat.mul_le_mul (by omega) h1
          have h4 : 2 ^ 64 * 2 ^ e < float32Overflow * 2 ^ e :=
            Nat.mul_lt_mul_of_pos_right hTgt (h2 e)
          omega
    · rw [if_neg hle]
      obtain ⟨x, hx⟩ : ∃ x : Nat, E + 4 * (k : Int) = x := ⟨(E + 4 * k).toNat, by omega⟩
      rw [hx]
      simp only [Int.toNat_ofNat]
      have hbig : 128 ≤ 60 + x → k ≠ 0 → ((if 0 ≤ E then float32Overflow ≤ V * 2 ^ E.toNat
          else float32Overflow * 2 ^ (-E).toNat ≤ V) ↔ True) := by
        intro hx' hk'
        have hm60 := hk (by omega)
        simp only [iff_true]
        by_cases hE : 0 ≤ E
        · rw [if_pos hE]
          obtain ⟨e, rfl⟩ : ∃ e : Nat, E = e := ⟨E.toNat, by omega⟩
          simp only [Int.toNat_ofNat]
          have hxe : x = e + 4 * k := by omega
          have h1 : 2 ^ 60 * 16 ^ k * 2 ^ e ≤ V * 2 ^ e :=
            Nat.mul_le_mul_right _ (le_trans (Nat.mul_le_mul_right _ hm60) hVlo)
          have h3 : 2 ^ 60 * 16 ^ k * 2 ^ e = 2 ^ (60 + x) := by
            rw [pow16, hxe, pow_add, pow_add]; ring
          have h4 : 2 ^ 128 ≤ 2 ^ (60 + x) := hmono hx'
          omega
        · rw [if_neg hE]
          obtain ⟨e, rfl⟩ : ∃ e : Nat, E = -(e : Int) := ⟨(-E).toNat, by omega⟩
          simp only [neg_neg, Int.toNat_ofNat]
          have hxe : 4 * k = x + e := by omega
          have h1 : 2 ^ 60 * 16 ^ k ≤ V := le_trans (Nat.mul_le_mul_right _ hm60) hVlo
          have h3 : 2 ^ 60 * 16 ^ k = 2 ^ (60 + x) * 2 ^ e := by
            rw [pow16, hxe, pow_add, pow_add]; ring
          have h4 : 2 ^ 128 * 2 ^ e ≤ 2 ^ (60 + x) * 2 ^ e :=
            Nat.mul_le_mul_right _ (hmono hx')
          have h5 : float32Overflow * 2 ^ e ≤ 2 ^ 128 * 2 ^ e :=
            Nat.mul_le_mul_right _ (by omega)
          omega
      by_cases hgt : (x : Int) > 128
      · rw [if_pos hgt]
        rw [hrhs True]
        · simp
        · by_cases hk0 : k = 0
          · subst hk0
            have hE : E = x := by omega
            subst hE
            simp only [Int.ofNat_nonneg, if_true, Int.toNat_ofNat, iff_true]
            simp at hVlo
            have h1 : 1 * 2 ^ 128 ≤ V * 2 ^ x :=
              Nat.mul_le_mul (by omega) (hmono (by omega))
            omega
          · exact hbig (by omega) hk0
      · rw [if_neg hgt]
        by_cases hx103 : x ≤ 103
        · exact (hrhs _ (hex_cmp_small V k m x E hm hx hx103).symm).symm
        · by_cases hk0 : k = 0
          · subst hk0
            have hE : E = x := by omega
            subst hE
            have hVm : V = m := by simpa using hm.symm
            subst hVm
            simp only [Int.ofNat_nonneg, if_true, Int.toNat_ofNat]
          · have hm60 := hk (by omega)
            rw [hrhs True (hbig (by omega) hk0)]
            have h1 : 2 ^ 60 * 2 ^ x ≤ m * 2 ^ x := Nat.mul_le_mul_right _ hm60
            have h3 : 2 ^ 60 * 2 ^ x = 2 ^ (60 + x) := by rw [pow_add]
            have h4 : 2 ^ 128 ≤ 2 ^ (60 + x) := hmono (by omega)
            simp only [decide_eq_decide, iff_true]
            omega

/-! ## The digit loop of `readFloat` in base 16 -/

theorem lower_hex_upper (c : Nat) (h : 0x41 ≤ c ∧ c ≤ 0x46) : lower c = c + 0x20 := by
  rw [lower_eq]; omega

theorem lower_hex_lower (c : Nat) (h : 0x61 ≤ c ∧ c ≤ 0x66) : lower c = c := by
  rw [lower_eq]; omega

theorem hexDigitVal_lt (c : Nat) (h : IsHexDigit c) : hexDigitVal c < 16 := by
  unfold hexDigitVal
  rcases h with h | h | h <;> split_ifs <;> omega

theorem hexVal_append (as bs : GoString) :
    hexVal (as ++ bs) = hexVal as * 16 ^ bs.length + hexVal bs := by
  unfold hexVal
  rw [List.foldl_append]
  generalize List.foldl (fun a c => a * 16 + hexDigitVal c) 0 as = a
  induction bs generalizing a with
  | nil => simp
  | cons b bs ih =>
    simp only [List.foldl_cons, List.length_cons]
    rw [ih (a * 16 + hexDigitVal b), ih (0 * 16 + hexDigitVal b)]
    ring

theorem hexVal_cons (c : Nat) (bs : GoString) :
    hexVal (c :: bs) = hexDigitVal c * 16 ^ bs.length + hexVal bs := by
  have := hexVal_append [c] bs
  simpa [hexVal] using this

/-- One step of the digit loop of `readFloat` in base 16 on a hexadecimal
digit. -/
theorem mantLoop_hexdigit (c : Nat) (rest : GoString) (st : MantState) (V : Nat)
    (hc : IsHexDigit c) (hinv : st.HexInv V) :
    ∃ st', mantLoop 16 16 (c :: rest) st = mantLoop 16 16 rest st' ∧
      st'.HexInv (V * 16 + hexDigitVal c) ∧ st'.sawdot = st.sawdot ∧
      st'.sawdigits = true ∧ st'.underscores = st.underscores ∧
      st'.dp - st'.nd = st.dp - st.nd - 1 := by
  obtain ⟨i1, i2, i3, i4, i5, i6⟩ := hinv
  have hv := hexDigitVal_lt c hc
  have h1 : c ≠ 0x5F := by rcases hc with h | h | h <;> omega
  have h2 : c ≠ 0x2E := by rcases hc with h | h | h <;> omega
  -- the state after a digit of value `v` that is not a leading zero
  have step : ∀ v : Nat, v = hexDigitVal c → ¬ (c = 0x30 ∧ st.nd = 0) →
      ∀ st' : MantState,
        st' = (if st.ndMant < 16 then
            { st with sawdigits := true, nd := st.nd + 1,
                      mantissa := st.mantissa * 16 + v, ndMant := st.ndMant + 1 }
          else { st with sawdigits := true, nd := st.nd + 1 }) →
        st'.HexInv (V * 16 + hexDigitVal c) ∧ st'.sawdot = st.sawdot ∧
          st'.sawdigits = true ∧ st'.underscores = st.underscores ∧
          st'.dp - st'.nd = st.dp - st.nd - 1 := by
    intro v hvv hz st' hst'
    have hv1 : st.nd = 0 → 1 ≤ hexDigitVal c := by
      intro hnd
      unfold hexDigitVal
      rcases hc with h | h | h <;> split_ifs <;> omega
    by_cases hlt : st.ndMant < 16
    · rw [if_pos hlt] at hst'
      subst hst'
      have hnd := i2 hlt
      have hmV : st.mantissa = V := by
        rw [i4, hnd]; simp
      refine ⟨⟨?_, ?_, ?_, ?_, ?_, ?_⟩, rfl, rfl, rfl, ?_⟩
      · simp only []; omega
      · intro _; simp only []; omega
      · simp only []; omega
      · simp only []
        rw [hmV, hvv, hnd]; simp
      · simp only [pow_succ]; omega
      · intro _
        simp only [Nat.add_sub_cancel]
        by_cases hnd0 : st.nd = 0
        · have := hv1 hnd0
          rw [hnd0]; simp; omega
        · have := i6 (by omega)
          have hp : 16 ^ st.nd = 16 ^ (st.nd - 1) * 16 := by
            rw [← pow_succ]; congr 1; omega
          omega
      · simp only []; push_cast; omega
    · rw [if_neg hlt] at hst'
      subst hst'
      have h16 : st.ndMant = 16 := by omega
      refine ⟨⟨?_, ?_, ?_, ?_, ?_, ?_⟩, rfl, rfl, rfl, ?_⟩
      · simp only []; omega
      · intro h; simp only [] at h; omega
      · simp only []; omega
      · simp only []
        rw [i4]
        have e : st.nd + 1 - st.ndMant = (st.nd - st.ndMant) + 1 := by omega
        rw [e, pow_succ, Nat.mul_comm (16 ^ (st.nd - st.ndMant)) 16,
          ← Nat.div_div_eq_div_mul]
        congr 1
        omega
      · simp only [pow_succ]; omega
      · intro _
        simp only [Nat.add_sub_cancel]
        have := i6 (by omega)
        have hp : 16 ^ st.nd = 16 ^ (st.nd - 1) * 16 := by
          rw [← pow_succ]; congr 1; omega
        omega
      · simp only []; push_cast; omega
  rw [mantLoop]
  simp only [h1, h2, if_false]
  by_cases hd : isDecDigit c = true
  · have hcd : 0x30 ≤ c ∧ c ≤ 0x39 := by simpa [isDecDigit] using hd
    simp only [hd, if_true]
    by_cases hz : c = 0x30 ∧ st.nd = 0
    · rw [if_pos hz]
      have hV0 : V = 0 := by
        have := i5; rw [hz.2] at this; simpa using this
      have hv0 : hexDigitVal c = 0 := by rw [hz.1]; rfl
      refine ⟨_, rfl, ⟨?_, ?_, ?_, ?_, ?_, ?_⟩, rfl, rfl, rfl, ?_⟩
      · exact i1
      · exact i2
      · exact i3
      · simp only []; rw [i4, hV0, hv0]
      · simp only []; rw [hV0, hv0]; simp
      · intro h; simp only [] at h; omega
      · simp only []; omega
    · rw [if_neg hz]
      have hval : c - 0x30 = hexDigitVal c := by
        unfold hexDigitVal; rw [if_pos hcd.2]
      exact ⟨_, (apply_ite (mantLoop 16 16 rest) _ _ _).symm, step (c - 0x30) hval hz _ rfl⟩
  · have hcl : (0x41 ≤ c ∧ c ≤ 0x46) ∨ (0x61 ≤ c ∧ c ≤ 0x66) := by
      rcases hc with h | h | h
      · exact absurd (by simp [isDecDigit, h.1, h.2]) hd
      · exact Or.inl h
      · exact Or.inr h
    have hlow : 0x61 ≤ lower c ∧ lower c ≤ 0x66 ∧ lower c - 0x61 + 10 = hexDigitVal c := by
      unfold hexDigitVal
      rcases hcl with h | h
      · rw [lower_hex_upper c h]; split_ifs <;> omega
      · rw [lower_hex_lower c h]; split_ifs <;> omega
    have hl : isHexLetter c = true := by
      simp [isHexLetter, hlow.1, hlow.2.1]
    simp only [hd, Bool.false_eq_true, if_false, hl, and_self, if_true]
    have hz : ¬ (c = 0x30 ∧ st.nd = 0) := by omega
    exact ⟨_, (apply_ite (mantLoop 16 16 rest) _ _ _).symm,
      step (lower c - 0x61 + 10) hlow.2.2 hz _ rfl⟩

/-- The digit loop of `readFloat` in base 16 runs through a string of
hexadecimal digits. -/
theorem mantLoop_hexdigits (ds rest : GoString) (st : MantState) (V : Nat)
    (hds : AllHexDigits ds) (hinv : st.HexInv V) :
    ∃ st', mantLoop 16 16 (ds ++ rest) st = mantLoop 16 16 rest st' ∧
      st'.HexInv (V * 16 ^ ds.length + hexVal ds) ∧ st'.sawdot = st.sawdot ∧
      st'.sawdigits = (st.sawdigits || !ds.isEmpty) ∧ st'.underscores = st.underscores ∧
      st'.dp - st'.nd = st.dp - st.nd - ds.length := by
  induction ds generalizing st V with
  | nil => exact ⟨st, rfl, by simpa [hexVal] using hinv, rfl, by simp, rfl, by simp⟩
  | cons c cs ih =>
    have hc := hds c (by simp)
    have hcs : AllHexDigits cs := fun b hb => hds b (by simp [hb])
    obtain ⟨st₁, e1, e2, e3, e4, e5, e6⟩ := mantLoop_hexdigit c (cs ++ rest) st V hc hinv
    obtain ⟨st₂, f1, f2, f3, f4, f5, f6⟩ := ih st₁ _ hcs e2
    refine ⟨st₂, by rw [List.cons_append, e1, f1], ?_, by rw [f3, e3], by simp [f4, e4],
      by rw [f5, e5], ?_⟩
    · have e : V * 16 ^ (c :: cs).length + hexVal (c :: cs)
          = (V * 16 + hexDigitVal c) * 16 ^ cs.length + hexVal cs := by
        rw [hexVal_cons, List.length_cons, pow_succ]; ring
      rw [e]; exact f2
    · simp only [List.length_cons]; push_cast; omega

theorem HexInv_bounds (st : MantState) (V : Nat) (h : st.HexInv V) :
    (0 < st.nd - st.ndMant → 2 ^ 60 ≤ st.mantissa) ∧ st.mantissa < 2 ^ 64 := by
  obtain ⟨i1, i2, i3, i4, i5, i6⟩ := h
  have h16 : 0 < 16 ^ (st.nd - st.ndMant) := Nat.pow_pos (by decide)
  constructor
  · intro hk
    have hM : st.ndMant = 16 := by
      by_contra hne
      have := i2 (by omega)
      omega
    rw [i4, Nat.le_div_iff_mul_le h16]
    have hV := i6 (by omega)
    have e : 2 ^ 60 * 16 ^ (st.nd - st.ndMant) = 16 ^ (st.nd - 1) := by
      rw [show (2 : Nat) ^ 60 = 16 ^ 15 by norm_num, ← pow_add]
      congr 1; omega
    rw [e]; exact hV
  · rw [i4, Nat.div_lt_iff_lt_mul h16]
    have e : 16 ^ st.nd = 16 ^ st.ndMant * 16 ^ (st.nd - st.ndMant) := by
      rw [← pow_add]; congr 1; omega
    have h1 : 16 ^ st.ndMant ≤ 2 ^ 64 := by
      rw [show (2 : Nat) ^ 64 = 16 ^ 16 by norm_num]
      exact Nat.pow_le_pow_right (by decide) i3
    calc V < 16 ^ st.nd := i5
      _ = 16 ^ st.ndMant * 16 ^ (st.nd - st.ndMant) := e
      _ ≤ 2 ^ 64 * 16 ^ (st.nd - st.ndMant) := Nat.mul_le_mul_right _ h1

/-- A signed exponent, read by `expPart`. -/
theorem expPart_text (expChar : Nat) (mandatory : Bool) (e : Nat) (es ed : GoString)
    (hl : lower e = expChar) (hes : IsSignText es) (hed : AllDigits ed) (hne : ed ≠ []) :
    expPart expChar mandatory (e :: (es ++ ed))
      = some ((if es = [0x2D] then -(expVal ed : Int) else (expVal ed : Int)), false, []) := by
  have hloop : expLoop ed 0 false = (expVal ed, false, []) := expLoop_expVal ed 0 false hed
  obtain ⟨c, cs, rfl⟩ := List.exists_cons_of_ne_nil hne
  have hc := hed c (by simp)
  have hd := isDecDigit_of c hc
  rcases hes with rfl | rfl | rfl
  · have h1 : c ≠ 0x2B := by omega
    have h2 : c ≠ 0x2D := by omega
    simp [expPart, hl, h1, h2, hd, hloop]
  · simp [expPart, hl, hd, hloop]
  · simp [expPart, hl, hd, hloop]

/-- The digit loop of `readFloat` on the digits of a well-formed hexadecimal
text: it keeps the first 16 significant digits and stops at the exponent. -/
theorem mantLoop_hexbody (h : HexText) (hwf : h.WellFormed) :
    ∃ st, mantLoop 16 16 (h.intPart ++ (h.fracText ++ h.expText)) {} = (st, h.expText) ∧
      st.sawdigits = true ∧ st.underscores = false ∧ st.HexInv h.mantissa ∧
      (if st.sawdot then st.dp else (st.nd : Int)) - st.nd = - (h.fracDigits.length : Int) := by
  obtain ⟨-, -, hip, hfrac, hne, hp, -, -, -⟩ := hwf
  have hstop : ∀ st : MantState, mantLoop 16 16 h.expText st = (st, h.expText) := by
    intro st
    unfold HexText.expText
    rw [mantLoop]
    rcases hp with hp | hp <;> rw [hp] <;> simp [isDecDigit, isHexLetter, lower]
  have hinv0 : ({} : MantState).HexInv 0 :=
    ⟨Nat.le_refl _, fun _ => rfl, by decide, by simp, by simp, by intro h; exact absurd h (by decide)⟩
  obtain ⟨st₁, e1, e2, e3, e4, e5, e6⟩ :=
    mantLoop_hexdigits h.intPart (h.fracText ++ h.expText) {} 0 hip hinv0
  have hV1 : st₁.HexInv (hexVal h.intPart) := by simpa using e2
  rw [e1]
  unfold HexText.fracDigits at hne
  unfold HexText.fracText HexText.mantissa HexText.fracDigits
  cases hf : h.frac with
  | none =>
    have hsd : st₁.sawdigits = true := by
      rw [e4]; cases hi : h.intPart with
      | nil => simp [hi, hf] at hne
      | cons _ _ => rfl
    have hdot : st₁.sawdot = false := e3
    simp only [List.nil_append, Option.getD_none, List.append_nil, List.length_nil]
    exact ⟨st₁, hstop st₁, hsd, e5, hV1, by simp [hdot]⟩
  | some f =>
    have hdot : st₁.sawdot = false := e3
    simp only [List.cons_append, Option.getD_some]
    rw [mantLoop]
    simp only [show (0x2E : Nat) ≠ 0x5F by decide, if_false, if_true, hdot,
      Bool.false_eq_true]
    have hinv1 : ({ st₁ with sawdot := true, dp := (st₁.nd : Int) } : MantState).HexInv
        (hexVal h.intPart) := hV1
    obtain ⟨st₂, f1, f2, f3, f4, f5, f6⟩ := mantLoop_hexdigits f h.expText
      { st₁ with sawdot := true, dp := st₁.nd } _ (hfrac f hf) hinv1
    rw [f1]
    refine ⟨st₂, hstop st₂, ?_, by rw [f5]; exact e5, ?_, ?_⟩
    · rw [f4]
      simp only [e4]
      cases hi : h.intPart with
      | cons _ _ => rfl
      | nil =>
        cases hff : f with
        | nil => simp [hi, hf, hff] at hne
        | cons _ _ => rfl
    · rw [hexVal_append]; exact f2
    · have hsd2 : st₂.sawdot = true := f3
      simp only [hsd2, if_true]
      simp only [] at f6
      omega

/-- A well-formed hexadecimal text is not a spelling of infinity or NaN. -/
theorem special_hexText (h : HexText) (hwf : h.WellFormed) : special h.text = none := by
  obtain ⟨hsign, -, -, -, -, -, -, -, -⟩ := hwf
  unfold HexText.text
  have hpre : ∀ rest, commonPrefixLenIgnoreCase (0x30 :: rest) (utf8 "infinity") = 0 := by
    intro rest
    rw [utf8_infinity, commonPrefixLenIgnoreCase]
    simp
  rcases hsign with h' | h' | h' <;> rw [h']
  · simp [special]
  · simp [special, specialInf, hpre]
  · simp [special, specialInf, hpre]

/-- `ParseFloat(s, 32)` on the text of a hexadecimal number: the error is nil
exactly when the magnitude of the number stays below the overflow
threshold. -/
theorem ParseFloatOk_hexText (h : HexText) (hwf : h.WellFormed) :
    ParseFloatOk h.text = !h.overflows := by
  obtain ⟨st, hm, hsd, hu, hinv, hdp⟩ := mantLoop_hexbody h hwf
  have hsp := special_hexText h hwf
  obtain ⟨hsign, hx, -, -, -, hp, hes, hed, hne⟩ := hwf
  have hlx : lower h.x = 0x78 := by rcases hx with h' | h' <;> rw [h'] <;> rfl
  have hlp : lower h.p = 0x70 := by rcases hp with h' | h' <;> rw [h'] <;> rfl
  have he : expPart 0x70 true h.expText = some (h.exponent, false, []) :=
    expPart_text 0x70 true h.p h.expSign h.expDigits hlp hes hed hne
  have hbounds := HexInv_bounds st h.mantissa hinv
  obtain ⟨i1, -, -, i4, -, -⟩ := hinv
  have hov := atofHexOverflow_eq h.mantissa (st.nd - st.ndMant) st.mantissa h.scale i4
    hbounds.1 hbounds.2
  have hexp : (if st.mantissa ≠ 0 then
        (if st.sawdot then st.dp else (st.nd : Int)) * 4 + h.exponent - ((st.ndMant * 4 : Nat) : Int)
      else 0)
      = (if st.mantissa ≠ 0 then h.scale + 4 * ((st.nd - st.ndMant : Nat) : Int) else 0) := by
    by_cases hm0 : st.mantissa = 0
    · simp [hm0]
    · simp only [hm0, ne_eq, not_false_eq_true, if_true]
      unfold HexText.scale
      push_cast
      omega
  have hread : ∀ c rest, h.text = c :: rest →
      (if c = 0x2B ∨ c = 0x2D then rest else c :: rest)
        = 0x30 :: h.x :: (h.intPart ++ (h.fracText ++ h.expText)) →
      ParseFloatOk h.text = !h.overflows := by
    intro c rest htext hbody
    have hpt : h.intPart ++ (h.fracText ++ h.expText) ≠ [] := by
      unfold HexText.expText; simp
    obtain ⟨b0, bs, hb⟩ := List.exists_cons_of_ne_nil hpt
    have hrf : readFloat (c :: rest) = some
        { mantissa := st.mantissa,
          exp := if st.mantissa ≠ 0 then
              (if st.sawdot then st.dp else (st.nd : Int)) * 4 + h.exponent
                - ((st.ndMant * 4 : Nat) : Int)
            else 0,
          hex := true, n := (c :: rest).length } := by
      unfold readFloat
      simp only [hbody]
      rw [hb] at hm ⊢
      simp only [hlx, and_self, decide_True, if_true, List.drop_succ_cons, List.drop_zero]
      simp [hm, hsd, hu, he]
    unfold ParseFloatOk atof32
    rw [hsp, htext, hrf]
    simp only [if_true]
    rw [hexp, hov]
    simp [HexText.overflows]
  unfold HexText.text at hread ⊢
  rcases hsign with h' | h' | h' <;> rw [h'] at hread ⊢
  · exact hread 0x30 _ rfl (by simp)
  · exact hread 0x2B _ rfl (by simp)
  · exact hread 0x2D _ rfl (by simp)

/-! ## The shape of the hexadecimal numbers that `ParseFloat` accepts -/

theorem isHexLetter_hex (c : Nat) (h : isHexLetter c = true) :
    (0x41 ≤ c ∧ c ≤ 0x46) ∨ (0x61 ≤ c ∧ c ≤ 0x66) := by
  simp only [isHexLetter, Bool.and_eq_true, decide_eq_true_eq] at h
  rw [lower_eq] at h
  omega

/-- An underscore-free string that `expPart` reads to its end is empty, when
the exponent is optional, or an exponent: the exponent letter, an optional
sign, digits. -/
theorem expPart_shape_gen (expChar : Nat) (mandatory : Bool) (r : GoString) (hu : 0x5F ∉ r)
    (shift : Int) (u : Bool) (h : expPart expChar mandatory r = some (shift, u, [])) :
    (r = [] ∧ mandatory = false) ∨
      ∃ e es ed, r = e :: (es ++ ed) ∧ lower e = expChar ∧ IsSignText es ∧
        AllDigits ed ∧ ed ≠ [] := by
  cases r with
  | nil =>
    left
    simp only [expPart] at h
    cases mandatory with
    | false => exact ⟨rfl, rfl⟩
    | true => simp at h
  | cons c rest =>
    right
    simp only [expPart] at h
    by_cases hl : lower c = expChar
    · rw [if_pos hl] at h
      cases rest with
      | nil => simp at h
      | cons s rest1 =>
        simp only [] at h
        have hbody : ∀ body : GoString, 0x5F ∉ body →
            (match body with
              | [] => none
              | d :: _ =>
                if (!isDecDigit d) = true then none
                else some (((expLoop body 0 false).1 : Int) * (if s = 0x2D then -1 else 1),
                  (expLoop body 0 false).2.1, (expLoop body 0 false).2.2))
              = some (shift, u, []) → AllDigits body ∧ body ≠ [] := by
          intro body hnu hb
          cases body with
          | nil => simp at hb
          | cons d t =>
            simp only [] at hb
            split_ifs at hb
            all_goals
              simp only [Option.some.injEq, Prod.mk.injEq] at hb
              exact ⟨expLoop_shape _ 0 false hnu hb.2.2, by simp⟩
        by_cases hs : s = 0x2B ∨ s = 0x2D
        · rw [if_pos hs] at h
          obtain ⟨hd, hne⟩ := hbody rest1 (fun hc => hu (by simp [hc])) h
          refine ⟨c, [s], rest1, rfl, hl, ?_, hd, hne⟩
          rcases hs with rfl | rfl
          · exact Or.inr (Or.inl rfl)
          · exact Or.inr (Or.inr rfl)
        · rw [if_neg hs] at h
          obtain ⟨hd, hne⟩ := hbody (s :: rest1) (fun hc => hu (by
            rcases List.mem_cons.1 hc with h' | h'
            · simp [← h']
            · simp [h'])) h
          exact ⟨c, [], s :: rest1, rfl, hl, Or.inl rfl, hd, hne⟩
    · rw [if_neg hl] at h
      cases mandatory with
      | false => simp at h
      | true => simp at h

/-- The digit loop of `readFloat` in base 16 after the point, on an
underscore-free string: it reads hexadecimal digits and stops. -/
theorem mantLoop_hexshape_frac (body : GoString) (st : MantState) (hu : 0x5F ∉ body)
    (hdot : st.sawdot = true) :
    ∃ f r, body = f ++ r ∧ AllHexDigits f ∧ (mantLoop 16 16 body st).2 = r ∧
      ((mantLoop 16 16 body st).1.sawdigits = true → st.sawdigits = true ∨ f ≠ []) := by
  induction body generalizing st with
  | nil => exact ⟨[], [], rfl, by intro c hc; simp at hc, rfl, fun h => Or.inl h⟩
  | cons c rest ih =>
    have h1 : c ≠ 0x5F := fun hc => hu (by simp [hc])
    have hrest : 0x5F ∉ rest := fun hc => hu (by simp [hc])
    have step : IsHexDigit c → ∀ st1 : MantState, st1.sawdot = true →
        ∃ f r, c :: rest = f ++ r ∧ AllHexDigits f ∧ (mantLoop 16 16 rest st1).2 = r ∧
          ((mantLoop 16 16 rest st1).1.sawdigits = true → st.sawdigits = true ∨ f ≠ []) := by
      intro hc st1 hd1
      obtain ⟨f, r, e1, e2, e3, -⟩ := ih st1 hrest hd1
      refine ⟨c :: f, r, by rw [e1]; rfl, ?_, e3, fun _ => Or.inr (by simp)⟩
      intro b hb
      rcases List.mem_cons.1 hb with rfl | hb
      · exact hc
      · exact e2 b hb
    rw [mantLoop]
    simp only [h1, if_false]
    by_cases h2 : c = 0x2E
    · simp only [h2, if_true, hdot]
      exact ⟨[], 0x2E :: rest, rfl, by intro c hc; simp at hc, rfl, fun h => Or.inl h⟩
    · simp only [h2, if_false]
      by_cases hd : isDecDigit c = true
      · have hc : IsHexDigit c := Or.inl (by simpa [isDecDigit] using hd)
        simp only [hd, if_true]
        split_ifs
        · exact step hc _ hdot
        · exact step hc _ hdot
        · exact step hc _ hdot
      · simp only [hd, Bool.false_eq_true, if_false, true_and]
        by_cases hl : isHexLetter c = true
        · have hc : IsHexDigit c := Or.inr (isHexLetter_hex c hl)
          simp only [hl, if_true]
          split_ifs
          · exact step hc _ hdot
          · exact step hc _ hdot
        · simp only [hl, if_false]
          exact ⟨[], c :: rest, rfl, by intro c hc; simp at hc, rfl, fun h => Or.inl h⟩

/-- The digit loop of `readFloat` in base 16 on an underscore-free string:
it reads hexadecimal digits, then possibly a point and hexadecimal digits,
and stops. -/
theorem mantLoop_hexshape (body : GoString) (st : MantState) (hu : 0x5F ∉ body)
    (hdot : st.sawdot = false) :
    ∃ ip fr r, body = ip ++ ((match fr with | none => [] | some f => 0x2E :: f) ++ r) ∧
      AllHexDigits ip ∧ (∀ f, fr = some f → AllHexDigits f) ∧
      (mantLoop 16 16 body st).2 = r ∧
      ((mantLoop 16 16 body st).1.sawdigits = true →
        st.sawdigits = true ∨ ip ++ fr.getD [] ≠ []) := by
  induction body generalizing st with
  | nil =>
    exact ⟨[], none, [], rfl, by intro c hc; simp at hc, by simp, rfl, fun h => Or.inl h⟩
  | cons c rest ih =>
    have h1 : c ≠ 0x5F := fun hc => hu (by simp [hc])
    have hrest : 0x5F ∉ rest := fun hc => hu (by simp [hc])
    have step : IsHexDigit c → ∀ st1 : MantState, st1.sawdot = false →
        ∃ ip fr r,
          c :: rest = ip ++ ((match fr with | none => [] | some f => 0x2E :: f) ++ r) ∧
          AllHexDigits ip ∧ (∀ f, fr = some f → AllHexDigits f) ∧
          (mantLoop 16 16 rest st1).2 = r ∧
          ((mantLoop 16 16 rest st1).1.sawdigits = true →
            st.sawdigits = true ∨ ip ++ fr.getD [] ≠ []) := by
      intro hc st1 hd1
      obtain ⟨ip, fr, r, e1, e2, e3, e4, -⟩ := ih st1 hrest hd1
      refine ⟨c :: ip, fr, r, by rw [e1]; rfl, ?_, e3, e4, fun _ => Or.inr (by simp)⟩
      intro b hb
      rcases List.mem_cons.1 hb with rfl | hb
      · exact hc
      · exact e2 b hb
    rw [mantLoop]
    simp only [h1, if_false]
    by_cases h2 : c = 0x2E
    · simp only [h2, if_true, hdot, Bool.false_eq_true, if_false]
      obtain ⟨f, r, e1, e2, e3, e4⟩ :=
        mantLoop_hexshape_frac rest { st with sawdot := true, dp := st.nd } hrest rfl
      refine ⟨[], some f, r, by rw [e1]; rfl, by intro c hc; simp at hc, ?_, e3, ?_⟩
      · intro f' hf'
        simp only [Option.some.injEq] at hf'
        subst hf'
        exact e2
      · intro h
        rcases e4 h with h' | h'
        · exact Or.inl h'
        · exact Or.inr (by simpa using h')
    · simp only [h2, if_false]
      by_cases hd : isDecDigit c = true
      · have hc : IsHexDigit c := Or.inl (by simpa [isDecDigit] using hd)
        simp only [hd, if_true]
        split_ifs
        · exact step hc _ hdot
        · exact step hc _ hdot
        · exact step hc _ hdot
      · simp only [hd, Bool.false_eq_true, if_false, true_and]
        by_cases hl : isHexLetter c = true
        · have hc : IsHexDigit c := Or.inr (isHexLetter_hex c hl)
          simp only [hl, if_true]
          split_ifs
          · exact step hc _ hdot
          · exact step hc _ hdot
        · simp only [hl, if_false]
          exact ⟨[], none, c :: rest, rfl, by intro c hc; simp at hc, by simp, rfl,
            fun h => Or.inl h⟩

/-- What `readFloat` computes on a string with the hexadecimal base
prefix. -/
theorem readFloat_hex_eq (c : Nat) (rest : GoString) (x : Nat) (t : GoString)
    (hbody : (if c = 0x2B ∨ c = 0x2D then rest else c :: rest) = 0x30 :: x :: t)
    (hx : lower x = 0x78) (ht : t ≠ []) :
    readFloat (c :: rest) =
      if !(mantLoop 16 16 t {}).1.sawdigits then none
      else
        match expPart 0x70 true (mantLoop 16 16 t {}).2 with
        | none => none
        | some (shift, u, rest') =>
          if ((mantLoop 16 16 t {}).1.underscores || u) &&
              !underscoreOK ((c :: rest).take ((c :: rest).length - rest'.length)) then none
          else
            some { mantissa := (mantLoop 16 16 t {}).1.mantissa,
                   exp := if (mantLoop 16 16 t {}).1.mantissa ≠ 0 then
                       (if (mantLoop 16 16 t {}).1.sawdot then (mantLoop 16 16 t {}).1.dp
                         else ((mantLoop 16 16 t {}).1.nd : Int)) * 4 + shift
                         - (((mantLoop 16 16 t {}).1.ndMant * 4 : Nat) : Int)
                     else 0,
                   hex := true, n := (c :: rest).length - rest'.length } := by
  obtain ⟨t0, ts, rfl⟩ := List.exists_cons_of_ne_nil ht
  unfold readFloat
  simp only [hbody, hx, and_self, decide_True, if_true, List.drop_succ_cons, List.drop_zero]
  try rfl

/-- An underscore-free string that `readFloat` reads to its end as a
hexadecimal number is the text of a hexadecimal number. -/
theorem readFloat_hexshape (s : GoString) (hu : 0x5F ∉ s) (f : FloatSyntax)
    (h : readFloat s = some f) (hhex : f.hex = true) (hn : f.n = s.length) :
    ∃ t : HexText, t.WellFormed ∧ t.text = s := by
  obtain ⟨sign, x, t, hsign, hx, ht, hs⟩ := readFloat_hex s f h hhex
  have hlx : lower x = 0x78 := by rcases hx with rfl | rfl <;> rfl
  have hut : 0x5F ∉ t := fun hc => hu (by rw [hs]; simp [hc])
  have key : ∀ c rest, s = c :: rest →
      (if c = 0x2B ∨ c = 0x2D then rest else c :: rest) = 0x30 :: x :: t →
      ∃ t' : HexText, t'.WellFormed ∧ t'.text = s := by
    intro c rest hcr hbody
    rw [hcr, readFloat_hex_eq c rest x t hbody hlx ht] at h
    have hsd : (mantLoop 16 16 t {}).1.sawdigits = true := by
      by_contra hne
      simp [hne] at h
    simp only [hsd, Bool.not_true, Bool.false_eq_true, if_false] at h
    cases hexp : expPart 0x70 true (mantLoop 16 16 t {}).2 with
    | none => simp [hexp] at h
    | some p =>
      obtain ⟨shift, u, rest'⟩ := p
      simp only [hexp] at h
      split_ifs at h
      all_goals
        simp only [Option.some.injEq] at h
        have hfn : f.n = (c :: rest).length - rest'.length := by rw [← h]
        have hn' : (c :: rest).length - rest'.length = (c :: rest).length := by
          rw [← hfn, hn, hcr]
        have hr' : rest' = [] := by
          apply List.eq_nil_of_length_eq_zero
          simp only [List.length_cons] at hn'
          omega
        subst hr'
        obtain ⟨ip, fr, r, e1, e2, e3, e4, e5⟩ := mantLoop_hexshape t {} hut rfl
        rw [e4] at hexp
        have hur : 0x5F ∉ r := fun hc => hut (by rw [e1]; simp [hc])
        have hdig : ip ++ fr.getD [] ≠ [] := by
          rcases e5 hsd with h' | h'
          · exact absurd h' (by simp)
          · exact h'
        rcases expPart_shape_gen 0x70 true r hur shift u hexp with
          ⟨-, hm⟩ | ⟨e, es, ed, hr, he, hes, hed, hne⟩
        · exact absurd hm (by simp)
        · have hp : e = 0x70 ∨ e = 0x50 := by
            rw [lower_eq] at he; omega
          refine ⟨{ sign := sign, x := x, intPart := ip, frac := fr, p := e, expSign := es,
                    expDigits := ed }, ⟨hsign, hx, e2, e3, hdig, hp, hes, hed, hne⟩, ?_⟩
          rw [hs, e1, hr]
          simp only [HexText.text, HexText.fracText, HexText.expText]
  rcases hsign with h' | h' | h'
  · rw [h'] at hs; exact key 0x30 _ hs (by simp)
  · rw [h'] at hs; exact key 0x2B _ hs (by simp)
  · rw [h'] at hs; exact key 0x2D _ hs (by simp)

/-- `ParseFloat(s, 32)` returns a nil error exactly for the decimal texts
and the hexadecimal texts below the overflow threshold, the spellings of NaN
and the infinities, and what it accepts among the strings with an
underscore. -/
theorem ParseFloatOk_iff (s : GoString) :
    ParseFloatOk s = true ↔
      (∃ d : DecimalText, d.WellFormed ∧ d.text = s ∧ d.overflows = false) ∨
      IsSpecialText s ∨
      (∃ h : HexText, h.WellFormed ∧ h.text = s ∧ h.overflows = false) ∨
      (0x5F ∈ s ∧ ParseFloatOk s = true) := by
  constructor
  · intro h0
    by_cases hu : 0x5F ∈ s
    · exact Or.inr (Or.inr (Or.inr ⟨hu, h0⟩))
    · have h := h0
      unfold ParseFloatOk atof32 at h
      cases hsp : special s with
      | some n =>
        simp only [hsp, Bool.true_and, beq_iff_eq] at h
        rw [h] at hsp
        exact Or.inr (Or.inl ((special_iff s).1 hsp))
      | none =>
        simp only [hsp] at h
        cases hrf : readFloat s with
        | none => simp [hrf] at h
        | some f =>
          simp only [hrf] at h
          by_cases hh : f.hex = true
          · simp only [hh, if_true, Bool.and_eq_true, beq_iff_eq] at h
            obtain ⟨t, hwf, htext⟩ := readFloat_hexshape s hu f hrf hh h.2
            have hd := ParseFloatOk_hexText t hwf
            rw [htext, h0] at hd
            refine Or.inr (Or.inr (Or.inl ⟨t, hwf, htext, ?_⟩))
            cases hov : t.overflows with
            | false => rfl
            | true => rw [hov] at hd; exact absurd hd (by simp)
          · simp only [hh, Bool.false_eq_true, if_false] at h
            cases hds : decimalSet (s.take f.n) with
            | none => simp [hds] at h
            | some x =>
              simp only [hds, Bool.and_eq_true, beq_iff_eq] at h
              rw [h.2, List.take_length] at hds
              obtain ⟨d, hwf, htext⟩ := decimalSet_shape s hu x hds
              have hd := ParseFloatOk_decimalText d hwf
              rw [htext, h0] at hd
              refine Or.inl ⟨d, hwf, htext, ?_⟩
              cases hov : d.overflows with
              | false => rfl
              | true => rw [hov] at hd; exact absurd hd (by simp)
  · rintro (⟨d, hwf, rfl, hov⟩ | hsp | ⟨t, hwf, rfl, hov⟩ | ⟨-, h⟩)
    · rw [ParseFloatOk_decimalText d hwf, hov]; rfl
    · unfold ParseFloatOk atof32
      rw [(special_iff s).2 hsp]
      simp
    · rw [ParseFloatOk_hexText t hwf, hov]; rfl
    · exact h

/-! ## Underscores: the loops skip them -/

theorem strip_nil : stripUnderscores [] = [] := rfl

theorem strip_cons_us (s : GoString) : stripUnderscores (0x5F :: s) = stripUnderscores s := by
  simp [stripUnderscores]

theorem strip_cons_ne (c : Nat) (s : GoString) (h : c ≠ 0x5F) :
    stripUnderscores (c :: s) = c :: stripUnderscores s := by
  simp [stripUnderscores, h]

theorem strip_append (a b : GoString) :
    stripUnderscores (a ++ b) = stripUnderscores a ++ stripUnderscores b := by
  simp [stripUnderscores]

theorem not_mem_strip (s : GoString) : 0x5F ∉ stripUnderscores s := by
  simp [stripUnderscores]

theorem strip_eq_self (s : GoString) (h : 0x5F ∉ s) : stripUnderscores s = s := by
  unfold stripUnderscores
  rw [List.filter_eq_self]
  intro c hc
  have : c ≠ 0x5F := fun hh => h (hh ▸ hc)
  simpa using this

theorem mem_strip (s : GoString) (c : Nat) : c ∈ stripUnderscores s ↔ c ∈ s ∧ c ≠ 0x5F := by
  simp [stripUnderscores]

theorem strip_length_le (s : GoString) : (stripUnderscores s).length ≤ s.length :=
  List.length_filter_le _ _

/-- The digit loop of `readFloat` reads a string and the string without its
underscores alike, the flag `underscores` apart. -/
theorem mantLoop_strip_aux (base m : Nat) (s : GoString) (st st' : MantState) (u₀ : Bool)
    (hst : st' = { st with underscores := u₀ }) :
    mantLoop base m (stripUnderscores s) st'
      = ({ (mantLoop base m s st).1 with underscores := u₀ },
          stripUnderscores (mantLoop base m s st).2) := by
  induction s generalizing st st' with
  | nil => subst hst; simp [stripUnderscores, mantLoop]
  | cons c rest ih =>
    by_cases h1 : c = 0x5F
    · subst h1
      rw [strip_cons_us, mantLoop]
      simp only [if_true]
      exact ih { st with underscores := true } st' (by rw [hst])
    · rw [strip_cons_ne c rest h1, mantLoop, mantLoop]
      subst hst
      simp only [h1, if_false]
      by_cases h2 : c = 0x2E
      · simp only [h2, if_true]
        by_cases hd : st.sawdot = true
        · simp only [hd, if_true]
          rw [strip_cons_ne _ _ (by decide)]
        · simp only [hd, if_false, Bool.false_eq_true]
          exact ih _ _ rfl
      · simp only [h2, if_false]
        by_cases hdg : isDecDigit c = true
        · simp only [hdg, if_true]
          split_ifs
          · exact ih _ _ rfl
          · exact ih _ _ rfl
          · exact ih _ _ rfl
        · simp only [hdg, Bool.false_eq_true, if_false]
          by_cases hl : base = 16 ∧ isHexLetter c = true
          · rw [if_pos hl, if_pos hl]
            split_ifs
            · exact ih _ _ rfl
            · exact ih _ _ rfl
          · rw [if_neg hl, if_neg hl]
            rw [strip_cons_ne c rest h1]

theorem mantLoop_strip (base m : Nat) (s : GoString) :
    mantLoop base m (stripUnderscores s) {}
      = ({ (mantLoop base m s {}).1 with underscores := false },
          stripUnderscores (mantLoop base m s {}).2) :=
  mantLoop_strip_aux base m s {} {} false rfl

/-- The digit loop of `decimal.set` reads a string and the string without its
underscores alike. -/
theorem decimalLoop_strip (s : GoString) (d : Decimal) :
    decimalLoop (stripUnderscores s) d
      = ((decimalLoop s d).1, stripUnderscores (decimalLoop s d).2) := by
  induction s generalizing d with
  | nil => simp [stripUnderscores, decimalLoop]
  | cons c rest ih =>
    by_cases h1 : c = 0x5F
    · subst h1
      rw [strip_cons_us, decimalLoop]
      simp only [if_true]
      exact ih d
    · rw [strip_cons_ne c rest h1, decimalLoop, decimalLoop]
      simp only [h1, if_false]
      by_cases h2 : c = 0x2E
      · simp only [h2, if_true]
        by_cases hd : d.sawdot = true
        · simp only [hd, if_true]
          rw [strip_cons_ne _ _ (by decide)]
        · simp only [hd, if_false, Bool.false_eq_true]
          exact ih _
      · simp only [h2, if_false]
        by_cases hdg : isDecDigit c = true
        · simp only [hdg, if_true]
          split_ifs
          · exact ih _
          · exact ih _
        · simp only [hdg, Bool.false_eq_true, if_false]
          rw [strip_cons_ne c rest h1]

/-- The exponent loop reads a string and the string without its underscores
alike, the flag apart. -/
theorem expLoop_strip (s : GoString) (e : Nat) (u u₀ : Bool) :
    expLoop (stripUnderscores s) e u₀
      = ((expLoop s e u).1, u₀, stripUnderscores (expLoop s e u).2.2) := by
  induction s generalizing e u with
  | nil => simp [stripUnderscores, expLoop]
  | cons c rest ih =>
    by_cases h1 : c = 0x5F
    · subst h1
      rw [strip_cons_us, expLoop]
      simp only [if_true]
      exact ih e true
    · rw [strip_cons_ne c rest h1, expLoop, expLoop]
      simp only [h1, if_false]
      by_cases hdg : isDecDigit c = true
      · simp only [hdg, if_true]
        exact ih _ u
      · simp only [hdg, Bool.false_eq_true, if_false]
        rw [strip_cons_ne c rest h1]

/-! ## Underscores: what `underscoreOK` demands -/

theorem digitLike_ne_us (hex : Bool) (c : Nat) (h : digitLike hex c = true) : c ≠ 0x5F := by
  rintro rfl
  cases hex <;> simp [digitLike, isDecDigit, isHexLetter, lower] at h

/-- The scan of `underscoreOK` succeeds exactly when every underscore comes
directly after a digit (or at the very beginning, after a base prefix) and
directly before a digit. -/
theorem underscoreScan_iff (hex : Bool) (t : GoString) (saw : Nat) :
    underscoreScan hex t saw = true ↔
      (saw = 2 → ∃ q t', t = q :: t' ∧ digitLike hex q = true) ∧
      (∀ b, t = 0x5F :: b → saw = 1) ∧
      (∀ a p b, t = a ++ p :: 0x5F :: b → digitLike hex p = true) ∧
      (∀ a b, t = a ++ 0x5F :: b → ∃ q b', b = q :: b' ∧ digitLike hex q = true) := by
  induction t generalizing saw with
  | nil =>
    simp only [underscoreScan]
    constructor
    · intro h
      refine ⟨fun h2 => ?_, fun b hb => by simp at hb, fun a p b hb => by simp at hb,
        fun a b hb => by simp at hb⟩
      simp [h2] at h
    · rintro ⟨h1, -, -, -⟩
      by_cases h2 : saw = 2
      · obtain ⟨q, t', hq, -⟩ := h1 h2
        simp at hq
      · simpa using h2
  | cons c rest ih =>
    -- decompositions of `c :: rest` at an underscore
    have hpred : ∀ P : Nat → Prop, (∀ a p b, c :: rest = a ++ p :: 0x5F :: b → P p) ↔
        ((∀ b, rest = 0x5F :: b → P c) ∧ ∀ a p b, rest = a ++ p :: 0x5F :: b → P p) := by
      intro P
      constructor
      · intro h
        exact ⟨fun b hb => h [] c b (by rw [hb]; rfl),
          fun a p b hb => h (c :: a) p b (by rw [hb]; rfl)⟩
      · rintro ⟨h1, h2⟩ a p b hb
        cases a with
        | nil =>
          simp only [List.nil_append, List.cons.injEq] at hb
          rw [← hb.1]; exact h1 b hb.2
        | cons a0 a' =>
          simp only [List.cons_append, List.cons.injEq] at hb
          exact h2 a' p b hb.2
    have hsucc : ∀ P : GoString → Prop, (∀ a b, c :: rest = a ++ 0x5F :: b → P b) ↔
        ((c = 0x5F → P rest) ∧ ∀ a b, rest = a ++ 0x5F :: b → P b) := by
      intro P
      constructor
      · intro h
        exact ⟨fun hc => h [] rest (by rw [hc]; rfl),
          fun a b hb => h (c :: a) b (by rw [hb]; rfl)⟩
      · rintro ⟨h1, h2⟩ a b hb
        cases a with
        | nil =>
          simp only [List.nil_append, List.cons.injEq] at hb
          rw [← hb.2]; exact h1 hb.1
        | cons a0 a' =>
          simp only [List.cons_append, List.cons.injEq] at hb
          exact h2 a' b hb.2
    rw [hpred (fun p => digitLike hex p = true),
      hsucc (fun b => ∃ q b', b = q :: b' ∧ digitLike hex q = true)]
    rw [underscoreScan]
    by_cases hd : digitLike hex c = true
    · have hc := digitLike_ne_us hex c hd
      have hd' : (isDecDigit c || (hex && isHexLetter c)) = true := hd
      rw [if_pos hd', ih 1]
      constructor
      · rintro ⟨-, -, h3, h4⟩
        exact ⟨fun _ => ⟨c, rest, rfl, hd⟩, fun b hb => absurd (List.cons.inj hb).1 hc,
          ⟨fun _ _ => hd, h3⟩, ⟨fun h => absurd h hc, h4⟩⟩
      · rintro ⟨-, -, ⟨-, h3⟩, ⟨-, h4⟩⟩
        exact ⟨fun h => absurd h (by decide), fun _ _ => rfl, h3, h4⟩
    · have hd' : ¬ (isDecDigit c || (hex && isHexLetter c)) = true := hd
      rw [if_neg hd']
      by_cases hc : c = 0x5F
      · subst hc
        rw [if_pos rfl]
        by_cases hs : saw = 1
        · subst hs
          rw [if_neg (by decide), ih 2]
          constructor
          · rintro ⟨h1, h2, h3, h4⟩
            refine ⟨fun h => absurd h (by decide), fun _ _ => rfl, ⟨fun b hb => ?_, h3⟩,
              ⟨fun _ => ?_, h4⟩⟩
            · exact absurd (h2 b hb) (by decide)
            · obtain ⟨q, t', hq, hq'⟩ := h1 rfl
              exact ⟨q, t', hq, hq'⟩
          · rintro ⟨-, -, ⟨h3, h3'⟩, ⟨h4, h4'⟩⟩
            refine ⟨fun _ => h4 rfl, fun b hb => ?_, h3', h4'⟩
            exact absurd (h3 b hb) hd
        · have hs' : (saw != 1) = true := by simpa using hs
          rw [if_pos hs']
          constructor
          · intro h; exact absurd h (by simp)
          · rintro ⟨-, h2, -, -⟩
            exact absurd (h2 rest rfl) hs
      · rw [if_neg hc]
        by_cases hs : saw = 2
        · rw [if_pos hs]
          constructor
          · intro h; exact absurd h (by simp)
          · rintro ⟨h1, -, -, -⟩
            obtain ⟨q, t', hq, hq'⟩ := h1 hs
            simp only [List.cons.injEq] at hq
            rw [← hq.1] at hq'
            exact absurd hq' hd
        · rw [if_neg hs, ih 3]
          constructor
          · rintro ⟨-, h2, h3, h4⟩
            refine ⟨fun h => absurd h hs, fun b hb => absurd (List.cons.inj hb).1 hc,
              ⟨fun b hb => ?_, h3⟩, ⟨fun h => absurd h hc, h4⟩⟩
            exact absurd (h2 b hb) (by decide)
          · rintro ⟨-, -, ⟨h3, h3'⟩, ⟨-, h4'⟩⟩
            refine ⟨fun h => absurd h (by decide), fun b hb => ?_, h3', h4'⟩
            exact absurd (h3 b hb) hd

/-- A string without underscore passes the scan of `underscoreOK`. -/
theorem underscoreScan_of_not_mem (hex : Bool) (t : GoString) (saw : Nat) (hs : saw ≠ 2)
    (h : 0x5F ∉ t) : underscoreScan hex t saw = true := by
  rw [underscoreScan_iff]
  refine ⟨fun h2 => absurd h2 hs, fun b hb => ?_, fun a p b hb => ?_, fun a b hb => ?_⟩
  · exact absurd (by rw [hb]; simp) h
  · exact absurd (by rw [hb]; simp) h
  · exact absurd (by rw [hb]; simp) h

/-- A string without underscore passes `underscoreOK`. -/
theorem underscoreOK_of_not_mem (s : GoString) (h : 0x5F ∉ s) : underscoreOK s = true := by
  unfold underscoreOK
  have key : ∀ body : GoString, 0x5F ∉ body →
      (match body with
        | c0 :: c1 :: rest =>
          if c0 = 0x30 ∧ (lower c1 = 0x62 ∨ lower c1 = 0x6F ∨ lower c1 = 0x78) then
            underscoreScan (lower c1 = 0x78) rest 1
          else underscoreScan false (c0 :: c1 :: rest) 0
        | s => underscoreScan false s 0) = true := by
    intro body hb
    rcases body with _ | ⟨c0, _ | ⟨c1, rest⟩⟩
    · rfl
    · exact underscoreScan_of_not_mem false _ 0 (by decide) hb
    · simp only []
      split_ifs
      · exact underscoreScan_of_not_mem _ _ 1 (by decide) (fun hc => hb (by simp [hc]))
      · exact underscoreScan_of_not_mem false _ 0 (by decide) hb
  cases s with
  | nil => rfl
  | cons c rest =>
    simp only []
    split_ifs
    · exact key rest (fun hc => h (by simp [hc]))
    · exact key (c :: rest) h

/-! ## Underscores: what the loops leave unread -/

theorem mantLoop_flag_mono (base m : Nat) (s : GoString) (st : MantState)
    (h : st.underscores = true) : (mantLoop base m s st).1.underscores = true := by
  induction s generalizing st with
  | nil => simpa [mantLoop] using h
  | cons c rest ih =>
    rw [mantLoop]
    split_ifs
    all_goals first
      | exact h
      | exact ih _ (by simp [h])

/-- The digit loop of `readFloat` stops in front of a byte that is not an
underscore, and it raises its flag when it passes an underscore. -/
theorem mantLoop_rest (base m : Nat) (s : GoString) (st : MantState) :
    ∃ pre, s = pre ++ (mantLoop base m s st).2 ∧
      (∀ t, (mantLoop base m s st).2 ≠ 0x5F :: t) ∧
      ((mantLoop base m s st).1.underscores = false → 0x5F ∉ pre) := by
  induction s generalizing st with
  | nil => exact ⟨[], rfl, fun t h => by simp [mantLoop] at h, fun _ => by simp⟩
  | cons c rest ih =>
    have stop : c ≠ 0x5F → ∃ pre, c :: rest = pre ++ (st, c :: rest).2 ∧
        (∀ t, (st, c :: rest).2 ≠ 0x5F :: t) ∧
        ((st, c :: rest).1.underscores = false → 0x5F ∉ pre) := by
      intro hc
      refine ⟨[], rfl, fun t h => ?_, fun _ => by simp⟩
      simp only [List.cons.injEq] at h
      exact hc h.1
    have step : c ≠ 0x5F → ∀ st1 : MantState, ∃ pre, c :: rest = pre ++ (mantLoop base m rest st1).2 ∧
        (∀ t, (mantLoop base m rest st1).2 ≠ 0x5F :: t) ∧
        ((mantLoop base m rest st1).1.underscores = false → 0x5F ∉ pre) := by
      intro hc st1
      obtain ⟨pre, e1, e2, e3⟩ := ih st1
      refine ⟨c :: pre, by rw [List.cons_append, ← e1], e2, fun h => ?_⟩
      intro hm
      rcases List.mem_cons.1 hm with h' | h'
      · exact hc h'.symm
      · exact e3 h h'
    rw [mantLoop]
    by_cases h1 : c = 0x5F
    · rw [if_pos h1]
      obtain ⟨pre, e1, e2, e3⟩ := ih { st with underscores := true }
      refine ⟨c :: pre, by rw [List.cons_append, ← e1], e2, fun h => ?_⟩
      rw [mantLoop_flag_mono base m rest _ rfl] at h
      exact absurd h (by simp)
    · rw [if_neg h1]
      split_ifs
      all_goals first
        | exact stop h1
        | exact step h1 _

theorem expLoop_flag_mono (s : GoString) (e : Nat) : (expLoop s e true).2.1 = true := by
  induction s generalizing e with
  | nil => simp [expLoop]
  | cons c rest ih =>
    rw [expLoop]
    split_ifs
    all_goals first
      | exact ih _
      | rfl

/-- The exponent loop stops in front of a byte that is not an underscore,
and it raises its flag when it passes an underscore. -/
theorem expLoop_rest (s : GoString) (e : Nat) (u : Bool) :
    ∃ pre, s = pre ++ (expLoop s e u).2.2 ∧ (∀ t, (expLoop s e u).2.2 ≠ 0x5F :: t) ∧
      ((expLoop s e u).2.1 = false → 0x5F ∉ pre) := by
  induction s generalizing e u with
  | nil => exact ⟨[], rfl, fun t h => by simp [expLoop] at h, fun _ => by simp⟩
  | cons c rest ih =>
    rw [expLoop]
    by_cases h1 : c = 0x5F
    · rw [if_pos h1]
      obtain ⟨pre, e1, e2, e3⟩ := ih e true
      refine ⟨c :: pre, by rw [List.cons_append, ← e1], e2, fun h => ?_⟩
      rw [expLoop_flag_mono] at h
      exact absurd h (by simp)
    · rw [if_neg h1]
      by_cases hd : isDecDigit c = true
      · rw [if_pos hd]
        obtain ⟨pre, e1, e2, e3⟩ := ih (if e < 10000 then e * 10 + (c - 0x30) else e) u
        refine ⟨c :: pre, by rw [List.cons_append, ← e1], e2, fun h => ?_⟩
        intro hm
        rcases List.mem_cons.1 hm with h' | h'
        · exact h1 h'.symm
        · exact e3 h h'
      · rw [if_neg hd]
        refine ⟨[], rfl, fun t h => ?_, fun _ => by simp⟩
        simp only [List.cons.injEq] at h
        exact h1 h.1

/-- The digit loop of `decimal.set` stops in front of a byte that is not an
underscore. -/
theorem decimalLoop_rest (s : GoString) (d : Decimal) :
    ∃ pre, s = pre ++ (decimalLoop s d).2 ∧ (∀ t, (decimalLoop s d).2 ≠ 0x5F :: t) := by
  induction s generalizing d with
  | nil => exact ⟨[], rfl, fun t h => by simp [decimalLoop] at h⟩
  | cons c rest ih =>
    have stop : c ≠ 0x5F → ∃ pre, c :: rest = pre ++ (d, c :: rest).2 ∧
        (∀ t, (d, c :: rest).2 ≠ 0x5F :: t) := by
      intro hc
      refine ⟨[], rfl, fun t h => ?_⟩
      simp only [List.cons.injEq] at h
      exact hc h.1
    have step : ∀ d1 : Decimal, ∃ pre, c :: rest = pre ++ (decimalLoop rest d1).2 ∧
        (∀ t, (decimalLoop rest d1).2 ≠ 0x5F :: t) := by
      intro d1
      obtain ⟨pre, e1, e2⟩ := ih d1
      exact ⟨c :: pre, by rw [List.cons_append, ← e1], e2⟩
    rw [decimalLoop]
    by_cases h1 : c = 0x5F
    · rw [if_pos h1]; exact step _
    · rw [if_neg h1]
      split_ifs
      all_goals first
        | exact stop h1
        | exact step _

theorem strip_eq_nil (r : GoString) (h0 : ∀ t, r ≠ 0x5F :: t)
    (h : stripUnderscores r = []) : r = [] := by
  cases r with
  | nil => rfl
  | cons c t =>
    have hc : c ≠ 0x5F := fun hc => h0 t (by rw [hc])
    rw [strip_cons_ne c t hc] at h
    exact absurd h (by simp)

/-- The exponent is read alike in a string and in the string without its
underscores, provided no underscore follows the exponent letter or the sign
of the exponent. -/
theorem expPart_strip (expChar : Nat) (mandatory : Bool) (r : GoString)
    (h0 : ∀ t, r ≠ 0x5F :: t)
    (h1 : ∀ e t, r = e :: 0x5F :: t → lower e ≠ expChar)
    (h2 : ∀ e s1 t, r = e :: s1 :: 0x5F :: t → lower e = expChar → ¬ (s1 = 0x2B ∨ s1 = 0x2D)) :
    expPart expChar mandatory (stripUnderscores r) =
      match expPart expChar mandatory r with
      | none => none
      | some (shift, _, rest') => some (shift, false, stripUnderscores rest') := by
  cases r with
  | nil => cases mandatory <;> simp [stripUnderscores, expPart]
  | cons c rest =>
    have hc : c ≠ 0x5F := fun hc => h0 rest (by rw [hc])
    rw [strip_cons_ne c rest hc]
    simp only [expPart]
    by_cases hl : lower c = expChar
    · rw [if_pos hl, if_pos hl]
      cases rest with
      | nil => simp [stripUnderscores]
      | cons s1 rest1 =>
        have hs1 : s1 ≠ 0x5F := fun hs => h1 c rest1 (by rw [hs]) hl
        rw [strip_cons_ne s1 rest1 hs1]
        simp only []
        have key : ∀ body : GoString, (∀ t, body ≠ 0x5F :: t) →
            (match stripUnderscores body with
              | [] => none
              | d :: _ =>
                if (!isDecDigit d) = true then none
                else some (((expLoop (stripUnderscores body) 0 false).1 : Int)
                    * (if s1 = 0x2D then -1 else 1),
                  (expLoop (stripUnderscores body) 0 false).2.1,
                  (expLoop (stripUnderscores body) 0 false).2.2))
            = match (match body with
                | [] => none
                | d :: _ =>
                  if (!isDecDigit d) = true then none
                  else some (((expLoop body 0 false).1 : Int) * (if s1 = 0x2D then -1 else 1),
                    (expLoop body 0 false).2.1, (expLoop body 0 false).2.2)) with
              | none => none
              | some (shift, _, rest') => some (shift, false, stripUnderscores rest') := by
          intro body hb
          cases body with
          | nil => simp [stripUnderscores]
          | cons d t =>
            have hd : d ≠ 0x5F := fun hd => hb t (by rw [hd])
            simp only [expLoop_strip (d :: t) 0 false false]
            rw [strip_cons_ne d t hd]
            simp only []
            by_cases hdd : (!isDecDigit d) = true
            · rw [if_pos hdd, if_pos hdd]
            · rw [if_neg hdd, if_neg hdd]
        by_cases hs : s1 = 0x2B ∨ s1 = 0x2D
        · rw [if_pos hs, if_pos hs]
          exact key rest1 (fun t ht => h2 c s1 t (by rw [ht]) hl hs)
        · rw [if_neg hs, if_neg hs, ← strip_cons_ne s1 rest1 hs1]
          exact key (s1 :: rest1) (fun t ht => hs1 (List.cons.inj ht).1)
    · rw [if_neg hl, if_neg hl]
      cases mandatory
      · simp [strip_cons_ne c rest hc]
      · simp

/-- What `expPart` reads to the end without raising the underscore flag has
no underscore. -/
theorem expPart_noflag (expChar : Nat) (mandatory : Bool) (r : GoString) (shift : Int)
    (hne : expChar ≠ 0x7F) (h : expPart expChar mandatory r = some (shift, false, [])) :
    0x5F ∉ r := by
  cases r with
  | nil => simp
  | cons c rest =>
    simp only [expPart] at h
    by_cases hl : lower c = expChar
    · rw [if_pos hl] at h
      have hc : c ≠ 0x5F := by
        rintro rfl
        exact hne (by rw [← hl]; rfl)
      cases rest with
      | nil => simp at h
      | cons s1 rest1 =>
        simp only [] at h
        have key : ∀ body : GoString,
            (match body with
              | [] => none
              | d :: _ =>
                if (!isDecDigit d) = true then none
                else some (((expLoop body 0 false).1 : Int) * (if s1 = 0x2D then -1 else 1),
                  (expLoop body 0 false).2.1, (expLoop body 0 false).2.2))
              = some (shift, false, []) → 0x5F ∉ body := by
          intro body hb
          cases body with
          | nil => simp
          | cons d t =>
            simp only [] at hb
            split_ifs at hb
            all_goals
              simp only [Option.some.injEq, Prod.mk.injEq] at hb
              obtain ⟨pre, e1, -, e3⟩ := expLoop_rest (d :: t) 0 false
              rw [hb.2.2, List.append_nil] at e1
              rw [e1]
              exact e3 hb.2.1
        by_cases hs : s1 = 0x2B ∨ s1 = 0x2D
        · rw [if_pos hs] at h
          have := key rest1 h
          intro hm
          rcases List.mem_cons.1 hm with h' | h'
          · exact hc h'.symm
          · rcases List.mem_cons.1 h' with h'' | h''
            · rcases hs with rfl | rfl <;> simp at h''
            · exact this h''
        · rw [if_neg hs] at h
          have := key (s1 :: rest1) h
          intro hm
          rcases List.mem_cons.1 hm with h' | h'
          · exact hc h'.symm
          · exact this h'
    · rw [if_neg hl] at h
      cases mandatory <;> simp at h

/-- When the digit loop of `readFloat` has seen a digit, the first byte was
a digit, a point or an underscore. -/
theorem mantLoop_head (base m : Nat) (c : Nat) (t : GoString)
    (h : (mantLoop base m (c :: t) {}).1.sawdigits = true) :
    c = 0x5F ∨ c = 0x2E ∨ isDecDigit c = true ∨ (base = 16 ∧ isHexLetter c = true) := by
  by_contra hn
  push_neg at hn
  obtain ⟨h1, h2, h3, h4⟩ := hn
  rw [mantLoop] at h
  have h4' : ¬ (base = 16 ∧ isHexLetter c = true) := fun hh => h4 hh.1 hh.2
  simp only [h1, h2, h3, if_false, h4', Bool.false_eq_true] at h

/-- A string whose number starts with a digit or a point is no spelling of
infinity or NaN, complete or not. -/
theorem special_of_head (c : Nat) (rest body : GoString)
    (hb : (if c = 0x2B ∨ c = 0x2D then rest else c :: rest) = body)
    (b0 : Nat) (bt : GoString) (hbody : body = b0 :: bt)
    (hd : isDecDigit b0 = true ∨ b0 = 0x2E) : special (c :: rest) = none := by
  have hb0 : (0x30 ≤ b0 ∧ b0 ≤ 0x39) ∨ b0 = 0x2E := by
    rcases hd with h | h
    · left; simpa [isDecDigit] using h
    · right; exact h
  have hpre : ∀ t, commonPrefixLenIgnoreCase (b0 :: t) (utf8 "infinity") = 0 := by
    intro t
    rw [utf8_infinity, commonPrefixLenIgnoreCase]
    have h1 : ¬ (0x41 ≤ b0 ∧ b0 ≤ 0x5A) := by omega
    have h2 : b0 ≠ 0x69 := by omega
    simp [h1, h2]
  by_cases hs : c = 0x2B ∨ c = 0x2D
  · rw [if_pos hs, hbody] at hb
    rw [special, if_pos hs, hb]
    simp [specialInf, hpre]
  · rw [if_neg hs, hbody] at hb
    simp only [List.cons.injEq] at hb
    obtain ⟨rfl, rfl⟩ := hb
    have h2 : ¬ (c = 0x69 ∨ c = 0x49) := by omega
    have h3 : ¬ (c = 0x6E ∨ c = 0x4E) := by omega
    simp [special, hs, h2, h3]

/-- A spelling of infinity or NaN has neither digit nor underscore. -/
theorem IsSpecialText_letters (s : GoString) (h : IsSpecialText s) :
    ∀ c ∈ s, isDecDigit c = false ∧ c ≠ 0x5F := by
  intro c hc
  unfold IsSpecialText at h
  rw [special_spellings, utf8_inf, utf8_infinity] at h
  have hm : asciiLower c ∈ s.map asciiLower := List.mem_map_of_mem _ hc
  have hl : asciiLower c = 0x2B ∨ asciiLower c = 0x2D ∨ (0x61 ≤ asciiLower c ∧ asciiLower c ≤ 0x7A) := by
    simp only [List.mem_cons, List.mem_singleton, List.not_mem_nil, or_false] at h
    rcases h with h | h | h | h | h | h | h <;> rw [h] at hm <;>
      simp only [List.mem_cons, List.mem_singleton, List.not_mem_nil, or_false] at hm <;> omega
  unfold asciiLower at hl
  constructor
  · simp only [isDecDigit, Bool.and_eq_false_imp, decide_eq_true_eq, decide_eq_false_iff_not]
    split_ifs at hl <;> omega
  · split_ifs at hl <;> omega

/-! ## Underscores: `ParseFloat` in terms of the loops -/

/-- What `readFloat` computes on a string without the hexadecimal base
prefix. -/
theorem readFloat_dec_eq (c : Nat) (rest body : GoString)
    (hb : (if c = 0x2B ∨ c = 0x2D then rest else c :: rest) = body)
    (hnh : ∀ x t, body = 0x30 :: x :: t → t ≠ [] → lower x ≠ 0x78) :
    readFloat (c :: rest) =
      if !(mantLoop 10 19 body {}).1.sawdigits then none
      else
        match expPart 0x65 false (mantLoop 10 19 body {}).2 with
        | none => none
        | some (shift, u, rest') =>
          if ((mantLoop 10 19 body {}).1.underscores || u) &&
              !underscoreOK ((c :: rest).take ((c :: rest).length - rest'.length)) then none
          else
            some { mantissa := (mantLoop 10 19 body {}).1.mantissa,
                   exp := if (mantLoop 10 19 body {}).1.mantissa ≠ 0 then
                       (if (mantLoop 10 19 body {}).1.sawdot then (mantLoop 10 19 body {}).1.dp
                         else ((mantLoop 10 19 body {}).1.nd : Int)) + shift
                         - ((mantLoop 10 19 body {}).1.ndMant : Int)
                     else 0,
                   hex := false, n := (c :: rest).length - rest'.length } := by
  unfold readFloat
  rcases body with _ | ⟨c0, _ | ⟨c1, _ | ⟨c2, t3⟩⟩⟩
  · simp only [hb, Bool.false_eq_true, if_false]
    try rfl
  · simp only [hb, Bool.false_eq_true, if_false]
    try rfl
  · simp only [hb, Bool.false_eq_true, if_false]
    try rfl
  · have hd : decide (c0 = 0x30 ∧ lower c1 = 0x78) = false := by
      rw [decide_eq_false_iff_not]
      rintro ⟨rfl, hx⟩
      exact hnh c1 (c2 :: t3) rfl (by simp) hx
    simp only [hb, hd, Bool.false_eq_true, if_false]
    try rfl

/-- `ParseFloat(s, 32)` on a string without the hexadecimal base prefix that
`special` does not take. -/
theorem ParseFloatOk_dec (c : Nat) (rest body : GoString)
    (hb : (if c = 0x2B ∨ c = 0x2D then rest else c :: rest) = body)
    (hnh : ∀ x t, body = 0x30 :: x :: t → t ≠ [] → lower x ≠ 0x78)
    (hsp : special (c :: rest) = none) :
    ParseFloatOk (c :: rest) =
      ((mantLoop 10 19 body {}).1.sawdigits &&
        match expPart 0x65 false (mantLoop 10 19 body {}).2 with
        | none => false
        | some (_, u, rest') =>
          rest'.isEmpty &&
          ((!((mantLoop 10 19 body {}).1.underscores || u) || underscoreOK (c :: rest)) &&
          match decimalSet (c :: rest) with
          | none => false
          | some (dg, nd, dp) => !floatBitsOverflow dg nd dp)) := by
  unfold ParseFloatOk atof32
  rw [hsp, readFloat_dec_eq c rest body hb hnh]
  simp only []
  cases hsd : (mantLoop 10 19 body {}).1.sawdigits
  · simp
  · simp only [Bool.not_true, Bool.false_eq_true, if_false, Bool.true_and]
    cases hexp : expPart 0x65 false (mantLoop 10 19 body {}).2 with
    | none => simp
    | some p =>
      obtain ⟨shift, u, rest'⟩ := p
      simp only []
      cases rest' with
      | cons d t =>
        have hlen : ((c :: rest).length - (d :: t).length == (c :: rest).length) = false := by
          simp only [List.length_cons, beq_eq_false_iff_ne]; omega
        simp only [List.isEmpty_cons, Bool.false_and]
        by_cases hck : (((mantLoop 10 19 body {}).1.underscores || u) &&
            !underscoreOK ((c :: rest).take ((c :: rest).length - (d :: t).length))) = true
        · rw [if_pos hck]; simp
        · rw [if_neg hck]
          simp only [Bool.false_eq_true, if_false]
          cases decimalSet ((c :: rest).take ((c :: rest).length - (d :: t).length)) with
          | none => simp only [hlen, Bool.and_false]
          | some x => simp only [hlen, Bool.and_false]
      | nil =>
        simp only [List.length_nil, Nat.sub_zero, List.take_length, List.isEmpty_nil,
          Bool.true_and]
        cases hfl : ((mantLoop 10 19 body {}).1.underscores || u)
        · simp only [Bool.false_and, Bool.false_eq_true, if_false, Bool.not_false, Bool.true_or,
            Bool.true_and]
          cases hds : decimalSet (c :: rest) with
          | none => simp [hds]
          | some x => obtain ⟨dg, nd, dp⟩ := x; simp [hds]
        · cases hok : underscoreOK (c :: rest)
          · simp
          · simp only [Bool.not_true, Bool.and_false, Bool.false_eq_true, if_false,
              Bool.false_or, Bool.true_and]
            cases hds : decimalSet (c :: rest) with
            | none => simp [hds]
            | some x => obtain ⟨dg, nd, dp⟩ := x; simp [hds]

/-- `ParseFloat(s, 32)` on a string with the hexadecimal base prefix. -/
theorem ParseFloatOk_hex (c : Nat) (rest : GoString) (x : Nat) (t : GoString)
    (hb : (if c = 0x2B ∨ c = 0x2D then rest else c :: rest) = 0x30 :: x :: t)
    (hx : lower x = 0x78) (ht : t ≠ []) :
    ParseFloatOk (c :: rest) =
      ((mantLoop 16 16 t {}).1.sawdigits &&
        match expPart 0x70 true (mantLoop 16 16 t {}).2 with
        | none => false
        | some (shift, u, rest') =>
          rest'.isEmpty &&
          ((!((mantLoop 16 16 t {}).1.underscores || u) || underscoreOK (c :: rest)) &&
          !atofHexOverflow (mantLoop 16 16 t {}).1.mantissa
            (if (mantLoop 16 16 t {}).1.mantissa ≠ 0 then
              (if (mantLoop 16 16 t {}).1.sawdot then (mantLoop 16 16 t {}).1.dp
                else ((mantLoop 16 16 t {}).1.nd : Int)) * 4 + shift
                - (((mantLoop 16 16 t {}).1.ndMant * 4 : Nat) : Int)
             else 0))) := by
  have hsp : special (c :: rest) = none :=
    special_of_head c rest _ hb 0x30 (x :: t) rfl (Or.inl (by decide))
  unfold ParseFloatOk atof32
  rw [hsp, readFloat_hex_eq c rest x t hb hx ht]
  simp only []
  cases hsd : (mantLoop 16 16 t {}).1.sawdigits
  · simp
  · simp only [Bool.not_true, Bool.false_eq_true, if_false, Bool.true_and]
    cases hexp : expPart 0x70 true (mantLoop 16 16 t {}).2 with
    | none => simp
    | some p =>
      obtain ⟨shift, u, rest'⟩ := p
      simp only []
      cases rest' with
      | cons d t' =>
        have hlen : ((c :: rest).length - (d :: t').length == (c :: rest).length) = false := by
          simp only [List.length_cons, beq_eq_false_iff_ne]; omega
        simp only [List.isEmpty_cons, Bool.false_and]
        by_cases hck : (((mantLoop 16 16 t {}).1.underscores || u) &&
            !underscoreOK ((c :: rest).take ((c :: rest).length - (d :: t').length))) = true
        · rw [if_pos hck]; simp
        · rw [if_neg hck]
          simp only [if_true, hlen, Bool.and_false]
      | nil =>
        simp only [List.length_nil, Nat.sub_zero, List.take_length, List.isEmpty_nil,
          Bool.true_and]
        cases hfl : ((mantLoop 16 16 t {}).1.underscores || u)
        · simp
        · cases hok : underscoreOK (c :: rest)
          · simp
          · simp

/-! ## Underscores: `ParseFloat` on a string and on the string without them -/

/-- What `expPart` leaves unread does not start with an underscore. -/
theorem expPart_rest_head (expChar : Nat) (mandatory : Bool) (r : GoString)
    (h0 : ∀ t, r ≠ 0x5F :: t) (shift : Int) (u : Bool) (rest' : GoString)
    (h : expPart expChar mandatory r = some (shift, u, rest')) : ∀ t, rest' ≠ 0x5F :: t := by
  cases r with
  | nil =>
    cases mandatory <;> simp [expPart] at h
    intro t; rw [h.2.2]; simp
  | cons c rest =>
    simp only [expPart] at h
    by_cases hl : lower c = expChar
    · rw [if_pos hl] at h
      cases rest with
      | nil => simp at h
      | cons s1 rest1 =>
        simp only [] at h
        have key : ∀ body : GoString,
            (match body with
              | [] => none
              | d :: _ =>
                if (!isDecDigit d) = true then none
                else some (((expLoop body 0 false).1 : Int) * (if s1 = 0x2D then -1 else 1),
                  (expLoop body 0 false).2.1, (expLoop body 0 false).2.2))
              = some (shift, u, rest') → ∀ t, rest' ≠ 0x5F :: t := by
          intro body hb
          cases body with
          | nil => simp at hb
          | cons d t =>
            simp only [] at hb
            split_ifs at hb
            all_goals
              simp only [Option.some.injEq, Prod.mk.injEq] at hb
              obtain ⟨pre, -, e2, -⟩ := expLoop_rest (d :: t) 0 false
              rw [hb.2.2] at e2
              exact e2
        by_cases hs : s1 = 0x2B ∨ s1 = 0x2D
        · rw [if_pos hs] at h; exact key rest1 h
        · rw [if_neg hs] at h; exact key (s1 :: rest1) h
    · rw [if_neg hl] at h
      cases mandatory
      · simp only [Bool.false_eq_true, if_false, Option.some.injEq, Prod.mk.injEq] at h
        rw [← h.2.2]; exact h0
      · simp at h

/-- The sign of a number is kept when the underscores are removed. -/
theorem body_strip (c : Nat) (rest body : GoString)
    (hb : (if c = 0x2B ∨ c = 0x2D then rest else c :: rest) = body) (hc : c ≠ 0x5F) :
    stripUnderscores (c :: rest) = c :: stripUnderscores rest ∧
    (if c = 0x2B ∨ c = 0x2D then stripUnderscores rest else c :: stripUnderscores rest)
      = stripUnderscores body := by
  refine ⟨strip_cons_ne c rest hc, ?_⟩
  by_cases hs : c = 0x2B ∨ c = 0x2D
  · rw [if_pos hs] at hb ⊢; rw [hb]
  · rw [if_neg hs] at hb ⊢; rw [← hb, strip_cons_ne c rest hc]

/-- `decimal.set` reads a string and the string without its underscores
alike, provided no underscore follows the exponent letter or a sign. -/
theorem decimalSet_strip (c : Nat) (rest body : GoString)
    (hb : (if c = 0x2B ∨ c = 0x2D then rest else c :: rest) = body) (hc : c ≠ 0x5F)
    (hspot : ∀ a e t, body = a ++ e :: 0x5F :: t →
      lower e ≠ 0x65 ∧ ¬ (e = 0x2B ∨ e = 0x2D)) :
    decimalSet (stripUnderscores (c :: rest)) = decimalSet (c :: rest) := by
  obtain ⟨e1, e2⟩ := body_strip c rest body hb hc
  rw [e1]
  unfold decimalSet
  simp only [hb, e2, decimalLoop_strip]
  obtain ⟨pre, hpre, h0⟩ := decimalLoop_rest body {}
  have hx := expPart_strip 0x65 false (decimalLoop body {}).2 h0
    (fun e t hr => (hspot pre e t (by rw [← hr]; exact hpre)).1)
    (fun e s1 t hr _ => (hspot (pre ++ [e]) s1 t (by
      rw [List.append_assoc, List.singleton_append, ← hr]; exact hpre)).2)
  rw [hx]
  cases hsd : (decimalLoop body {}).1.sawdigits
  · simp
  · simp only [Bool.not_true, Bool.false_eq_true, if_false]
    cases hexp : expPart 0x65 false (decimalLoop body {}).2 with
    | none => rfl
    | some p =>
      obtain ⟨shift, u, rest'⟩ := p
      simp only []
      have hr := expPart_rest_head 0x65 false _ h0 shift u rest' hexp
      by_cases hn : rest' = []
      · subst hn; simp [stripUnderscores]
      · have hn' : stripUnderscores rest' ≠ [] := fun h => hn (strip_eq_nil rest' hr h)
        simp [hn, hn']

/-- A string that `ParseFloat` accepts is a spelling of infinity or NaN, or
its number starts with a digit, a point or an underscore. -/
theorem ParseFloatOk_head (c : Nat) (rest body : GoString)
    (hb : (if c = 0x2B ∨ c = 0x2D then rest else c :: rest) = body)
    (h : ParseFloatOk (c :: rest) = true) :
    IsSpecialText (c :: rest) ∨
      ∃ b0 bt, body = b0 :: bt ∧ (b0 = 0x5F ∨ b0 = 0x2E ∨ isDecDigit b0 = true) := by
  cases hsp : special (c :: rest) with
  | some n =>
    left
    have h' := h
    unfold ParseFloatOk atof32 at h'
    simp only [hsp, Bool.true_and, beq_iff_eq] at h'
    rw [h'] at hsp
    exact (special_iff _).1 hsp
  | none =>
    right
    by_cases hh : ∃ x t, body = 0x30 :: x :: t ∧ t ≠ [] ∧ lower x = 0x78
    · obtain ⟨x, t, hbody, -, -⟩ := hh
      exact ⟨0x30, x :: t, hbody, Or.inr (Or.inr (by decide))⟩
    · have hnh : ∀ x t, body = 0x30 :: x :: t → t ≠ [] → lower x ≠ 0x78 :=
        fun x t h1 h2 h3 => hh ⟨x, t, h1, h2, h3⟩
      rw [ParseFloatOk_dec c rest body hb hnh hsp] at h
      simp only [Bool.and_eq_true] at h
      cases body with
      | nil => simp [mantLoop] at h
      | cons b0 bt =>
        rcases mantLoop_head 10 19 b0 bt h.1 with h' | h' | h' | h'
        · exact ⟨b0, bt, rfl, Or.inl h'⟩
        · exact ⟨b0, bt, rfl, Or.inr (Or.inl h')⟩
        · exact ⟨b0, bt, rfl, Or.inr (Or.inr h')⟩
        · exact absurd h'.1 (by decide)

theorem lower_us : lower 0x5F = 0x7F := by decide

/-- A decimal number: `ParseFloat` gives the same verdict on a string whose
underscores are well placed and on the string without them. -/
theorem ParseFloatOk_strip_dec (c : Nat) (rest body : GoString)
    (hb : (if c = 0x2B ∨ c = 0x2D then rest else c :: rest) = body)
    (hOK : underscoreOK (c :: rest) = true) (hmem : 0x5F ∈ c :: rest)
    (hnh : ∀ x t, body = 0x30 :: x :: t → lower x ≠ 0x78)
    (h0 : ∀ t, body ≠ 0x5F :: t)
    (hpred : ∀ a p b, body = a ++ p :: 0x5F :: b →
      isDecDigit p = true ∨ lower p = 0x62 ∨ lower p = 0x6F)
    (hsucc : ∀ a b, body = a ++ 0x5F :: b → ∃ q b', b = q :: b' ∧ isDecDigit q = true) :
    ParseFloatOk (stripUnderscores (c :: rest)) = ParseFloatOk (c :: rest) := by
  have hc : c ≠ 0x5F := by
    rintro rfl
    rw [if_neg (by decide)] at hb
    exact h0 rest hb.symm
  obtain ⟨e1, e2⟩ := body_strip c rest body hb hc
  have hmb : 0x5F ∈ body := by
    rcases List.mem_cons.1 hmem with h | h
    · exact absurd h.symm hc
    · by_cases hs : c = 0x2B ∨ c = 0x2D
      · rw [if_pos hs] at hb; rw [← hb]; exact h
      · rw [if_neg hs] at hb; rw [← hb]; exact List.mem_cons_of_mem _ h
  -- a digit follows the first underscore
  obtain ⟨a, b, hab⟩ := List.append_of_mem hmb
  obtain ⟨q, b', hq, hqd⟩ := hsucc a b hab
  have hqs : q ∈ stripUnderscores (c :: rest) := by
    rw [mem_strip]
    constructor
    · have : q ∈ body := by rw [hab, hq]; simp
      by_cases hs : c = 0x2B ∨ c = 0x2D
      · rw [if_pos hs] at hb; rw [← hb] at this; exact List.mem_cons_of_mem _ this
      · rw [if_neg hs] at hb; rw [← hb] at this; exact this
    · rintro rfl; exact absurd hqd (by decide)
  have hns1 : ¬ IsSpecialText (c :: rest) := fun h =>
    (IsSpecialText_letters _ h 0x5F hmem).2 rfl
  have hns2 : ¬ IsSpecialText (stripUnderscores (c :: rest)) := fun h => by
    have := (IsSpecialText_letters _ h q hqs).1
    rw [hqd] at this
    exact absurd this (by simp)
  obtain ⟨b0, bt, hbody⟩ : ∃ b0 bt, body = b0 :: bt := by
    cases body with
    | nil => simp at hmb
    | cons b0 bt => exact ⟨b0, bt, rfl⟩
  have hb0 : b0 ≠ 0x5F := fun h => h0 bt (by rw [hbody, h])
  have hsb : stripUnderscores body = b0 :: stripUnderscores bt := by
    rw [hbody, strip_cons_ne b0 bt hb0]
  by_cases hd : isDecDigit b0 = true ∨ b0 = 0x2E
  · -- both strings go through `readFloat`
    have hsp1 := special_of_head c rest body hb b0 bt hbody hd
    have hsp2 : special (c :: stripUnderscores rest) = none :=
      special_of_head c _ _ e2 b0 _ hsb hd
    have hnh1 : ∀ x t, body = 0x30 :: x :: t → t ≠ [] → lower x ≠ 0x78 :=
      fun x t h _ => hnh x t h
    have hnh2 : ∀ x t, stripUnderscores body = 0x30 :: x :: t → t ≠ [] → lower x ≠ 0x78 := by
      intro x t hx _
      rw [hsb] at hx
      simp only [List.cons.injEq] at hx
      obtain ⟨hb00, hbt⟩ := hx
      cases bt with
      | nil => simp [stripUnderscores] at hbt
      | cons b1 bt' =>
        by_cases hb1 : b1 = 0x5F
        · subst hb1
          obtain ⟨q', b'', hq', hqd'⟩ := hsucc [b0] bt' (by rw [hbody]; rfl)
          have hq'n : q' ≠ 0x5F := by rintro rfl; exact absurd hqd' (by decide)
          rw [strip_cons_us, hq', strip_cons_ne q' b'' hq'n] at hbt
          simp only [List.cons.injEq] at hbt
          rw [← hbt.1, lower_digit q' (by simpa [isDecDigit] using hqd')]
          have : 0x30 ≤ q' ∧ q' ≤ 0x39 := by simpa [isDecDigit] using hqd'
          omega
        · rw [strip_cons_ne b1 bt' hb1] at hbt
          simp only [List.cons.injEq] at hbt
          rw [← hbt.1]
          exact hnh b1 bt' (by rw [hbody, hb00])
    have hspot : ∀ a e t, body = a ++ e :: 0x5F :: t →
        lower e ≠ 0x65 ∧ ¬ (e = 0x2B ∨ e = 0x2D) := by
      intro a e t h
      rcases hpred a e t h with h' | h' | h'
      · have : 0x30 ≤ e ∧ e ≤ 0x39 := by simpa [isDecDigit] using h'
        rw [lower_digit e this]
        omega
      · constructor
        · omega
        · rintro (rfl | rfl) <;> exact absurd h' (by decide)
      · constructor
        · omega
        · rintro (rfl | rfl) <;> exact absurd h' (by decide)
    rw [e1, ParseFloatOk_dec c _ _ e2 hnh2 hsp2, ParseFloatOk_dec c rest body hb hnh1 hsp1]
    rw [← e1, decimalSet_strip c rest body hb hc hspot, hOK, mantLoop_strip]
    obtain ⟨pre, hpre, hr0, -⟩ := mantLoop_rest 10 19 body {}
    have hx := expPart_strip 0x65 false (mantLoop 10 19 body {}).2 hr0
      (fun e t hr => (hspot pre e t (by rw [← hr]; exact hpre)).1)
      (fun e s1 t hr _ => (hspot (pre ++ [e]) s1 t (by
        rw [List.append_assoc, List.singleton_append, ← hr]; exact hpre)).2)
    simp only []
    rw [hx]
    cases hexp : expPart 0x65 false (mantLoop 10 19 body {}).2 with
    | none => rfl
    | some p =>
      obtain ⟨shift, u, rest'⟩ := p
      have hr := expPart_rest_head 0x65 false _ hr0 shift u rest' hexp
      have hemp : (stripUnderscores rest').isEmpty = rest'.isEmpty := by
        cases rest' with
        | nil => rfl
        | cons d t =>
          have hd' : d ≠ 0x5F := fun h => hr t (by rw [h])
          rw [strip_cons_ne d t hd']; rfl
      simp only [hemp, Bool.or_true, Bool.true_and, Bool.or_false, Bool.not_false, Bool.true_or]
  · -- neither string is accepted
    have hn1 : ParseFloatOk (c :: rest) = false := by
      cases h : ParseFloatOk (c :: rest)
      · rfl
      · rcases ParseFloatOk_head c rest body hb h with h' | ⟨b0', bt', h1, h2⟩
        · exact absurd h' hns1
        · rw [hbody] at h1
          simp only [List.cons.injEq] at h1
          rw [← h1.1] at h2
          rcases h2 with h2 | h2 | h2
          · exact absurd h2 hb0
          · exact absurd (Or.inr h2) hd
          · exact absurd (Or.inl h2) hd
    have hn2 : ParseFloatOk (stripUnderscores (c :: rest)) = false := by
      cases h : ParseFloatOk (stripUnderscores (c :: rest))
      · rfl
      · rw [e1] at h
        rcases ParseFloatOk_head c _ _ e2 h with h' | ⟨b0', bt', h1, h2⟩
        · rw [← e1] at h'; exact absurd h' hns2
        · rw [hsb] at h1
          simp only [List.cons.injEq] at h1
          rw [← h1.1] at h2
          rcases h2 with h2 | h2 | h2
          · exact absurd h2 hb0
          · exact absurd (Or.inr h2) hd
          · exact absurd (Or.inl h2) hd
    rw [hn1, hn2]

theorem digitLike_false (c : Nat) : digitLike false c = isDecDigit c := by
  simp [digitLike]

/-- What `underscoreOK` establishes: either the string has the base prefix
`0x` and the scan ran in hexadecimal mode behind it, or every underscore
stands between decimal digits (the first one possibly right after a prefix
`0b` or `0o`). -/
theorem underscoreOK_facts (c : Nat) (rest body : GoString)
    (hb : (if c = 0x2B ∨ c = 0x2D then rest else c :: rest) = body)
    (hOK : underscoreOK (c :: rest) = true) :
    (∃ x t, body = 0x30 :: x :: t ∧ lower x = 0x78 ∧ underscoreScan true t 1 = true) ∨
    ((∀ x t, body = 0x30 :: x :: t → lower x ≠ 0x78) ∧
     (∀ t, body ≠ 0x5F :: t) ∧
     (∀ a p b, body = a ++ p :: 0x5F :: b →
        isDecDigit p = true ∨ lower p = 0x62 ∨ lower p = 0x6F) ∧
     (∀ a b, body = a ++ 0x5F :: b → ∃ q b', b = q :: b' ∧ isDecDigit q = true)) := by
  have hb' : (if c = 0x2D ∨ c = 0x2B then rest else c :: rest) = body := by
    rw [← hb]
    by_cases h : c = 0x2B ∨ c = 0x2D
    · rw [if_pos h, if_pos h.symm]
    · rw [if_neg h, if_neg (fun h' => h h'.symm)]
  unfold underscoreOK at hOK
  simp only [hb'] at hOK
  have plain : underscoreScan false body 0 = true →
      ((∀ t, body ≠ 0x5F :: t) ∧
       (∀ a p b, body = a ++ p :: 0x5F :: b →
          isDecDigit p = true ∨ lower p = 0x62 ∨ lower p = 0x6F) ∧
       (∀ a b, body = a ++ 0x5F :: b → ∃ q b', b = q :: b' ∧ isDecDigit q = true)) := by
    intro h
    obtain ⟨-, f0, fp, fs⟩ := (underscoreScan_iff false body 0).1 h
    refine ⟨fun t ht => absurd (f0 t ht) (by decide), ?_, ?_⟩
    · intro a p b hh
      have := fp a p b hh
      rw [digitLike_false] at this
      exact Or.inl this
    · intro a b hh
      obtain ⟨q, b', h1, h2⟩ := fs a b hh
      rw [digitLike_false] at h2
      exact ⟨q, b', h1, h2⟩
  rcases body with _ | ⟨c0, _ | ⟨c1, t⟩⟩
  · exact Or.inr ⟨fun x t h => by simp at h, plain hOK⟩
  · exact Or.inr ⟨fun x t h => by simp at h, plain hOK⟩
  · dsimp only at hOK
    by_cases hp : c0 = 0x30 ∧ (lower c1 = 0x62 ∨ lower c1 = 0x6F ∨ lower c1 = 0x78)
    · rw [if_pos hp] at hOK
      obtain ⟨rfl, hl⟩ := hp
      by_cases hx : lower c1 = 0x78
      · left
        refine ⟨c1, t, rfl, hx, ?_⟩
        simpa [hx] using hOK
      · right
        have hbo : lower c1 = 0x62 ∨ lower c1 = 0x6F := by
          rcases hl with h | h | h
          · exact Or.inl h
          · exact Or.inr h
          · exact absurd h hx
        have hc1 : c1 ≠ 0x5F := by
          rintro rfl
          rcases hbo with h | h <;> exact absurd h (by decide)
        have hsc : underscoreScan false t 1 = true := by simpa [hx] using hOK
        obtain ⟨-, -, fp, fs⟩ := (underscoreScan_iff false t 1).1 hsc
        refine ⟨?_, ?_, ?_, ?_⟩
        · intro x t' h
          simp only [List.cons.injEq, true_and] at h
          rw [← h.1]; exact hx
        · intro t' h
          simp at h
        · intro a p b hh
          rcases a with _ | ⟨a0, _ | ⟨a1, a'⟩⟩
          · simp only [List.nil_append, List.cons.injEq] at hh
            exact absurd hh.2.1 hc1
          · simp only [List.cons_append, List.nil_append, List.cons.injEq] at hh
            rw [← hh.2.1]
            exact Or.inr hbo
          · simp only [List.cons_append, List.cons.injEq] at hh
            have := fp a' p b hh.2.2
            rw [digitLike_false] at this
            exact Or.inl this
        · intro a b hh
          rcases a with _ | ⟨a0, _ | ⟨a1, a'⟩⟩
          · simp at hh
          · simp only [List.cons_append, List.nil_append, List.cons.injEq] at hh
            exact absurd hh.2.1 hc1
          · simp only [List.cons_append, List.cons.injEq] at hh
            obtain ⟨q, b', h1, h2⟩ := fs a' b hh.2.2
            rw [digitLike_false] at h2
            exact ⟨q, b', h1, h2⟩
    · rw [if_neg hp] at hOK
      right
      refine ⟨?_, plain hOK⟩
      intro x t' h hx
      simp only [List.cons.injEq] at h
      exact hp ⟨h.1, Or.inr (Or.inr (by rw [h.2.1]; exact hx))⟩

theorem digitLike_hex_facts (c : Nat) (h : digitLike true c = true) :
    lower c ≠ 0x70 ∧ ¬ (c = 0x2B ∨ c = 0x2D) := by
  simp only [digitLike, Bool.true_and, Bool.or_eq_true] at h
  rcases h with h | h
  · have h' : 0x30 ≤ c ∧ c ≤ 0x39 := by simpa [isDecDigit] using h
    rw [lower_digit c h']
    omega
  · have h' := isHexLetter_hex c h
    rw [lower_eq]
    omega

/-- A hexadecimal number: `ParseFloat` gives the same verdict on a string
whose underscores are well placed and on the string without them. -/
theorem ParseFloatOk_strip_hex (c : Nat) (rest : GoString) (x : Nat) (t : GoString)
    (hb : (if c = 0x2B ∨ c = 0x2D then rest else c :: rest) = 0x30 :: x :: t)
    (hx : lower x = 0x78)
    (hOK : underscoreOK (c :: rest) = true)
    (hscan : underscoreScan true t 1 = true) :
    ParseFloatOk (stripUnderscores (c :: rest)) = ParseFloatOk (c :: rest) := by
  have hxn : x ≠ 0x5F := by
    rintro rfl; exact absurd hx (by decide)
  have hc : c ≠ 0x5F := by
    rintro rfl
    rw [if_neg (by decide)] at hb
    simp at hb
  obtain ⟨e1, e2⟩ := body_strip c rest _ hb hc
  rw [strip_cons_ne 0x30 _ (by decide), strip_cons_ne x t hxn] at e2
  obtain ⟨-, -, fp, fs⟩ := (underscoreScan_iff true t 1).1 hscan
  by_cases ht : t = []
  · subst ht
    have : 0x5F ∉ c :: rest := by
      intro hm
      rcases List.mem_cons.1 hm with h | h
      · exact hc h.symm
      · by_cases hs : c = 0x2B ∨ c = 0x2D
        · rw [if_pos hs] at hb; rw [hb] at h; simp at h; exact hxn h.symm
        · rw [if_neg hs] at hb
          simp only [List.cons.injEq] at hb
          rw [hb.2] at h; simp at h; exact hxn h.symm
    rw [strip_eq_self _ this]
  · have hst : stripUnderscores t ≠ [] := by
      cases t with
      | nil => exact absurd rfl ht
      | cons d t' =>
        by_cases hd : d = 0x5F
        · subst hd
          obtain ⟨q, b', h1, h2⟩ := fs [] t' rfl
          rw [strip_cons_us, h1, strip_cons_ne q b' (digitLike_ne_us true q h2)]
          simp
        · rw [strip_cons_ne d t' hd]; simp
    rw [e1, ParseFloatOk_hex c _ x _ e2 hx hst, ParseFloatOk_hex c rest x t hb hx ht]
    rw [← e1, hOK, mantLoop_strip]
    obtain ⟨pre, hpre, hr0, -⟩ := mantLoop_rest 16 16 t {}
    have hxp := expPart_strip 0x70 true (mantLoop 16 16 t {}).2 hr0
      (fun e t' hr => (digitLike_hex_facts e (fp pre e t' (by rw [← hr]; exact hpre))).1)
      (fun e s1 t' hr _ => (digitLike_hex_facts s1 (fp (pre ++ [e]) s1 t' (by
        rw [List.append_assoc, List.singleton_append, ← hr]; exact hpre))).2)
    simp only []
    rw [hxp]
    cases hexp : expPart 0x70 true (mantLoop 16 16 t {}).2 with
    | none => rfl
    | some p =>
      obtain ⟨shift, u, rest'⟩ := p
      have hr := expPart_rest_head 0x70 true _ hr0 shift u rest' hexp
      have hemp : (stripUnderscores rest').isEmpty = rest'.isEmpty := by
        cases rest' with
        | nil => rfl
        | cons d t =>
          have hd' : d ≠ 0x5F := fun h => hr t (by rw [h])
          rw [strip_cons_ne d t hd']; rfl
      simp only [hemp, Bool.or_true, Bool.true_and, Bool.or_false, Bool.not_false, Bool.true_or]

theorem not_mem_of_body (c : Nat) (rest body : GoString)
    (hb : (if c = 0x2B ∨ c = 0x2D then rest else c :: rest) = body)
    (h : 0x5F ∉ body) : 0x5F ∉ c :: rest := by
  by_cases hs : c = 0x2B ∨ c = 0x2D
  · rw [if_pos hs] at hb
    rw [hb]
    intro hm
    rcases List.mem_cons.1 hm with h' | h'
    · omega
    · exact h h'
  · rw [if_neg hs] at hb
    rw [hb]; exact h

theorem loops_noflag (base m expChar : Nat) (mandatory : Bool) (t : GoString) (shift : Int)
    (hne : expChar ≠ 0x7F)
    (hfl : (mantLoop base m t {}).1.underscores = false)
    (hexp : expPart expChar mandatory (mantLoop base m t {}).2 = some (shift, false, [])) :
    0x5F ∉ t := by
  obtain ⟨pre, hpre, -, hno⟩ := mantLoop_rest base m t {}
  have h1 := hno hfl
  have h2 := expPart_noflag expChar mandatory _ shift hne hexp
  rw [hpre]
  intro hm
  rcases List.mem_append.1 hm with h | h
  · exact h1 h
  · exact h2 h

/-- A string that `ParseFloat` accepts passes `underscoreOK`. -/
theorem ParseFloatOk_underscoreOK (s : GoString) (h : ParseFloatOk s = true) :
    underscoreOK s = true := by
  cases s with
  | nil => rfl
  | cons c rest =>
    cases hsp : special (c :: rest) with
    | some n =>
      have h' := h
      unfold ParseFloatOk atof32 at h'
      simp only [hsp, Bool.true_and, beq_iff_eq] at h'
      rw [h'] at hsp
      have hst := (special_iff _).1 hsp
      exact underscoreOK_of_not_mem _ (fun hm => (IsSpecialText_letters _ hst _ hm).2 rfl)
    | none =>
      by_cases hh : ∃ x t, (if c = 0x2B ∨ c = 0x2D then rest else c :: rest) = 0x30 :: x :: t ∧
          t ≠ [] ∧ lower x = 0x78
      · obtain ⟨x, t, hbody, ht, hx⟩ := hh
        rw [ParseFloatOk_hex c rest x t hbody hx ht] at h
        cases hexp : expPart 0x70 true (mantLoop 16 16 t {}).2 with
        | none => rw [hexp] at h; simp at h
        | some p =>
          obtain ⟨shift, u, rest'⟩ := p
          rw [hexp] at h
          simp only [Bool.and_eq_true, Bool.or_eq_true, Bool.not_eq_true', Bool.or_eq_false_iff,
            List.isEmpty_iff] at h
          obtain ⟨-, hr, hf, -⟩ := h
          rcases hf with hf | hf
          · subst hr
            rw [hf.2] at hexp
            have hno := loops_noflag 16 16 0x70 true t shift (by decide) hf.1 hexp
            apply underscoreOK_of_not_mem
            apply not_mem_of_body c rest _ hbody
            intro hm
            rcases List.mem_cons.1 hm with h' | h'
            · omega
            · rcases List.mem_cons.1 h' with h'' | h''
              · rw [← h''] at hx; exact absurd hx (by decide)
              · exact hno h''
          · exact hf
      · have hnh : ∀ x t, (if c = 0x2B ∨ c = 0x2D then rest else c :: rest) = 0x30 :: x :: t →
            t ≠ [] → lower x ≠ 0x78 :=
          fun x t h1 h2 h3 => hh ⟨x, t, h1, h2, h3⟩
        rw [ParseFloatOk_dec c rest _ rfl hnh hsp] at h
        cases hexp : expPart 0x65 false
            (mantLoop 10 19 (if c = 0x2B ∨ c = 0x2D then rest else c :: rest) {}).2 with
        | none => rw [hexp] at h; simp at h
        | some p =>
          obtain ⟨shift, u, rest'⟩ := p
          rw [hexp] at h
          simp only [Bool.and_eq_true, Bool.or_eq_true, Bool.not_eq_true', Bool.or_eq_false_iff,
            List.isEmpty_iff] at h
          obtain ⟨-, hr, hf, -⟩ := h
          rcases hf with hf | hf
          · subst hr
            rw [hf.2] at hexp
            have hno := loops_noflag 10 19 0x65 false _ shift (by decide) hf.1 hexp
            exact underscoreOK_of_not_mem _ (not_mem_of_body c rest _ rfl hno)
          · exact hf

/-- Underscores in `ParseFloat`: a string is accepted exactly when
`underscoreOK` passes it and the string without its underscores is
accepted. -/
theorem ParseFloatOk_strip (s : GoString) :
    ParseFloatOk s = true ↔
      underscoreOK s = true ∧ ParseFloatOk (stripUnderscores s) = true := by
  by_cases hm : 0x5F ∈ s
  · have key : underscoreOK s = true →
        ParseFloatOk (stripUnderscores s) = ParseFloatOk s := by
      intro hOK
      cases s with
      | nil => simp at hm
      | cons c rest =>
        rcases underscoreOK_facts c rest _ rfl hOK with ⟨x, t, hb, hx, hscan⟩ | ⟨f1, f2, f3, f4⟩
        · exact ParseFloatOk_strip_hex c rest x t hb hx hOK hscan
        · exact ParseFloatOk_strip_dec c rest _ rfl hOK hm f1 f2 f3 f4
    constructor
    · intro h
      have hOK := ParseFloatOk_underscoreOK s h
      exact ⟨hOK, by rw [key hOK]; exact h⟩
    · rintro ⟨hOK, h⟩
      rw [← key hOK]; exact h
  · rw [strip_eq_self s hm]
    exact ⟨fun h => ⟨ParseFloatOk_underscoreOK s h, h⟩, fun h => h.2⟩

/-! ## Underscores: the placement that `underscoreOK` accepts -/

theorem isDecDigit_iff (c : Nat) : isDecDigit c = true ↔ IsDecDigit c := by
  simp [isDecDigit, IsDecDigit]

theorem digitLike_true_iff (c : Nat) : digitLike true c = true ↔ IsHexDigit c := by
  simp only [digitLike, Bool.true_and, Bool.or_eq_true]
  constructor
  · rintro (h | h)
    · left; simpa [isDecDigit] using h
    · right; exact isHexLetter_hex c h
  · rintro (h | h | h)
    · left; simp [isDecDigit, h.1, h.2]
    · right
      simp only [isHexLetter, lower_hex_upper c h, Bool.and_eq_true, decide_eq_true_eq]
      omega
    · right
      simp only [isHexLetter, lower_hex_lower c h, Bool.and_eq_true, decide_eq_true_eq]
      omega

/-- The condition `Separated` in three parts: no underscore at the very
beginning, the byte before an underscore, the byte after an underscore. -/
theorem Separated_iff (before after : Nat → Prop) (s : GoString) :
    Separated before after s ↔
      (∀ t, s ≠ 0x5F :: t) ∧
      (∀ a p b, s = a ++ p :: 0x5F :: b → before p) ∧
      (∀ a b, s = a ++ 0x5F :: b → ∃ q b', b = q :: b' ∧ after q) := by
  constructor
  · intro h
    refine ⟨?_, ?_, ?_⟩
    · intro t ht
      obtain ⟨⟨a', p, h1, -⟩, -⟩ := h [] t ht
      simp at h1
    · intro a p b hs
      obtain ⟨⟨a', p', h1, h2⟩, -⟩ := h (a ++ [p]) b (by simp [hs])
      obtain ⟨-, h3⟩ := List.append_inj' h1 rfl
      simp only [List.cons.injEq, and_true] at h3
      rw [h3]; exact h2
    · intro a b hs
      exact (h a b hs).2
  · rintro ⟨f2, f3, f4⟩ a b hs
    refine ⟨?_, f4 a b hs⟩
    rcases List.eq_nil_or_concat a with rfl | ⟨a', p, ha⟩
    · exact absurd hs (f2 b)
    · rw [List.concat_eq_append] at ha
      subst ha
      exact ⟨a', p, rfl, f3 a' p b (by simp [hs])⟩

theorem Separated_body (before after : Nat → Prop) (c : Nat) (rest body : GoString)
    (hb : (if c = 0x2B ∨ c = 0x2D then rest else c :: rest) = body)
    (hsign : ¬ before 0x2B ∧ ¬ before 0x2D) :
    Separated before after (c :: rest) ↔
      (∀ t, body ≠ 0x5F :: t) ∧
      (∀ a p b, body = a ++ p :: 0x5F :: b → before p) ∧
      (∀ a b, body = a ++ 0x5F :: b → ∃ q b', b = q :: b' ∧ after q) := by
  rw [Separated_iff]
  by_cases hs : c = 0x2B ∨ c = 0x2D
  · rw [if_pos hs] at hb
    subst hb
    have hbc : ¬ before c := by
      rcases hs with rfl | rfl
      · exact hsign.1
      · exact hsign.2
    constructor
    · rintro ⟨-, f3, f4⟩
      refine ⟨?_, ?_, ?_⟩
      · intro t ht
        exact hbc (f3 [] c t (by rw [ht]; rfl))
      · intro a p b hh
        exact f3 (c :: a) p b (by rw [hh]; rfl)
      · intro a b hh
        exact f4 (c :: a) b (by rw [hh]; rfl)
    · rintro ⟨f2, f3, f4⟩
      refine ⟨?_, ?_, ?_⟩
      · intro t ht
        simp only [List.cons.injEq] at ht
        omega
      · intro a p b hh
        cases a with
        | nil =>
          simp only [List.nil_append, List.cons.injEq] at hh
          exact absurd hh.2 (f2 b)
        | cons a0 a' =>
          simp only [List.cons_append, List.cons.injEq] at hh
          exact f3 a' p b hh.2
      · intro a b hh
        cases a with
        | nil =>
          simp only [List.nil_append, List.cons.injEq] at hh
          omega
        | cons a0 a' =>
          simp only [List.cons_append, List.cons.injEq] at hh
          exact f4 a' b hh.2
  · rw [if_neg hs] at hb
    subst hb
    rfl

theorem mem_of_mem_body (c : Nat) (rest body : GoString)
    (hb : (if c = 0x2B ∨ c = 0x2D then rest else c :: rest) = body)
    (x : Nat) (hx : x ∈ body) : x ∈ c :: rest := by
  by_cases hs : c = 0x2B ∨ c = 0x2D
  · rw [if_pos hs] at hb
    rw [← hb] at hx; exact List.mem_cons_of_mem _ hx
  · rw [if_neg hs] at hb
    rw [← hb] at hx; exact hx

/-- The two branches of `underscoreOK`. -/
theorem underscoreOK_plain (c : Nat) (rest body : GoString)
    (hb : (if c = 0x2B ∨ c = 0x2D then rest else c :: rest) = body)
    (hnp : ∀ x t, body = 0x30 :: x :: t →
      ¬ (lower x = 0x62 ∨ lower x = 0x6F ∨ lower x = 0x78)) :
    underscoreOK (c :: rest) = underscoreScan false body 0 := by
  have hb' : (if c = 0x2D ∨ c = 0x2B then rest else c :: rest) = body := by
    rw [← hb]
    by_cases h : c = 0x2B ∨ c = 0x2D
    · rw [if_pos h, if_pos h.symm]
    · rw [if_neg h, if_neg (fun h' => h h'.symm)]
  unfold underscoreOK
  simp only [hb']
  rcases body with _ | ⟨c0, _ | ⟨c1, t⟩⟩
  · rfl
  · rfl
  · dsimp only
    rw [if_neg]
    rintro ⟨rfl, h⟩
    exact hnp c1 t rfl h

theorem underscoreOK_hexbase (c : Nat) (rest : GoString) (x : Nat) (t : GoString)
    (hb : (if c = 0x2B ∨ c = 0x2D then rest else c :: rest) = 0x30 :: x :: t)
    (hx : lower x = 0x78) :
    underscoreOK (c :: rest) = underscoreScan true t 1 := by
  have hb' : (if c = 0x2D ∨ c = 0x2B then rest else c :: rest) = 0x30 :: x :: t := by
    rw [← hb]
    by_cases h : c = 0x2B ∨ c = 0x2D
    · rw [if_pos h, if_pos h.symm]
    · rw [if_neg h, if_neg (fun h' => h h'.symm)]
  unfold underscoreOK
  simp [hb', hx]

/-- The bytes of a decimal text. -/
theorem decimalText_bytes (d : DecimalText) (hwf : d.WellFormed) :
    ∀ c ∈ d.text, IsDecDigit c ∨ c = 0x2E ∨ c = 0x2B ∨ c = 0x2D ∨ c = 0x65 ∨ c = 0x45 := by
  obtain ⟨hsign, hip, -, hfr, hex⟩ := hwf
  intro c hc
  unfold DecimalText.text DecimalText.fracText DecimalText.expText at hc
  have hsg : ∀ sg : GoString, IsSignText sg → c ∈ sg → c = 0x2B ∨ c = 0x2D := by
    intro sg h1 h2
    rcases h1 with h | h | h <;> rw [h] at h2 <;> simp at h2
    · exact Or.inl h2
    · exact Or.inr h2
  rcases List.mem_append.1 hc with h | h
  · rcases hsg _ hsign h with h | h
    · exact Or.inr (Or.inr (Or.inl h))
    · exact Or.inr (Or.inr (Or.inr (Or.inl h)))
  rcases List.mem_append.1 h with h | h
  · exact Or.inl (hip c h)
  rcases List.mem_append.1 h with h | h
  · cases hf : d.frac with
    | none => rw [hf] at h; simp at h
    | some f =>
      rw [hf] at h
      rcases List.mem_cons.1 h with h | h
      · exact Or.inr (Or.inl h)
      · exact Or.inl (hfr f hf c h)
  · cases he : d.exp with
    | none => rw [he] at h; simp at h
    | some p =>
      obtain ⟨e, es, ed⟩ := p
      rw [he] at h
      obtain ⟨h1, h2, h3, -⟩ := hex e es ed he
      rcases List.mem_cons.1 h with h | h
      · rcases h1 with h1 | h1
        · exact Or.inr (Or.inr (Or.inr (Or.inr (Or.inl (h.trans h1)))))
        · exact Or.inr (Or.inr (Or.inr (Or.inr (Or.inr (h.trans h1)))))
      rcases List.mem_append.1 h with h | h
      · rcases hsg _ h2 h with h | h
        · exact Or.inr (Or.inr (Or.inl h))
        · exact Or.inr (Or.inr (Or.inr (Or.inl h)))
      · exact Or.inl (h3 c h)

/-- The bytes of a hexadecimal text behind its base prefix. -/
theorem hexText_bytes (h : HexText) (hwf : h.WellFormed) :
    ∀ c ∈ h.intPart ++ (h.fracText ++ h.expText),
      IsHexDigit c ∨ c = 0x2E ∨ c = 0x2B ∨ c = 0x2D ∨ c = 0x70 ∨ c = 0x50 := by
  obtain ⟨-, -, hip, hfr, -, hp, hes, hed, -⟩ := hwf
  intro c hc
  unfold HexText.fracText HexText.expText at hc
  have hsg : ∀ sg : GoString, IsSignText sg → c ∈ sg → c = 0x2B ∨ c = 0x2D := by
    intro sg h1 h2
    rcases h1 with h | h | h <;> rw [h] at h2 <;> simp at h2
    · exact Or.inl h2
    · exact Or.inr h2
  rcases List.mem_append.1 hc with h' | h'
  · exact Or.inl (hip c h')
  rcases List.mem_append.1 h' with h' | h'
  · cases hf : h.frac with
    | none => rw [hf] at h'; simp at h'
    | some f =>
      rw [hf] at h'
      rcases List.mem_cons.1 h' with h' | h'
      · exact Or.inr (Or.inl h')
      · exact Or.inl (hfr f hf c h')
  · rcases List.mem_cons.1 h' with h' | h'
    · rcases hp with h1 | h1
      · exact Or.inr (Or.inr (Or.inr (Or.inr (Or.inl (h'.trans h1)))))
      · exact Or.inr (Or.inr (Or.inr (Or.inr (Or.inr (h'.trans h1)))))
    rcases List.mem_append.1 h' with h' | h'
    · rcases hsg _ hes h' with h' | h'
      · exact Or.inr (Or.inr (Or.inl h'))
      · exact Or.inr (Or.inr (Or.inr (Or.inl h')))
    · exact Or.inl (Or.inl (hed c h'))

theorem hexText_shape (h : HexText) (hwf : h.WellFormed) :
    ∃ c rest, h.text = c :: rest ∧
      (if c = 0x2B ∨ c = 0x2D then rest else c :: rest)
        = 0x30 :: h.x :: (h.intPart ++ (h.fracText ++ h.expText)) := by
  obtain ⟨hsign, -⟩ := hwf
  unfold HexText.text
  rcases hsign with h' | h' | h' <;> rw [h']
  · exact ⟨0x30, _, rfl, by simp⟩
  · exact ⟨0x2B, _, rfl, by simp⟩
  · exact ⟨0x2D, _, rfl, by simp⟩

/-- On a string that is a decimal text once its underscores are removed,
`underscoreOK` asks that every underscore stand between two decimal
digits. -/
theorem underscoreOK_decimalText (d : DecimalText) (hwf : d.WellFormed) (s : GoString)
    (hs : d.text = stripUnderscores s) :
    underscoreOK s = true ↔ Separated IsDecDigit IsDecDigit s := by
  cases s with
  | nil =>
    constructor
    · intro _ a b h; simp at h
    · intro _; rfl
  | cons c rest =>
    have hbytes : ∀ x ∈ c :: rest, x = 0x5F ∨ IsDecDigit x ∨ x = 0x2E ∨ x = 0x2B ∨ x = 0x2D ∨
        x = 0x65 ∨ x = 0x45 := by
      intro x hx
      by_cases hu : x = 0x5F
      · exact Or.inl hu
      · right
        exact decimalText_bytes d hwf x (by rw [hs, mem_strip]; exact ⟨hx, hu⟩)
    have hnp : ∀ x t, (if c = 0x2B ∨ c = 0x2D then rest else c :: rest) = 0x30 :: x :: t →
        ¬ (lower x = 0x62 ∨ lower x = 0x6F ∨ lower x = 0x78) := by
      intro x t hb
      have hx : x ∈ c :: rest := mem_of_mem_body c rest _ rfl x (by rw [hb]; simp)
      have := hbytes x hx
      unfold IsDecDigit at this
      rw [lower_eq]
      omega
    rw [underscoreOK_plain c rest _ rfl hnp, underscoreScan_iff,
      Separated_body IsDecDigit IsDecDigit c rest _ rfl
        ⟨by unfold IsDecDigit; omega, by unfold IsDecDigit; omega⟩]
    constructor
    · rintro ⟨-, f0, fp, fs⟩
      refine ⟨fun t ht => absurd (f0 t ht) (by decide), fun a p b hh => ?_, fun a b hh => ?_⟩
      · have := fp a p b hh
        rw [digitLike_false, isDecDigit_iff] at this
        exact this
      · obtain ⟨q, b', h1, h2⟩ := fs a b hh
        rw [digitLike_false, isDecDigit_iff] at h2
        exact ⟨q, b', h1, h2⟩
    · rintro ⟨f2, f3, f4⟩
      refine ⟨fun h => absurd h (by decide), fun b hb => absurd hb (f2 b),
        fun a p b hh => ?_, fun a b hh => ?_⟩
      · rw [digitLike_false, isDecDigit_iff]
        exact f3 a p b hh
      · obtain ⟨q, b', h1, h2⟩ := f4 a b hh
        rw [← isDecDigit_iff, ← digitLike_false] at h2
        exact ⟨q, b', h1, h2⟩

/-- On a string that is a hexadecimal text once its underscores are removed,
`underscoreOK` asks that every underscore stand after a hexadecimal digit or
the `x` of the prefix, and before a hexadecimal digit. -/
theorem underscoreOK_hexText (h : HexText) (hwf : h.WellFormed) (s : GoString)
    (hs : h.text = stripUnderscores s) :
    underscoreOK s = true ↔ Separated IsHexDigitOrX IsHexDigit s := by
  cases s with
  | nil =>
    constructor
    · intro _ a b h; simp at h
    · intro _; rfl
  | cons c rest =>
    obtain ⟨c', rest', htx, hshape⟩ := hexText_shape h hwf
    have hxx : h.x = 0x78 ∨ h.x = 0x58 := hwf.2.1
    have hxl : lower h.x = 0x78 := by
      rcases hxx with h' | h' <;> rw [h'] <;> decide
    have hxu : h.x ≠ 0x5F := by omega
    have hxh : ¬ IsHexDigit h.x := by unfold IsHexDigit; omega
    have hsignx : ¬ IsHexDigitOrX 0x2B ∧ ¬ IsHexDigitOrX 0x2D := by
      unfold IsHexDigitOrX IsHexDigit; omega
    obtain ⟨body, hbd⟩ : ∃ body, (if c = 0x2B ∨ c = 0x2D then rest else c :: rest) = body :=
      ⟨_, rfl⟩
    -- the string without its underscores, behind the sign
    have hsb : (∀ t, body ≠ 0x5F :: t) →
        stripUnderscores body = 0x30 :: h.x :: (h.intPart ++ (h.fracText ++ h.expText)) := by
      intro f2
      have hc : c ≠ 0x5F := by
        rintro rfl
        rw [if_neg (by decide)] at hbd
        exact f2 rest hbd.symm
      obtain ⟨e1, e2⟩ := body_strip c rest body hbd hc
      rw [← hs, htx] at e1
      simp only [List.cons.injEq] at e1
      obtain ⟨rfl, rfl⟩ := e1
      rw [← e2]; exact hshape
    -- no underscore stands in the base prefix
    have hstruct : (∀ t, body ≠ 0x5F :: t) →
        (∀ a b, body = a ++ 0x5F :: b → ∃ q b', b = q :: b' ∧ IsHexDigit q) →
        ∃ t, body = 0x30 :: h.x :: t ∧
          stripUnderscores t = h.intPart ++ (h.fracText ++ h.expText) := by
      intro f2 f4
      have hsb' := hsb f2
      rcases body with _ | ⟨r0, _ | ⟨r1, tl⟩⟩
      · simp [stripUnderscores] at hsb'
      · have hr0 : r0 ≠ 0x5F := fun hr => f2 [] (by rw [hr])
        rw [strip_cons_ne r0 [] hr0] at hsb'
        simp [stripUnderscores] at hsb'
      · have hr0 : r0 ≠ 0x5F := fun hr => f2 (r1 :: tl) (by rw [hr])
        rw [strip_cons_ne r0 _ hr0] at hsb'
        simp only [List.cons.injEq] at hsb'
        obtain ⟨rfl, hsb'⟩ := hsb'
        by_cases hr1 : r1 = 0x5F
        · subst hr1
          obtain ⟨q, b', h1, h2⟩ := f4 [0x30] tl rfl
          have hq : q ≠ 0x5F := by
            rintro rfl; unfold IsHexDigit at h2; omega
          rw [strip_cons_us, h1, strip_cons_ne q b' hq] at hsb'
          simp only [List.cons.injEq] at hsb'
          rw [hsb'.1] at h2
          exact absurd h2 hxh
        · rw [strip_cons_ne r1 tl hr1] at hsb'
          simp only [List.cons.injEq] at hsb'
          obtain ⟨rfl, hsb'⟩ := hsb'
          exact ⟨tl, rfl, hsb'⟩
    have bridge : ∀ t, body = 0x30 :: h.x :: t →
        stripUnderscores t = h.intPart ++ (h.fracText ++ h.expText) →
        (underscoreOK (c :: rest) = true ↔
          Separated IsHexDigitOrX IsHexDigit (c :: rest)) := by
      intro t hb hst
      rw [underscoreOK_hexbase c rest h.x t (hbd.trans hb) hxl, underscoreScan_iff,
        Separated_body IsHexDigitOrX IsHexDigit c rest _ (hbd.trans hb) hsignx]
      constructor
      · rintro ⟨-, -, fp, fs⟩
        refine ⟨fun t' ht' => by simp at ht', fun a p b hh => ?_, fun a b hh => ?_⟩
        · rcases a with _ | ⟨a0, _ | ⟨a1, a'⟩⟩
          · simp only [List.nil_append, List.cons.injEq] at hh
            exact absurd hh.2.1 hxu
          · simp only [List.cons_append, List.nil_append, List.cons.injEq] at hh
            right
            rw [← hh.2.1]; exact hxx
          · simp only [List.cons_append, List.cons.injEq] at hh
            exact Or.inl ((digitLike_true_iff p).1 (fp a' p b hh.2.2))
        · rcases a with _ | ⟨a0, _ | ⟨a1, a'⟩⟩
          · simp at hh
          · simp only [List.cons_append, List.nil_append, List.cons.injEq] at hh
            exact absurd hh.2.1 hxu
          · simp only [List.cons_append, List.cons.injEq] at hh
            obtain ⟨q, b', h1, h2⟩ := fs a' b hh.2.2
            exact ⟨q, b', h1, (digitLike_true_iff q).1 h2⟩
      · rintro ⟨-, f3, f4⟩
        refine ⟨fun h' => absurd h' (by decide), fun _ _ => rfl,
          fun a p b hh => ?_, fun a b hh => ?_⟩
        · rcases f3 (0x30 :: h.x :: a) p b (by rw [hh]; rfl) with h1 | h1
          · exact (digitLike_true_iff p).2 h1
          · have hp : p ∈ stripUnderscores t := by
              rw [mem_strip]
              exact ⟨by rw [hh]; simp, by omega⟩
            rw [hst] at hp
            have := hexText_bytes h hwf p hp
            unfold IsHexDigit at this
            omega
        · obtain ⟨q, b', h1, h2⟩ := f4 (0x30 :: h.x :: a) b (by rw [hh]; rfl)
          exact ⟨q, b', h1, (digitLike_true_iff q).2 h2⟩
    constructor
    · intro hOK
      rcases underscoreOK_facts c rest body hbd hOK with ⟨x, t, hb, hx, -⟩ | ⟨-, f2, -, f4⟩
      · have hxn : x ≠ 0x5F := by
          rintro rfl; exact absurd hx (by decide)
        have hsb' := hsb (fun t' ht' => by rw [hb] at ht'; simp at ht')
        rw [hb, strip_cons_ne 0x30 _ (by decide), strip_cons_ne x t hxn] at hsb'
        simp only [List.cons.injEq, true_and] at hsb'
        obtain ⟨rfl, hst⟩ := hsb'
        exact (bridge t hb hst).1 hOK
      · obtain ⟨t, hb, hst⟩ := hstruct f2 (fun a b hh => by
          obtain ⟨q, b', h1, h2⟩ := f4 a b hh
          exact ⟨q, b', h1, Or.inl ((isDecDigit_iff q).1 h2)⟩)
        exact (bridge t hb hst).1 hOK
    · intro hsep
      obtain ⟨f2, -, f4⟩ :=
        (Separated_body IsHexDigitOrX IsHexDigit c rest body hbd hsignx).1 hsep
      obtain ⟨t, hb, hst⟩ := hstruct f2 f4
      exact (bridge t hb hst).2 hsep

/-- A spelling of NaN or infinity with underscores put in does not pass
`underscoreOK`. -/
theorem special_no_underscore (s : GoString) (hsp : IsSpecialText (stripUnderscores s))
    (hOK : underscoreOK s = true) : 0x5F ∉ s := by
  intro hm
  cases s with
  | nil => simp at hm
  | cons c rest =>
    have hdig : ∀ q, q ∈ (if c = 0x2B ∨ c = 0x2D then rest else c :: rest) →
        isDecDigit q = true → False := by
      intro q hq hd
      have hq' := mem_of_mem_body c rest _ rfl q hq
      have hqn : q ≠ 0x5F := by
        rintro rfl; exact absurd hd (by decide)
      have := (IsSpecialText_letters _ hsp q ((mem_strip _ q).2 ⟨hq', hqn⟩)).1
      rw [hd] at this
      exact absurd this (by simp)
    rcases underscoreOK_facts c rest _ rfl hOK with ⟨x, t, hb, -, -⟩ | ⟨-, -, -, f4⟩
    · exact hdig 0x30 (by rw [hb]; simp) (by decide)
    · have hmb : 0x5F ∈ (if c = 0x2B ∨ c = 0x2D then rest else c :: rest) := by
        by_contra hn
        exact not_mem_of_body c rest _ rfl hn hm
      obtain ⟨a, b, hab⟩ := List.append_of_mem hmb
      obtain ⟨q, b', h1, h2⟩ := f4 a b hab
      exact hdig q (by rw [hab, h1]; simp) h2

/-- The strings that `ParseFloat(s, 32)` parses without error: the decimal
and the hexadecimal texts below the overflow threshold, with underscores
between their digits, and the spellings of NaN and infinity. -/
theorem ParseFloatOk_spec (s : GoString) :
    ParseFloatOk s = true ↔
      (∃ d : DecimalText, d.WellFormed ∧ d.text = stripUnderscores s ∧
        d.overflows = false ∧ Separated IsDecDigit IsDecDigit s) ∨
      IsSpecialText s ∨
      (∃ h : HexText, h.WellFormed ∧ h.text = stripUnderscores s ∧
        h.overflows = false ∧ Separated IsHexDigitOrX IsHexDigit s) := by
  constructor
  · intro h0
    obtain ⟨hOK, hst⟩ := (ParseFloatOk_strip s).1 h0
    rcases (ParseFloatOk_iff _).1 hst with ⟨d, hwf, ht, ho⟩ | hsp | ⟨h, hwf, ht, ho⟩ | ⟨hu, -⟩
    · exact Or.inl ⟨d, hwf, ht, ho, (underscoreOK_decimalText d hwf s ht).1 hOK⟩
    · have hno := special_no_underscore s hsp hOK
      rw [strip_eq_self s hno] at hsp
      exact Or.inr (Or.inl hsp)
    · exact Or.inr (Or.inr ⟨h, hwf, ht, ho, (underscoreOK_hexText h hwf s ht).1 hOK⟩)
    · exact absurd hu (not_mem_strip s)
  · rintro (⟨d, hwf, ht, ho, hsep⟩ | hsp | ⟨h, hwf, ht, ho, hsep⟩)
    · exact (ParseFloatOk_strip s).2 ⟨(underscoreOK_decimalText d hwf s ht).2 hsep,
        (ParseFloatOk_iff _).2 (Or.inl ⟨d, hwf, ht, ho⟩)⟩
    · exact (ParseFloatOk_iff s).2 (Or.inr (Or.inl hsp))
    · exact (ParseFloatOk_strip s).2 ⟨(underscoreOK_hexText h hwf s ht).2 hsep,
        (ParseFloatOk_iff _).2 (Or.inr (Or.inr (Or.inl ⟨h, hwf, ht, ho⟩)))⟩

/-! ## The claims -/

/-- C1: for every schema and every record not wider than the schema, the row
step finishes and appends the record to the accepted output if and only if
every field at a position `x` is valid under the classifier and blank mode
that the schema tag at `x` selects; as soon as one field is invalid the
record is appended to the rejected output instead. -/
theorem C1_row_accepted_iff_all_fields_valid (t : UnicodeTables) (index : GoString)
    (s : State) (record : Record) (hw : record.length ≤ index.length) :
    ∃ s', rowStep t index s record = .finished s' ∧
      ((s'.good = s.good ++ [record] ∧ s'.bad = s.bad) ↔
        ∀ (x : Nat) (v : GoString), record[x]? = some v →
          ∃ tag, index[x]? = some tag ∧ specFieldValid t tag v = true) ∧
      ((∃ (x : Nat) (v : GoString) (tag : Nat), record[x]? = some v ∧ index[x]? = some tag ∧
          specFieldValid t tag v = false) →
        s'.good = s.good ∧ s'.bad = s.bad ++ [record]) := by
  refine ⟨_, rowStep_fits t index s record hw, ?_, ?_⟩
  · rw [← specRecordValid_iff]
    cases hv : specRecordValid t index record <;> simp
  · rintro ⟨x, v, tag, hx, htag, hbad⟩
    have hv : specRecordValid t index record = false := by
      cases hv : specRecordValid t index record
      · rfl
      · obtain ⟨tag', htag', hok⟩ := (specRecordValid_iff t index record).1 hv x v hx
        rw [htag] at htag'
        cases htag'
        rw [hbad] at hok
        exact absurd hok (by simp)
    simp [hv]

/-- Instance of C1: the record `a,1.5,10` under the schema `SFN`. -/
theorem C1_witness :
    [utf8 "a", utf8 "1.5", utf8 "10"].length ≤ (utf8 "SFN").length ∧
    ∃ s', rowStep sampleTables (utf8 "SFN") State.init [utf8 "a", utf8 "1.5", utf8 "10"]
        = .finished s' ∧
      ((s'.good = State.init.good ++ [[utf8 "a", utf8 "1.5", utf8 "10"]] ∧
          s'.bad = State.init.bad) ↔
        ∀ (x : Nat) (v : GoString), [utf8 "a", utf8 "1.5", utf8 "10"][x]? = some v →
          ∃ tag, (utf8 "SFN")[x]? = some tag ∧ specFieldValid sampleTables tag v = true) ∧
      ((∃ (x : Nat) (v : GoString) (tag : Nat), [utf8 "a", utf8 "1.5", utf8 "10"][x]? = some v ∧
          (utf8 "SFN")[x]? = some tag ∧ specFieldValid sampleTables tag v = false) →
        s'.good = State.init.good ∧
          s'.bad = State.init.bad ++ [[utf8 "a", utf8 "1.5", utf8 "10"]]) :=
  ⟨by decide, C1_row_accepted_iff_all_fields_valid sampleTables (utf8 "SFN") State.init
    [utf8 "a", utf8 "1.5", utf8 "10"] (by decide)⟩

/-- C2: in a run that finishes, every input record is written, unchanged, to
exactly one of the two outputs: there is one verdict per input position, the
accepted output is the input records with verdict true and the rejected
output those with verdict false, both in input order; hence the two lengths
add up to the length of the input. -/
theorem C2_each_record_written_once (t : UnicodeTables) (index : GoString)
    (input : List Record) (s : State) (h : run t index input = .finished s) :
    (∃ verdict : List Bool, verdict.length = input.length ∧
      s.good = ((input.zip verdict).filter (fun q => q.2)).map (fun q => q.1) ∧
      s.bad = ((input.zip verdict).filter (fun q => !q.2)).map (fun q => q.1)) ∧
    List.Perm (s.good ++ s.bad) input ∧
    s.good.length + s.bad.length = input.length := by
  obtain ⟨h1, h2, -, -⟩ := mainLoop_finished t index input State.init s h
  simp only [State.init, List.nil_append] at h1 h2
  have hperm : List.Perm (s.good ++ s.bad) input := by
    rw [h1, h2]
    exact List.filter_append_perm _ input
  refine ⟨⟨input.map (fun r => specRecordValid t index r), by simp, ?_, ?_⟩, hperm, ?_⟩
  · rw [h1, (filter_zip_map _ input).1]
  · rw [h2, (filter_zip_map _ input).2]
  · simpa using hperm.length_eq

/-- Instance of C2: the three records of the end-to-end scenario. -/
theorem C2_witness :
    run sampleTables (utf8 "SFN")
        [[utf8 "a", utf8 "1.5", utf8 "10"], [utf8 "b", utf8 "x", utf8 "5"], [[], [], []]]
      = .finished { good := [[utf8 "a", utf8 "1.5", utf8 "10"], [[], [], []]],
                    bad := [[utf8 "b", utf8 "x", utf8 "5"]],
                    log := ["Row 2, Field 2 is not a floating point number"], i := 2 } ∧
    List.Perm
      ([[utf8 "a", utf8 "1.5", utf8 "10"], [[], [], []]] ++ [[utf8 "b", utf8 "x", utf8 "5"]])
      [[utf8 "a", utf8 "1.5", utf8 "10"], [utf8 "b", utf8 "x", utf8 "5"], [[], [], []]] :=
  ⟨by decide, (C2_each_record_written_once sampleTables (utf8 "SFN")
    [[utf8 "a", utf8 "1.5", utf8 "10"], [utf8 "b", utf8 "x", utf8 "5"], [[], [], []]]
    { good := [[utf8 "a", utf8 "1.5", utf8 "10"], [[], [], []]],
      bad := [[utf8 "b", utf8 "x", utf8 "5"]],
      log := ["Row 2, Field 2 is not a floating point number"], i := 2 } (by decide)).2.1⟩

/-- C3: in a run that finishes, the accepted output is the input filtered to
the records all of whose fields are valid, and the rejected output is the
input filtered to the other records, each in input order. -/
theorem C3_stable_partition (t : UnicodeTables) (index : GoString)
    (input : List Record) (s : State) (h : run t index input = .finished s) :
    s.good = input.filter (fun r => specRecordValid t index r) ∧
    s.bad = input.filter (fun r => !specRecordValid t index r) := by
  obtain ⟨h1, h2, -, -⟩ := mainLoop_finished t index input State.init s h
  simpa [State.init] using And.intro h1 h2

/-- Instance of C3: two rejected records around an accepted one. -/
theorem C3_witness :
    run sampleTables (utf8 "NS") [[utf8 "x", utf8 "a"], [utf8 "7", utf8 "b"], [utf8 "-1", []]]
      = .finished { good := [[utf8 "7", utf8 "b"]],
                    bad := [[utf8 "x", utf8 "a"], [utf8 "-1", []]],
                    log := ["Row 1, Field 1 is not an integer",
                            "Row 2, Field 1 is not an integer"], i := 1 } ∧
    [[utf8 "7", utf8 "b"]]
      = [[utf8 "x", utf8 "a"], [utf8 "7", utf8 "b"], [utf8 "-1", []]].filter
          (fun r => specRecordValid sampleTables (utf8 "NS") r) ∧
    [[utf8 "x", utf8 "a"], [utf8 "-1", []]]
      = [[utf8 "x", utf8 "a"], [utf8 "7", utf8 "b"], [utf8 "-1", []]].filter
          (fun r => !specRecordValid sampleTables (utf8 "NS") r) :=
  ⟨by decide, C3_stable_partition sampleTables (utf8 "NS")
    [[utf8 "x", utf8 "a"], [utf8 "7", utf8 "b"], [utf8 "-1", []]]
    { good := [[utf8 "7", utf8 "b"]], bad := [[utf8 "x", utf8 "a"], [utf8 "-1", []]],
      log := ["Row 1, Field 1 is not an integer", "Row 2, Field 1 is not an integer"],
      i := 1 } (by decide)⟩

/-- C4: an empty field passes each classifier under the blank modes used for
the tags `S`, `F` and `N`, and fails each classifier under `NO_BLANK`, the
mode of the tags `B`, `Q` and `P`; so the field loop accepts an empty field
under `S`, `F`, `N` and flags it under `B`, `Q`, `P`. -/
theorem C4_empty_field (t : UnicodeTables) :
    OnlyPrintable t [] (utf8 "BLANK_ALLOWED") = true ∧
    IsFloat [] (utf8 "BLANK_ALLOWED") = true ∧
    OnlyDigits t [] (utf8 "BLANK_ALLOW") = true ∧
    OnlyPrintable t [] (utf8 "NO_BLANK") = false ∧
    IsFloat [] (utf8 "NO_BLANK") = false ∧
    OnlyDigits t [] (utf8 "NO_BLANK") = false ∧
    (∀ (i : Nat) (sc : Scan), ∀ tag ∈ [0x53, 0x46, 0x4E], fieldCase t [tag] i 0 [] sc = some sc) ∧
    (∀ (i : Nat) (sc : Scan), ∀ tag ∈ [0x42, 0x51, 0x50],
      ∃ msg, fieldCase t [tag] i 0 [] sc = some { bad_record := true, log := sc.log ++ [msg] }) := by
  have e1 : OnlyPrintable t [] (utf8 "BLANK_ALLOWED") = true := by
    simp [OnlyPrintable, blank_allowed_ne]
  have e2 : IsFloat [] (utf8 "BLANK_ALLOWED") = true := by
    simp [IsFloat, blank_allowed_ne]
  have e3 : OnlyDigits t [] (utf8 "BLANK_ALLOW") = true := by
    simp [OnlyDigits, blank_allow_ne]
  have e4 : OnlyPrintable t [] (utf8 "NO_BLANK") = false := by simp [OnlyPrintable]
  have e5 : IsFloat [] (utf8 "NO_BLANK") = false := by simp [IsFloat]
  have e6 : OnlyDigits t [] (utf8 "NO_BLANK") = false := by simp [OnlyDigits]
  refine ⟨e1, e2, e3, e4, e5, e6, ?_, ?_⟩
  · intro i sc tag htag
    simp only [List.mem_cons, List.mem_singleton, List.not_mem_nil, or_false] at htag
    rcases htag with rfl | rfl | rfl <;>
      simp [fieldCase, utf8_S, utf8_F, utf8_N, encodeRune, e1, e2, e3]
  · intro i sc tag htag
    simp only [List.mem_cons, List.mem_singleton, List.not_mem_nil, or_false] at htag
    rcases htag with rfl | rfl | rfl <;>
      simp [fieldCase, utf8_S, utf8_F, utf8_N, utf8_B, utf8_Q, utf8_P, encodeRune, e4, e5, e6]

/-- C5 (as stated, without a bound on the width of the record): under the
schema `X` the record `a,b` has a field at position 0, inside the schema,
under an unrecognized tag, yet the row step ends in the panic of `index[1]`
and the record is written to neither output. -/
theorem C5_counterexample :
    unrecognizedAt (utf8 "X") 0 = true ∧
    0 < [utf8 "a", utf8 "b"].length ∧ 0 < (utf8 "X").length ∧
    rowStep sampleTables (utf8 "X") State.init [utf8 "a", utf8 "b"]
      = .panicked { good := [], bad := [], log := [beyondMsg], i := 0 } ∧
    ¬ ∃ s', rowStep sampleTables (utf8 "X") State.init [utf8 "a", utf8 "b"] = .finished s' := by
  refine ⟨by decide, by decide, by decide, by decide, ?_⟩
  rintro ⟨s', hs'⟩
  have h : rowStep sampleTables (utf8 "X") State.init [utf8 "a", utf8 "b"]
      = .panicked { good := [], bad := [], log := [beyondMsg], i := 0 } := by decide
  rw [h] at hs'
  exact absurd hs' (by simp)

/-- C5 (amended): for every record not wider than the schema that has a
field at a position whose schema tag is not one of `S`, `F`, `N`, `B`, `Q`,
`P`, the record is rejected whatever its fields contain, and among the
diagnostics logged for the record the message of the `default` case occurs
exactly as many times as the record has fields at positions with an
unrecognized tag. -/
theorem C5_unrecognized_tag_rejects (t : UnicodeTables) (index : GoString) (s : State)
    (record : Record) (x : Nat) (hw : record.length ≤ index.length)
    (hx : x < record.length) (hu : unrecognizedAt index x = true) :
    ∃ diags, rowStep t index s record
        = .finished { s with bad := s.bad ++ [record], log := s.log ++ diags } ∧
      diags.count beyondMsg
        = (record.enum.filter (fun p => unrecognizedAt index p.1)).length := by
  refine ⟨diagsFrom t index s.i 0 record, ?_, ?_⟩
  · rw [rowStep_fits t index s record hw,
      specRecordValid_of_unrecognized t index record x hx hu]
    simp
  · exact diagsFrom_count_beyond t index s.i record 0 (by omega)

/-- Instance of C5: schema `SXZ`, record `a,b,c`: two fields sit under
unrecognized tags and two `default` messages are logged. -/
theorem C5_witness :
    [utf8 "a", utf8 "b", utf8 "c"].length ≤ (utf8 "SXZ").length ∧
    1 < [utf8 "a", utf8 "b", utf8 "c"].length ∧
    unrecognizedAt (utf8 "SXZ") 1 = true ∧
    ∃ diags, rowStep sampleTables (utf8 "SXZ") State.init [utf8 "a", utf8 "b", utf8 "c"]
        = .finished { State.init with
            bad := State.init.bad ++ [[utf8 "a", utf8 "b", utf8 "c"]],
            log := State.init.log ++ diags } ∧
      diags.count beyondMsg
        = ([utf8 "a", utf8 "b", utf8 "c"].enum.filter
            (fun p => unrecognizedAt (utf8 "SXZ") p.1)).length :=
  ⟨by decide, by decide, by decide,
    C5_unrecognized_tag_rejects sampleTables (utf8 "SXZ") State.init
      [utf8 "a", utf8 "b", utf8 "c"] 1 (by decide) (by decide) (by decide)⟩

/-- C6 (the code at the failing input): with schema `F` and the records `x`
and `y`, both rejected, the second record, at input position 1, is reported
as `Row 1`, the same row number as the first, because `i` advances only
when a record is accepted. -/
theorem C6_row_number_repeats (t : UnicodeTables) :
    run t (utf8 "F") [[utf8 "x"], [utf8 "y"]]
      = .finished { good := [], bad := [[utf8 "x"], [utf8 "y"]],
                    log := ["Row 1, Field 1 is not a floating point number",
                            "Row 1, Field 1 is not a floating point number"],
                    i := 0 } := by
  rfl

/-- C7: the `switch` of the field loop logs, for a failing field under the
tag at its position, exactly the text the specification lists for that tag
with `R = i + 1` and `C = x + 1` (and logs nothing for a valid field); and
every line a run logs, whether it finishes or panics, is one of these seven
texts. -/
theorem C7_diagnostic_texts (t : UnicodeTables) (index : GoString) :
    (∀ (i x tag : Nat) (v : GoString) (sc : Scan), index[x]? = some tag →
      fieldCase t index i x v sc =
        some (if specFieldValid t tag v then sc
              else { bad_record := true,
                     log := sc.log ++ [specMessage tag (i + 1) (x + 1)] })) ∧
    (∀ input : List Record, ∀ m ∈ (run t index input).state.log,
      ∃ tag R C : Nat, 1 ≤ R ∧ 1 ≤ C ∧ m = specMessage tag R C) ∧
    specMessage 0x53 2 3 = "Row 2, Field 3 is not a string" ∧
    specMessage 0x46 2 3 = "Row 2, Field 3 is not a floating point number" ∧
    specMessage 0x4E 2 3 = "Row 2, Field 3 is not an integer" ∧
    specMessage 0x42 2 3 = "Row 2, Field 3 is not a string or is blank" ∧
    specMessage 0x51 2 3 = "Row 2, Field 3 is not a floating point number or is blank" ∧
    specMessage 0x50 2 3 = "Row 2, Field 3 is not an integer or is blank" ∧
    specMessage 0x58 2 3 = "ERROR: CSV Field is beyond defined definition list." := by
  refine ⟨fun i x tag v sc h => fieldCase_eq t index i x tag v sc h, ?_,
    by decide, by decide, by decide, by decide, by decide, by decide, by decide⟩
  intro input m hm
  exact mainLoop_log t index input State.init (by simp [State.init]) m hm

/-- Instance of C7: the field `x` at position 1 of a row scanned with `i = 1`
under the schema `SF`. -/
theorem C7_witness :
    (utf8 "SF")[1]? = some 0x46 ∧
    fieldCase sampleTables (utf8 "SF") 1 1 (utf8 "x") { bad_record := false, log := [] }
      = some { bad_record := true,
               log := ["Row 2, Field 2 is not a floating point number"] } :=
  ⟨by decide,
    ((C7_diagnostic_texts sampleTables (utf8 "SF")).1 1 1 0x46 (utf8 "x")
      { bad_record := false, log := [] } (by decide)).trans (by decide)⟩

/-- C8: with schema `SFN` and the records `a,1.5,10`, `b,x,5` and three
empty fields, the accepted output is the first and third record in that
order, the rejected output is the second record, and the log is the single
line `Row 2, Field 2 is not a floating point number`. -/
theorem C8_end_to_end (t : UnicodeTables) :
    run t (utf8 "SFN")
        [[utf8 "a", utf8 "1.5", utf8 "10"], [utf8 "b", utf8 "x", utf8 "5"],
         [utf8 "", utf8 "", utf8 ""]]
      = .finished { good := [[utf8 "a", utf8 "1.5", utf8 "10"], [utf8 "", utf8 "", utf8 ""]],
                    bad := [[utf8 "b", utf8 "x", utf8 "5"]],
                    log := ["Row 2, Field 2 is not a floating point number"],
                    i := 2 } := by
  rfl

/-- C9: when a run finishes, a second run with the same schema on its
accepted output accepts every record, rejects none and logs nothing. -/
theorem C9_rerun_on_accepted (t : UnicodeTables) (index : GoString)
    (input : List Record) (s : State) (h : run t index input = .finished s) :
    run t index s.good =
      .finished { good := s.good, bad := [], log := [], i := s.good.length } := by
  obtain ⟨h1, -, -, -⟩ := mainLoop_finished t index input State.init s h
  simp only [State.init, List.nil_append] at h1
  have hall : ∀ r ∈ s.good, specRecordValid t index r = true := by
    intro r hr
    rw [h1] at hr
    simpa using (List.mem_filter.1 hr).2
  unfold run
  rw [mainLoop_all_valid t index s.good State.init hall]
  simp [State.init]

/-- Instance of C9: the accepted output of the end-to-end scenario, run again. -/
theorem C9_witness :
    run sampleTables (utf8 "SFN")
        [[utf8 "a", utf8 "1.5", utf8 "10"], [utf8 "b", utf8 "x", utf8 "5"], [[], [], []]]
      = .finished { good := [[utf8 "a", utf8 "1.5", utf8 "10"], [[], [], []]],
                    bad := [[utf8 "b", utf8 "x", utf8 "5"]],
                    log := ["Row 2, Field 2 is not a floating point number"], i := 2 } ∧
    run sampleTables (utf8 "SFN") [[utf8 "a", utf8 "1.5", utf8 "10"], [[], [], []]]
      = .finished { good := [[utf8 "a", utf8 "1.5", utf8 "10"], [[], [], []]],
                    bad := [], log := [], i := 2 } :=
  ⟨by decide, C9_rerun_on_accepted sampleTables (utf8 "SFN")
    [[utf8 "a", utf8 "1.5", utf8 "10"], [utf8 "b", utf8 "x", utf8 "5"], [[], [], []]]
    { good := [[utf8 "a", utf8 "1.5", utf8 "10"], [[], [], []]],
      bad := [[utf8 "b", utf8 "x", utf8 "5"]],
      log := ["Row 2, Field 2 is not a floating point number"], i := 2 } (by decide)⟩

/-- C10: for a non-empty string and any blank mode, `OnlyDigits` is true
exactly when every rune of the string is a decimal digit in the sense of
`unicode.IsDigit`. On a UTF-8 text that means every character is one of
`0`..`9` or a character above U+00FF listed in the Unicode table of decimal
digits; so a Latin-1 character other than `0`..`9` (a sign, a comma, a
point, a space, a superscript two) makes the classifier refuse the string,
whereas Arabic-Indic digits are accepted exactly when the table lists
them, and a byte that is not UTF-8 counts as U+FFFD. -/
theorem C10_only_digits (t : UnicodeTables) (s mode : GoString) (hs : s ≠ []) :
    (OnlyDigits t s mode = true ↔ ∀ r ∈ runes s, IsDigit t r = true) ∧
    (∀ b ∈ s, b < 0x80 → ¬ (0x30 ≤ b ∧ b ≤ 0x39) → OnlyDigits t s mode = false) ∧
    ((∀ b ∈ s, b < 0x80) →
      (OnlyDigits t s mode = true ↔ ∀ b ∈ s, 0x30 ≤ b ∧ b ≤ 0x39)) ∧
    (∀ cs : List Nat, (∀ c ∈ cs, IsScalar c) → s = encodeRunes cs →
      (OnlyDigits t s mode = true ↔
        ∀ c ∈ cs, (0x30 ≤ c ∧ c ≤ 0x39) ∨ (0xFF < c ∧ t.digit c = true)) ∧
      (∀ c ∈ cs, c ≤ 0xFF → ¬ (0x30 ≤ c ∧ c ≤ 0x39) → OnlyDigits t s mode = false)) ∧
    OnlyDigits t (utf8 "١٢٣") mode = (t.digit 0x661 && t.digit 0x662 && t.digit 0x663) ∧
    OnlyDigits t (utf8 "12²") mode = false ∧
    OnlyDigits t [0x31, 0xFF] mode = t.digit 0xFFFD := by
  have hgen : ∀ s' : GoString, s' ≠ [] →
      (OnlyDigits t s' mode = true ↔ ∀ r ∈ runes s', IsDigit t r = true) := by
    intro s' hs'
    rw [OnlyDigits_nonempty t s' mode hs']
    exact digitLoop_iff t _
  refine ⟨hgen s hs, ?_, ?_, ?_, ?_, ?_, ?_⟩
  · intro b hb hlt hnd
    cases h : OnlyDigits t s mode
    · rfl
    · have := (hgen s hs).1 h b (mem_runes_of_ascii b hlt s hb)
      rw [IsDigit_latin1 t b (by omega)] at this
      exact absurd this hnd
  · intro hascii
    rw [hgen s hs, runes_ascii s hascii]
    constructor
    · intro h b hb
      exact (IsDigit_latin1 t b (by have := hascii b hb; omega)).1 (h b hb)
    · intro h b hb
      exact (IsDigit_latin1 t b (by have := hascii b hb; omega)).2 (h b hb)
  · intro cs hcs henc
    have hiff : OnlyDigits t s mode = true ↔
        ∀ c ∈ cs, (0x30 ≤ c ∧ c ≤ 0x39) ∨ (0xFF < c ∧ t.digit c = true) := by
      rw [hgen s hs, henc, runes_encodeRunes cs hcs]
      constructor
      · intro h c hc; exact (IsDigit_iff t c).1 (h c hc)
      · intro h c hc; exact (IsDigit_iff t c).2 (h c hc)
    refine ⟨hiff, ?_⟩
    intro c hc hle hnd
    cases h : OnlyDigits t s mode
    · rfl
    · rcases hiff.1 h c hc with h' | h'
      · exact absurd h' hnd
      · omega
  · have hne : utf8 "١٢٣" ≠ [] := by decide
    have hr : runes (utf8 "١٢٣") = [0x661, 0x662, 0x663] := by decide
    rw [OnlyDigits_nonempty t _ mode hne, hr]
    simp only [digitLoop, IsDigit, MaxLatin1]
    cases t.digit 0x661 <;> cases t.digit 0x662 <;> cases t.digit 0x663 <;> rfl
  · have hne : utf8 "12²" ≠ [] := by decide
    have hr : runes (utf8 "12²") = [0x31, 0x32, 0xB2] := by decide
    rw [OnlyDigits_nonempty t _ mode hne, hr]
    rfl
  · have hr : runes [0x31, 0xFF] = [0x31, 0xFFFD] := by decide
    rw [OnlyDigits_nonempty t _ mode (by simp), hr]
    simp only [digitLoop, IsDigit, MaxLatin1]
    cases t.digit 0xFFFD <;> rfl

/-- Instance of C10: `10` and the Arabic-Indic `١٢٣` are accepted, and `-5`,
`3.14`, `1,000`, `+7` and `12²` are rejected, under either blank mode. -/
theorem C10_witness :
    utf8 "-5" ≠ [] ∧
    (OnlyDigits sampleTables (utf8 "-5") (utf8 "NO_BLANK") = true ↔
      ∀ r ∈ runes (utf8 "-5"), IsDigit sampleTables r = true) ∧
    OnlyDigits sampleTables (utf8 "-5") (utf8 "NO_BLANK") = false ∧
    OnlyDigits sampleTables (utf8 "3.14") (utf8 "BLANK_ALLOWED") = false ∧
    OnlyDigits sampleTables (utf8 "1,000") (utf8 "NO_BLANK") = false ∧
    OnlyDigits sampleTables (utf8 "+7") (utf8 "BLANK_ALLOW") = false ∧
    OnlyDigits sampleTables (utf8 "12²") (utf8 "BLANK_ALLOW") = false ∧
    OnlyDigits sampleTables (utf8 "10") (utf8 "NO_BLANK") = true ∧
    OnlyDigits sampleTables (utf8 "١٢٣") (utf8 "NO_BLANK") = true :=
  ⟨by decide,
    (C10_only_digits sampleTables (utf8 "-5") (utf8 "NO_BLANK") (by decide)).1,
    by decide, by decide, by decide, by decide, by decide, by decide, by decide⟩

/-- C11 (as stated): `NaN` is not the text of a decimal number (optional
sign, digits, optional fractional part, optional exponent), yet `IsFloat`
accepts it in both blank modes, because `strconv.ParseFloat` does. -/
theorem C11_counterexample :
    IsFloat (utf8 "NaN") (utf8 "BLANK_ALLOWED") = true ∧
    IsFloat (utf8 "NaN") (utf8 "NO_BLANK") = true ∧
    ¬ ∃ d : DecimalText, d.WellFormed ∧ d.text = utf8 "NaN" := by
  refine ⟨by decide, by decide, ?_⟩
  rintro ⟨d, hwf, htext⟩
  obtain ⟨c, cs, hcs, hc⟩ := body_head d hwf
  obtain ⟨hsign, -, -, -, -⟩ := hwf
  have hN : utf8 "NaN" = [0x4E, 0x61, 0x4E] := by decide
  rw [hN] at htext
  unfold DecimalText.text at htext
  rw [hcs] at htext
  rcases hsign with h | h | h <;> rw [h] at htext
  · simp only [List.nil_append, List.cons.injEq] at htext
    omega
  · simp at htext
  · simp at htext

/-- C11 (amended): for a non-empty string and any blank mode, `IsFloat` is
true exactly in three cases. (a) The string, its underscores removed, is the
text of a decimal number (optional sign, digits with at most one point and
at least one digit, optional exponent) whose magnitude is below
`2^128 - 2^103`, and every underscore stands directly between two decimal
digits. (b) The string is a spelling in any letter case of `nan`, `inf` or
`infinity` (the last two with an optional sign). (c) The string, its
underscores removed, is the text of a hexadecimal number (optional sign,
`0x`, hexadecimal digits with at most one point and at least one digit,
binary exponent `p`) whose magnitude is below `2^128 - 2^103`, and every
underscore stands directly after a hexadecimal digit or the `x` of the
prefix and directly before a hexadecimal digit. So a string without
underscore is accepted exactly when it is itself such a decimal text,
spelling or hexadecimal text. The exponent is the value of its digits when
that is below 100000. -/
theorem C11_is_float (s mode : GoString) (hs : s ≠ []) :
    (IsFloat s mode = true ↔
      (∃ d : DecimalText, d.WellFormed ∧ d.text = stripUnderscores s ∧
        d.overflows = false ∧ Separated IsDecDigit IsDecDigit s) ∨
      IsSpecialText s ∨
      (∃ h : HexText, h.WellFormed ∧ h.text = stripUnderscores s ∧
        h.overflows = false ∧ Separated IsHexDigitOrX IsHexDigit s)) ∧
    (0x5F ∉ s →
      (IsFloat s mode = true ↔
        (∃ d : DecimalText, d.WellFormed ∧ d.text = s ∧ d.overflows = false) ∨
        IsSpecialText s ∨
        (∃ h : HexText, h.WellFormed ∧ h.text = s ∧ h.overflows = false))) ∧
    (∀ ds : GoString, AllDigits ds → digitsVal ds < 100000 → expVal ds = digitsVal ds) ∧
    (∀ x ∈ [utf8 "1_000", utf8 "1_0.2_5e1_0", utf8 "0x_1p0", utf8 "0x1_fp-1_0"],
      IsFloat x mode = true) ∧
    (∀ x ∈ [utf8 "1__0", utf8 "_1", utf8 "1_", utf8 "1_.5", utf8 "1._5", utf8 "1e_5",
        utf8 "1_e5", utf8 "+_1", utf8 "0_x1p0", utf8 "0x1p_0", utf8 "in_f"],
      IsFloat x mode = false) := by
  have hiff := ParseFloatOk_iff s
  refine ⟨?_, ?_, expVal_eq_digitsVal, ?_, ?_⟩
  · rw [IsFloat_nonempty s mode hs]; exact ParseFloatOk_spec s
  · intro hu
    rw [IsFloat_nonempty s mode hs, hiff]
    constructor
    · rintro (h | h | h | ⟨h, -⟩)
      · exact Or.inl h
      · exact Or.inr (Or.inl h)
      · exact Or.inr (Or.inr h)
      · exact absurd h hu
    · rintro (h | h | h)
      · exact Or.inl h
      · exact Or.inr (Or.inl h)
      · exact Or.inr (Or.inr (Or.inl h))
  · intro x hx
    simp only [List.mem_cons, List.mem_singleton, List.not_mem_nil, or_false] at hx
    have hne : x ≠ [] := by
      rcases hx with rfl | rfl | rfl | rfl <;> decide
    rw [IsFloat_nonempty x mode hne]
    rcases hx with rfl | rfl | rfl | rfl <;> decide
  · intro x hx
    simp only [List.mem_cons, List.mem_singleton, List.not_mem_nil, or_false] at hx
    have hne : x ≠ [] := by
      rcases hx with rfl | rfl | rfl | rfl | rfl | rfl | rfl | rfl | rfl | rfl | rfl <;> decide
    have hb : ParseFloatOk x = false := by
      rcases hx with rfl | rfl | rfl | rfl | rfl | rfl | rfl | rfl | rfl | rfl | rfl <;> decide
    have := IsFloat_nonempty x mode hne
    cases hf : IsFloat x mode with
    | false => rfl
    | true => rw [hf, hb] at this; exact absurd this (by simp)

set_option maxRecDepth 100000 in
set_option exponentiation.threshold 2000 in
/-- Instance of C11: `-1.5e3` is accepted; `3.4028235e38` is accepted and
`3.4028236e38`, `1e39` and the digit `1` followed by 900 zeros and `e-800`
are refused for their magnitude; the hexadecimal `0x1p-2`, `-0X1.8p1` and
`0x1.fffffep127` are accepted and `0x1.ffffffp127` and `0x1p128` are refused
for their magnitude; `abc`, `1.2.3`, `1e`, `--1`, `.`, ` 1`, `infin`, `0x1`
and `0xp1` are refused for their form; `1_000` is `1000` with an underscore
between two digits and is accepted, while the underscores of `1__0` and of
`0x1p_0` are not between digits and those of `0x_1p0` are well placed. -/
theorem C11_witness :
    utf8 "-1.5e3" ≠ [] ∧
    (IsFloat (utf8 "-1.5e3") (utf8 "NO_BLANK") = true ↔
      (∃ d : DecimalText, d.WellFormed ∧ d.text = stripUnderscores (utf8 "-1.5e3") ∧
        d.overflows = false ∧ Separated IsDecDigit IsDecDigit (utf8 "-1.5e3")) ∨
      IsSpecialText (utf8 "-1.5e3") ∨
      (∃ h : HexText, h.WellFormed ∧ h.text = stripUnderscores (utf8 "-1.5e3") ∧
        h.overflows = false ∧ Separated IsHexDigitOrX IsHexDigit (utf8 "-1.5e3"))) ∧
    IsFloat (utf8 "-1.5e3") (utf8 "NO_BLANK") = true ∧
    ({ sign := utf8 "-", intPart := utf8 "1", frac := some (utf8 "5"),
       exp := some (0x65, [], utf8 "3") } : DecimalText).text = utf8 "-1.5e3" ∧
    ({ sign := utf8 "-", intPart := utf8 "1", frac := some (utf8 "5"),
       exp := some (0x65, [], utf8 "3") } : DecimalText).overflows = false ∧
    IsFloat (utf8 "3.4028235e38") (utf8 "NO_BLANK") = true ∧
    IsFloat (utf8 "3.4028236e38") (utf8 "NO_BLANK") = false ∧
    IsFloat (utf8 "1e39") (utf8 "NO_BLANK") = false ∧
    IsFloat (0x31 :: (List.replicate 900 0x30 ++ utf8 "e-800")) (utf8 "NO_BLANK") = false ∧
    ({ sign := utf8 "-", x := 0x58, intPart := utf8 "1", frac := some (utf8 "8"),
       p := 0x70, expSign := [], expDigits := utf8 "1" } : HexText).text = utf8 "-0X1.8p1" ∧
    ({ sign := utf8 "-", x := 0x58, intPart := utf8 "1", frac := some (utf8 "8"),
       p := 0x70, expSign := [], expDigits := utf8 "1" } : HexText).overflows = false ∧
    (∀ x ∈ [utf8 "0x1p-2", utf8 "-0X1.8p1", utf8 "0x1.fffffep127"],
      IsFloat x (utf8 "NO_BLANK") = true) ∧
    (∀ x ∈ [utf8 "0x1.ffffffp127", utf8 "0x1p128"], IsFloat x (utf8 "NO_BLANK") = false) ∧
    (∀ x ∈ [utf8 "abc", utf8 "1.2.3", utf8 "1e", utf8 "--1", utf8 ".", utf8 " 1",
        utf8 "infin", utf8 "0x1", utf8 "0xp1"],
      IsFloat x (utf8 "NO_BLANK") = false) ∧
    stripUnderscores (utf8 "1_000") = utf8 "1000" ∧
    IsFloat (utf8 "1_000") (utf8 "NO_BLANK") = true ∧
    Separated IsDecDigit IsDecDigit (utf8 "1_000") ∧
    ¬ Separated IsDecDigit IsDecDigit (utf8 "1__0") ∧
    Separated IsHexDigitOrX IsHexDigit (utf8 "0x_1p0") ∧
    ¬ Separated IsHexDigitOrX IsHexDigit (utf8 "0x1p_0") :=
  ⟨by decide, (C11_is_float (utf8 "-1.5e3") (utf8 "NO_BLANK") (by decide)).1,
    by decide, by decide, by decide, by decide, by decide, by decide, by decide, by decide,
    by decide, by decide, by decide, by decide, by decide, by decide,
    (underscoreOK_decimalText
      { sign := [], intPart := utf8 "1000", frac := none, exp := none }
      ⟨Or.inl rfl, by unfold AllDigits; decide, by decide, (fun _ h => nomatch h),
        (fun _ _ _ h => nomatch h)⟩
      (utf8 "1_000") (by decide)).1 (by decide),
    fun h => absurd ((underscoreOK_decimalText
      { sign := [], intPart := utf8 "10", frac := none, exp := none }
      ⟨Or.inl rfl, by unfold AllDigits; decide, by decide, (fun _ h => nomatch h),
        (fun _ _ _ h => nomatch h)⟩
      (utf8 "1__0") (by decide)).2 h) (by decide),
    (underscoreOK_hexText
      { sign := [], x := 0x78, intPart := utf8 "1", frac := none, p := 0x70, expSign := [],
        expDigits := utf8 "0" }
      ⟨Or.inl rfl, Or.inl rfl, by unfold AllHexDigits IsHexDigit; decide, (fun _ h => nomatch h),
        by decide, Or.inl rfl, Or.inl rfl, by unfold AllDigits; decide, by decide⟩
      (utf8 "0x_1p0") (by decide)).1 (by decide),
    fun h => absurd ((underscoreOK_hexText
      { sign := [], x := 0x78, intPart := utf8 "1", frac := none, p := 0x70, expSign := [],
        expDigits := utf8 "0" }
      ⟨Or.inl rfl, Or.inl rfl, by unfold AllHexDigits IsHexDigit; decide, (fun _ h => nomatch h),
        by decide, Or.inl rfl, Or.inl rfl, by unfold AllDigits; decide, by decide⟩
      (utf8 "0x1p_0") (by decide)).2 h) (by decide)⟩

/-- C12: the field `3.14` passes the float classifier in both blank modes
(tags `F`, `Q`) and fails the digit classifier (tags `N`, `P`); the field
`-5` fails the digit classifier and passes the float classifier; the empty
field passes under `S` and fails under `B`; and the `switch` of the field
loop treats each of them accordingly. -/
theorem C12_boundary_cases (t : UnicodeTables) :
    (IsFloat (utf8 "3.14") (utf8 "BLANK_ALLOWED") = true ∧
      IsFloat (utf8 "3.14") (utf8 "NO_BLANK") = true ∧
      OnlyDigits t (utf8 "3.14") (utf8 "BLANK_ALLOW") = false ∧
      OnlyDigits t (utf8 "3.14") (utf8 "NO_BLANK") = false) ∧
    (OnlyDigits t (utf8 "-5") (utf8 "BLANK_ALLOW") = false ∧
      OnlyDigits t (utf8 "-5") (utf8 "NO_BLANK") = false ∧
      IsFloat (utf8 "-5") (utf8 "BLANK_ALLOWED") = true ∧
      IsFloat (utf8 "-5") (utf8 "NO_BLANK") = true) ∧
    (OnlyPrintable t (utf8 "") (utf8 "BLANK_ALLOWED") = true ∧
      OnlyPrintable t (utf8 "") (utf8 "NO_BLANK") = false) ∧
    (∀ (i : Nat) (sc : Scan),
      fieldCase t (utf8 "F") i 0 (utf8 "3.14") sc = some sc ∧
      fieldCase t (utf8 "Q") i 0 (utf8 "3.14") sc = some sc ∧
      fieldCase t (utf8 "N") i 0 (utf8 "3.14") sc
        = some { bad_record := true,
                 log := sc.log ++ [rowFieldMsg i 0 " is not an integer"] } ∧
      fieldCase t (utf8 "P") i 0 (utf8 "3.14") sc
        = some { bad_record := true,
                 log := sc.log ++ [rowFieldMsg i 0 " is not an integer or is blank"] } ∧
      fieldCase t (utf8 "N") i 0 (utf8 "-5") sc
        = some { bad_record := true,
                 log := sc.log ++ [rowFieldMsg i 0 " is not an integer"] } ∧
      fieldCase t (utf8 "P") i 0 (utf8 "-5") sc
        = some { bad_record := true,
                 log := sc.log ++ [rowFieldMsg i 0 " is not an integer or is blank"] } ∧
      fieldCase t (utf8 "F") i 0 (utf8 "-5") sc = some sc ∧
      fieldCase t (utf8 "Q") i 0 (utf8 "-5") sc = some sc ∧
      fieldCase t (utf8 "S") i 0 (utf8 "") sc = some sc ∧
      fieldCase t (utf8 "B") i 0 (utf8 "") sc
        = some { bad_record := true,
                 log := sc.log ++ [rowFieldMsg i 0 " is not a string or is blank"] }) := by
  refine ⟨⟨rfl, rfl, rfl, rfl⟩, ⟨rfl, rfl, rfl, rfl⟩, ⟨rfl, rfl⟩, fun i sc => ?_⟩
  exact ⟨rfl, rfl, rfl, rfl, rfl, rfl, rfl, rfl, rfl, rfl⟩

/-- C13: for a non-empty string and any blank mode, `OnlyPrintable` is true
exactly when every rune of the string is printable in the sense of
`unicode.IsPrint`. The space is printable and no rune below U+0020 (tab,
newline, ...) nor U+007F is. On a UTF-8 text that means every character is
in U+0020..U+007E, or in U+00A1..U+00FF except the soft hyphen, or a
character above U+00FF listed in the Unicode table of printable
characters; so multi-byte text such as `café` is accepted, text with a
control character of the range U+0080..U+009F or a no-break space is
refused, and a byte that is not UTF-8 counts as U+FFFD. -/
theorem C13_only_printable (t : UnicodeTables) (s mode : GoString) (hs : s ≠ []) :
    (OnlyPrintable t s mode = true ↔ ∀ r ∈ runes s, IsPrint t r = true) ∧
    IsPrint t 0x20 = true ∧
    (∀ r : Nat, r < 0x20 ∨ r = 0x7F → IsPrint t r = false) ∧
    ((∀ b ∈ s, 0x20 ≤ b ∧ b ≤ 0x7E) → OnlyPrintable t s mode = true) ∧
    (∀ b ∈ s, b < 0x20 ∨ b = 0x7F → OnlyPrintable t s mode = false) ∧
    (∀ cs : List Nat, (∀ c ∈ cs, IsScalar c) → s = encodeRunes cs →
      (OnlyPrintable t s mode = true ↔
        ∀ c ∈ cs, (0x20 ≤ c ∧ c ≤ 0x7E) ∨ (0xA1 ≤ c ∧ c ≤ 0xFF ∧ c ≠ 0xAD) ∨
          (0xFF < c ∧ t.print c = true)) ∧
      ((∀ c ∈ cs, (0x20 ≤ c ∧ c ≤ 0x7E) ∨ (0xA1 ≤ c ∧ c ≤ 0xFF ∧ c ≠ 0xAD)) →
        OnlyPrintable t s mode = true) ∧
      (∀ c ∈ cs, c < 0x20 ∨ (0x7F ≤ c ∧ c ≤ 0xA0) ∨ c = 0xAD →
        OnlyPrintable t s mode = false)) ∧
    OnlyPrintable t (utf8 "café ñ") mode = true ∧
    OnlyPrintable t (utf8 "a\u0085b") mode = false ∧
    OnlyPrintable t (utf8 "a\u00a0b") mode = false ∧
    OnlyPrintable t (utf8 "αβ") mode = (t.print 0x3B1 && t.print 0x3B2) ∧
    OnlyPrintable t (utf8 "a\u2028b") mode = t.print 0x2028 ∧
    OnlyPrintable t [0x61, 0xFF] mode = t.print 0xFFFD := by
  have hgen : ∀ s' : GoString, s' ≠ [] →
      (OnlyPrintable t s' mode = true ↔ ∀ r ∈ runes s', IsPrint t r = true) := by
    intro s' hs'
    rw [OnlyPrintable_nonempty t s' mode hs']
    exact printLoop_iff t _
  have hctl : ∀ r : Nat, r < 0x20 ∨ r = 0x7F → IsPrint t r = false := by
    intro r hr
    cases h : IsPrint t r
    · rfl
    · have := (IsPrint_ascii t r (by omega)).1 h
      omega
  refine ⟨hgen s hs, (IsPrint_ascii t 0x20 (by decide)).2 (by decide), hctl, ?_, ?_, ?_,
    ?_, ?_, ?_, ?_, ?_, ?_⟩
  · intro h
    rw [hgen s hs, runes_ascii s (fun b hb => by have := h b hb; omega)]
    intro b hb
    exact (IsPrint_ascii t b (by have := h b hb; omega)).2 (h b hb)
  · intro b hb hc
    cases h : OnlyPrintable t s mode
    · rfl
    · have := (hgen s hs).1 h b (mem_runes_of_ascii b (by omega) s hb)
      rw [hctl b hc] at this
      exact absurd this (by simp)
  · intro cs hcs henc
    have hiff : OnlyPrintable t s mode = true ↔
        ∀ c ∈ cs, (0x20 ≤ c ∧ c ≤ 0x7E) ∨ (0xA1 ≤ c ∧ c ≤ 0xFF ∧ c ≠ 0xAD) ∨
          (0xFF < c ∧ t.print c = true) := by
      rw [hgen s hs, henc, runes_encodeRunes cs hcs]
      constructor
      · intro h c hc; exact (IsPrint_iff t c).1 (h c hc)
      · intro h c hc; exact (IsPrint_iff t c).2 (h c hc)
    refine ⟨hiff, ?_, ?_⟩
    · intro h
      refine hiff.2 (fun c hc => ?_)
      rcases h c hc with h' | h'
      · exact Or.inl h'
      · exact Or.inr (Or.inl h')
    · intro c hc hbad
      cases h : OnlyPrintable t s mode
      · rfl
      · rcases hiff.1 h c hc with ⟨h1, h2⟩ | ⟨h1, h2, h3⟩ | ⟨h1, -⟩ <;> omega
  · have hne : utf8 "café ñ" ≠ [] := by decide
    have hr : runes (utf8 "café ñ") = [0x63, 0x61, 0x66, 0xE9, 0x20, 0xF1] := by decide
    rw [OnlyPrintable_nonempty t _ mode hne, hr]
    rfl
  · have hne : utf8 "a\u0085b" ≠ [] := by decide
    have hr : runes (utf8 "a\u0085b") = [0x61, 0x85, 0x62] := by decide
    rw [OnlyPrintable_nonempty t _ mode hne, hr]
    rfl
  · have hne : utf8 "a\u00a0b" ≠ [] := by decide
    have hr : runes (utf8 "a\u00a0b") = [0x61, 0xA0, 0x62] := by decide
    rw [OnlyPrintable_nonempty t _ mode hne, hr]
    rfl
  · have hne : utf8 "αβ" ≠ [] := by decide
    have hr : runes (utf8 "αβ") = [0x3B1, 0x3B2] := by decide
    rw [OnlyPrintable_nonempty t _ mode hne, hr]
    simp only [printLoop, IsPrint, MaxLatin1]
    cases t.print 0x3B1 <;> cases t.print 0x3B2 <;> rfl
  · have hne : utf8 "a\u2028b" ≠ [] := by decide
    have hr : runes (utf8 "a\u2028b") = [0x61, 0x2028, 0x62] := by decide
    rw [OnlyPrintable_nonempty t _ mode hne, hr]
    simp only [printLoop, IsPrint, MaxLatin1]
    cases t.print 0x2028 <;> rfl
  · have hr : runes [0x61, 0xFF] = [0x61, 0xFFFD] := by decide
    rw [OnlyPrintable_nonempty t _ mode (by simp), hr]
    simp only [printLoop, IsPrint, MaxLatin1]
    cases t.print 0xFFFD <;> rfl

/-- Instance of C13: `a b`, `café ñ` and Cyrillic text are accepted;
strings with a tab, a control character U+0085 or a no-break space are
rejected. -/
theorem C13_witness :
    utf8 "a b" ≠ [] ∧
    OnlyPrintable sampleTables (utf8 "a b") (utf8 "NO_BLANK") = true ∧
    OnlyPrintable sampleTables (utf8 "café ñ") (utf8 "NO_BLANK") = true ∧
    OnlyPrintable sampleTables (utf8 "Привет") (utf8 "NO_BLANK") = true ∧
    OnlyPrintable sampleTables (utf8 "a\tb") (utf8 "BLANK_ALLOWED") = false ∧
    OnlyPrintable sampleTables (utf8 "a\u0085b") (utf8 "BLANK_ALLOWED") = false ∧
    OnlyPrintable sampleTables (utf8 "a\u00a0b") (utf8 "BLANK_ALLOWED") = false :=
  ⟨by decide,
    (C13_only_printable sampleTables (utf8 "a b") (utf8 "NO_BLANK") (by decide)).2.2.2.1
      (by decide),
    by decide, by decide, by decide, by decide, by decide⟩

/-- C14 (the code at the failing input): with schema `S` and the records
`a,b` and `c,d`, the field `b` sits at position 1, beyond the schema; the
lookup `index[1]` panics before the `switch` is reached, so nothing is
logged, the record is written to neither output and the second record is
never read. -/
theorem C14_field_beyond_schema_panics (t : UnicodeTables) :
    run t (utf8 "S") [[utf8 "a", utf8 "b"], [utf8 "c", utf8 "d"]]
      = .panicked { good := [], bad := [], log := [], i := 0 } := by
  rfl

/-- C15 (as stated): with schema `SF` and the rows `a,1` and `b,2,3`, the
first record that has more fields than the schema is the second row; the
reader refuses it for its number of fields, and the run ends in the fatal
read error, not in an out-of-range panic. -/
theorem C15_counterexample :
    (∀ q ∈ [[utf8 "a", utf8 "1"]], q.length ≤ (utf8 "SF").length) ∧
    (utf8 "SF").length < [utf8 "b", utf8 "2", utf8 "3"].length ∧
    runFile sampleTables (utf8 "SF")
        [.record [utf8 "a", utf8 "1"], .record [utf8 "b", utf8 "2", utf8 "3"]]
      = .readError { good := [[utf8 "a", utf8 "1"]], bad := [], log := [], i := 1 } ∧
    ¬ ∃ s, runFile sampleTables (utf8 "SF")
        [.record [utf8 "a", utf8 "1"], .record [utf8 "b", utf8 "2", utf8 "3"]]
      = .panicked s := by
  refine ⟨by decide, by decide, by decide, ?_⟩
  rintro ⟨s, hs⟩
  have h : runFile sampleTables (utf8 "SF")
        [.record [utf8 "a", utf8 "1"], .record [utf8 "b", utf8 "2", utf8 "3"]]
      = .readError { good := [[utf8 "a", utf8 "1"]], bad := [], log := [], i := 1 } := by
    decide
  rw [h] at hs
  exact absurd hs (by simp)

/-- C15 (amended): when no record has more fields than the schema has
bytes, no run panics, and a run on records that all have the same number of
fields finishes. A record with more fields than the schema is written to
neither output: as the first row it makes the row step and the run panic
with both outputs empty; as a later row, after rows that fit the schema, it
is never scanned, because the run ends in a fatal read error at that row or
before it, in the state a complete run on the rows before the error ends
in. -/
theorem C15_index_lookup (t : UnicodeTables) (index : GoString) :
    (∀ rows : List Row, (∀ r, Row.record r ∈ rows → r.length ≤ index.length) →
      ∀ s, runFile t index rows ≠ .panicked s) ∧
    (∀ (rs : List Record) (n : Nat), (∀ r ∈ rs, r.length = n) → n ≤ index.length →
      ∃ s, runFile t index (rs.map Row.record) = .finished s ∧
        run t index rs = .finished s) ∧
    (∀ (r : Record) (post : List Row), index.length < r.length →
      ∃ log, rowStep t index State.init r = .panicked { State.init with log := log } ∧
        runFile t index (.record r :: post)
          = .panicked { State.init with log := log }) ∧
    (∀ (pre post : List Row) (r : Record), pre ≠ [] →
      (∀ q, Row.record q ∈ pre → q ≠ [] ∧ q.length ≤ index.length) →
      index.length < r.length →
      ∃ (k : Nat) (s : State), k ≤ pre.length ∧
        runFile t index (pre ++ .record r :: post) = .readError s ∧
        runFile t index ((pre ++ .record r :: post).take k) = .finished s) := by
  refine ⟨?_, ?_, ?_, ?_⟩
  · intro rows h
    exact readLoop_no_panic t index rows 0 State.init h
  · intro rs n h hn
    obtain ⟨s, hs⟩ := mainLoop_fits t index rs State.init (fun r hr => by rw [h r hr]; exact hn)
    refine ⟨s, ?_, hs⟩
    rw [runFile_uniform t index rs n h]
    unfold run
    rw [hs]
    rfl
  · intro r post hr
    obtain ⟨log, hlog⟩ := rowStep_too_wide t index State.init r hr
    refine ⟨log, hlog, ?_⟩
    simp [runFile, readLoop, hlog]
  · intro pre post r hne hpre hr
    have hfit : ∀ q, Row.record q ∈ pre → q.length ≤ index.length := fun q hq => (hpre q hq).2
    unfold runFile
    rw [readLoop_append]
    cases hp : readLoop t index 0 pre State.init with
    | panicked s' => exact absurd hp (readLoop_no_panic t index pre 0 State.init hfit s')
    | readError s' =>
      obtain ⟨k, row, s₀, h1, h2, -, -, -, h6⟩ :=
        readLoop_fault t index pre 0 State.init _ hp (by simp)
      have hk : k < pre.length := by
        by_contra hnot
        rw [List.getElem?_eq_none (by omega)] at h1
        exact absurd h1 (by simp)
      have hs : s' = s₀ := by
        rcases h6 with ⟨s'', h', -⟩ | ⟨h', -⟩
        · exact absurd h' (by simp)
        · simpa using h'
      subst hs
      refine ⟨k, s', by omega, rfl, ?_⟩
      rw [List.take_append_of_le_length (by omega)]
      exact h2
    | finished s' =>
      obtain ⟨row, rows, rfl⟩ := List.exists_cons_of_ne_nil hne
      cases row with
      | malformed => simp [readLoop] at hp
      | record q =>
        obtain ⟨hq0, hq⟩ := hpre q (by simp)
        have hqpos : 0 < q.length := List.length_pos.2 hq0
        have hfa : fieldsAfter 0 (.record q :: rows) = q.length := by
          simp only [fieldsAfter, gt_iff_lt, Nat.lt_irrefl, if_false]
          exact fieldsAfter_pos _ _ hqpos
        have hbad : fieldsAfter 0 (.record q :: rows) > 0 ∧
            r.length ≠ fieldsAfter 0 (.record q :: rows) := by
          rw [hfa]; exact ⟨hqpos, by omega⟩
        refine ⟨(Row.record q :: rows).length, s', Nat.le_refl _, ?_, ?_⟩
        · simp only [readLoop]
          rw [if_pos hbad]
        · rw [List.take_left']
          · exact hp
          · rfl

/-- Instance of C15: schema `SF`; two rows of two fields are processed; a
first row of three fields makes the run panic at once; a row of three
fields after a row of two ends the run in a read error. -/
theorem C15_witness :
    (∃ s, runFile sampleTables (utf8 "SF")
        ([[utf8 "a", utf8 "1"], [utf8 "b", utf8 "x"]].map Row.record) = .finished s ∧
      run sampleTables (utf8 "SF") [[utf8 "a", utf8 "1"], [utf8 "b", utf8 "x"]]
        = .finished s) ∧
    runFile sampleTables (utf8 "SF") [Row.record [utf8 "a", utf8 "1", utf8 "z"]]
      = FileOutcome.panicked { good := [], bad := [], log := [], i := 0 } ∧
    (∃ (k : Nat) (s : State), k ≤ [Row.record [utf8 "a", utf8 "1"]].length ∧
      runFile sampleTables (utf8 "SF")
          ([Row.record [utf8 "a", utf8 "1"]] ++ Row.record [utf8 "b", utf8 "2", utf8 "3"] :: [])
        = .readError s ∧
      runFile sampleTables (utf8 "SF")
          (([Row.record [utf8 "a", utf8 "1"]]
            ++ Row.record [utf8 "b", utf8 "2", utf8 "3"] :: []).take k) = .finished s) :=
  ⟨(C15_index_lookup sampleTables (utf8 "SF")).2.1
      [[utf8 "a", utf8 "1"], [utf8 "b", utf8 "x"]] 2 (by decide) (by decide),
   by decide,
   (C15_index_lookup sampleTables (utf8 "SF")).2.2.2 [Row.record [utf8 "a", utf8 "1"]] []
      [utf8 "b", utf8 "2", utf8 "3"] (by decide)
      (fun q hq => by
        have hq' : q = [utf8 "a", utf8 "1"] := by simpa using hq
        subst hq'
        exact ⟨by decide, by decide⟩)
      (by decide)⟩

/-- C16: the misspelt mode `BLANK_ALLOW` of tag `N` gives the digit
classifier the result of `BLANK_ALLOWED` on every string; and for each of
the three classifiers every mode other than the exact token `NO_BLANK`
gives the result of `BLANK_ALLOWED`. -/
theorem C16_blank_mode_token (t : UnicodeTables) (s mode : GoString)
    (hmode : mode ≠ utf8 "NO_BLANK") :
    OnlyDigits t s (utf8 "BLANK_ALLOW") = OnlyDigits t s (utf8 "BLANK_ALLOWED") ∧
    OnlyPrintable t s mode = OnlyPrintable t s (utf8 "BLANK_ALLOWED") ∧
    OnlyDigits t s mode = OnlyDigits t s (utf8 "BLANK_ALLOWED") ∧
    IsFloat s mode = IsFloat s (utf8 "BLANK_ALLOWED") := by
  refine ⟨OnlyDigits_blank_allow t s, ?_, ?_, ?_⟩
  · simp only [OnlyPrintable, hmode, blank_allowed_ne, if_false]
  · simp only [OnlyDigits, hmode, blank_allowed_ne, if_false]
  · simp only [IsFloat, hmode, blank_allowed_ne, if_false]

/-- Instance of C16: the mode `BLANK_ALLOW` on the empty string. -/
theorem C16_witness :
    utf8 "BLANK_ALLOW" ≠ utf8 "NO_BLANK" ∧
    OnlyDigits sampleTables [] (utf8 "BLANK_ALLOW")
      = OnlyDigits sampleTables [] (utf8 "BLANK_ALLOWED") ∧
    OnlyPrintable sampleTables [] (utf8 "BLANK_ALLOW")
      = OnlyPrintable sampleTables [] (utf8 "BLANK_ALLOWED") ∧
    OnlyDigits sampleTables [] (utf8 "BLANK_ALLOW")
      = OnlyDigits sampleTables [] (utf8 "BLANK_ALLOWED") ∧
    IsFloat [] (utf8 "BLANK_ALLOW") = IsFloat [] (utf8 "BLANK_ALLOWED") :=
  ⟨by decide, C16_blank_mode_token sampleTables [] (utf8 "BLANK_ALLOW") (by decide)⟩

/-- C17: the row step on a record that fits the schema appends to the log
exactly the diagnostics of its invalid fields, one each, in increasing field
position, and nothing for a valid field (every field is checked, whatever
happened to the fields before it); the log is unchanged if and only if the
record is accepted. -/
theorem C17_one_diagnostic_per_invalid_field (t : UnicodeTables) (index : GoString)
    (s : State) (record : Record) (hw : record.length ≤ index.length) :
    ∃ s', rowStep t index s record = .finished s' ∧
      s'.log = s.log ++ record.enum.filterMap (fun p =>
        if fieldValidAt t index p.1 p.2 then none
        else some (specMessage (index.getD p.1 0) (s.i + 1) (p.1 + 1))) ∧
      (s'.log = s.log ↔ s'.good = s.good ++ [record] ∧ s'.bad = s.bad) := by
  have hstep := rowStep_fits t index s record hw
  refine ⟨_, hstep, rowStep_fits_log t index s _ record hw hstep, ?_⟩
  cases hv : specRecordValid t index record
  · have hne : diagsFrom t index s.i 0 record ≠ [] := by
      intro hnil
      rw [diagsFrom_eq_nil_iff, validFrom_zero, hv] at hnil
      exact absurd hnil (by simp)
    simp [hne]
  · simp

/-- Instance of C17: schema `FNS`, record `x,y,z`: two diagnostics, for
fields 1 and 2, in that order. -/
theorem C17_witness :
    [utf8 "x", utf8 "y", utf8 "z"].length ≤ (utf8 "FNS").length ∧
    rowStep sampleTables (utf8 "FNS") State.init [utf8 "x", utf8 "y", utf8 "z"]
      = .finished { good := [], bad := [[utf8 "x", utf8 "y", utf8 "z"]],
                    log := ["Row 1, Field 1 is not a floating point number",
                            "Row 1, Field 2 is not an integer"], i := 0 } ∧
    ∃ s', rowStep sampleTables (utf8 "FNS") State.init [utf8 "x", utf8 "y", utf8 "z"]
        = .finished s' ∧
      s'.log = State.init.log ++ [utf8 "x", utf8 "y", utf8 "z"].enum.filterMap (fun p =>
        if fieldValidAt sampleTables (utf8 "FNS") p.1 p.2 then none
        else some (specMessage ((utf8 "FNS").getD p.1 0) (State.init.i + 1) (p.1 + 1))) ∧
      (s'.log = State.init.log ↔
        s'.good = State.init.good ++ [[utf8 "x", utf8 "y", utf8 "z"]] ∧
          s'.bad = State.init.bad) :=
  ⟨by decide, by decide,
    C17_one_diagnostic_per_invalid_field sampleTables (utf8 "FNS") State.init
      [utf8 "x", utf8 "y", utf8 "z"] (by decide)⟩

/-- C18: the two outputs only grow: what a run has written after the rows
`xs` is a prefix of what a run on `xs ++ ys` writes; and a run that does not
reach the end of the input stopped at some row number `k`, either in an
out-of-range panic while scanning a record wider than the schema, or in the
fatal read error of a row the reader refuses (malformed, or with another
number of fields than the first record); the two outputs and the counter at
that moment are those of a complete run on the first `k` rows alone. -/
theorem C18_outputs_append_only (t : UnicodeTables) (index : GoString) :
    (∀ xs ys : List Row,
      (runFile t index xs).state.good <+: (runFile t index (xs ++ ys)).state.good ∧
      (runFile t index xs).state.bad <+: (runFile t index (xs ++ ys)).state.bad) ∧
    (∀ rows : List Row, (∀ s, runFile t index rows ≠ .finished s) →
      ∃ (k : Nat) (row : Row) (s₀ : State), rows[k]? = some row ∧
        runFile t index (rows.take k) = .finished s₀ ∧
        (runFile t index rows).state.good = s₀.good ∧
        (runFile t index rows).state.bad = s₀.bad ∧
        (runFile t index rows).state.i = s₀.i ∧
        ((∃ s', runFile t index rows = .panicked s' ∧ ∃ r, row = .record r ∧
            index.length < r.length ∧ rowStep t index s₀ r = .panicked s') ∨
         (runFile t index rows = .readError s₀ ∧
            (row = .malformed ∨ ∃ r, row = .record r ∧
              0 < fieldsAfter 0 (rows.take k) ∧
              r.length ≠ fieldsAfter 0 (rows.take k))))) := by
  constructor
  · intro xs ys
    unfold runFile
    rw [readLoop_append]
    cases h : readLoop t index 0 xs State.init with
    | finished s' => simpa [FileOutcome.state] using readLoop_prefix t index ys _ s'
    | panicked s' => simp [FileOutcome.state]
    | readError s' => simp [FileOutcome.state]
  · intro rows h
    exact readLoop_fault t index rows 0 State.init _ rfl h

/-- Instance of C18: schema `S` and the rows `a`, `9`, `c,d`: the reader
refuses the third row for its two fields, when `a` is in the accepted and
`9` in the rejected output, as after a complete run on the first two rows. -/
theorem C18_witness :
    runFile sampleTables (utf8 "S")
        [.record [utf8 "a"], .record [[0x09]], .record [utf8 "c", utf8 "d"]]
      = .readError { good := [[utf8 "a"]], bad := [[[0x09]]],
                     log := ["Row 2, Field 1 is not a string"], i := 1 } ∧
    runFile sampleTables (utf8 "S")
        ([Row.record [utf8 "a"], Row.record [[0x09]],
          Row.record [utf8 "c", utf8 "d"]].take 2)
      = .finished { good := [[utf8 "a"]], bad := [[[0x09]]],
                    log := ["Row 2, Field 1 is not a string"], i := 1 } ∧
    ∃ (k : Nat) (row : Row) (s₀ : State),
      [Row.record [utf8 "a"], Row.record [[0x09]],
        Row.record [utf8 "c", utf8 "d"]][k]? = some row ∧
      runFile sampleTables (utf8 "S")
        ([Row.record [utf8 "a"], Row.record [[0x09]],
          Row.record [utf8 "c", utf8 "d"]].take k) = .finished s₀ ∧
      (runFile sampleTables (utf8 "S")
        [Row.record [utf8 "a"], Row.record [[0x09]],
          Row.record [utf8 "c", utf8 "d"]]).state.good = s₀.good ∧
      (runFile sampleTables (utf8 "S")
        [Row.record [utf8 "a"], Row.record [[0x09]],
          Row.record [utf8 "c", utf8 "d"]]).state.bad = s₀.bad ∧
      (runFile sampleTables (utf8 "S")
        [Row.record [utf8 "a"], Row.record [[0x09]],
          Row.record [utf8 "c", utf8 "d"]]).state.i = s₀.i ∧
      ((∃ s', runFile sampleTables (utf8 "S")
          [Row.record [utf8 "a"], Row.record [[0x09]],
            Row.record [utf8 "c", utf8 "d"]] = .panicked s' ∧ ∃ r, row = .record r ∧
          (utf8 "S").length < r.length ∧
          rowStep sampleTables (utf8 "S") s₀ r = .panicked s') ∨
       (runFile sampleTables (utf8 "S")
          [Row.record [utf8 "a"], Row.record [[0x09]],
            Row.record [utf8 "c", utf8 "d"]] = .readError s₀ ∧
          (row = .malformed ∨ ∃ r, row = .record r ∧
            0 < fieldsAfter 0 ([Row.record [utf8 "a"], Row.record [[0x09]],
              Row.record [utf8 "c", utf8 "d"]].take k) ∧
            r.length ≠ fieldsAfter 0 ([Row.record [utf8 "a"], Row.record [[0x09]],
              Row.record [utf8 "c", utf8 "d"]].take k)))) :=
  ⟨by decide, by decide,
    (C18_outputs_append_only sampleTables (utf8 "S")).2
      [Row.record [utf8 "a"], Row.record [[0x09]], Row.record [utf8 "c", utf8 "d"]]
      (fun s => by
        have h : runFile sampleTables (utf8 "S")
            [Row.record [utf8 "a"], Row.record [[0x09]], Row.record [utf8 "c", utf8 "d"]]
          = .readError { good := [[utf8 "a"]], bad := [[[0x09]]],
                         log := ["Row 2, Field 1 is not a string"], i := 1 } := by decide
        rw [h]
        simp)⟩

/-- C19: in a run that finishes, a record is scanned with `i` equal to the
number of records accepted before it, so its diagnostics carry the row
number "accepted so far plus one"; a rejected record leaves `i` unchanged
and an accepted one adds one to it, so the record after a rejected record
is reported under the same row number; and the final `i` is the length of
the accepted output. -/
theorem C19_counter_counts_accepted (t : UnicodeTables) (index : GoString) :
    (∀ (pre post : List Record) (r : Record) (s : State),
      run t index (pre ++ r :: post) = .finished s →
      s.i = s.good.length ∧
      ∃ s₁ s₂, run t index pre = .finished s₁ ∧ rowStep t index s₁ r = .finished s₂ ∧
        s₁.i = s₁.good.length ∧
        s₁.good = pre.filter (fun q => specRecordValid t index q) ∧
        s₂.log = s₁.log ++ r.enum.filterMap (fun p =>
          if fieldValidAt t index p.1 p.2 then none
          else some (specMessage (index.getD p.1 0) (s₁.good.length + 1) (p.1 + 1))) ∧
        (s₂.bad = s₁.bad ++ [r] → s₂.good = s₁.good ∧ s₂.i = s₁.i) ∧
        (s₂.good = s₁.good ++ [r] → s₂.bad = s₁.bad ∧ s₂.i = s₁.i + 1)) ∧
    (∀ (pre post : List Record) (r₁ r₂ : Record) (s : State),
      run t index (pre ++ r₁ :: r₂ :: post) = .finished s →
      specRecordValid t index r₁ = false →
      ∃ s₁ s₂ s₃, run t index pre = .finished s₁ ∧
        rowStep t index s₁ r₁ = .finished s₂ ∧ rowStep t index s₂ r₂ = .finished s₃ ∧
        s₂.log = s₁.log ++ r₁.enum.filterMap (fun p =>
          if fieldValidAt t index p.1 p.2 then none
          else some (specMessage (index.getD p.1 0) (s₁.i + 1) (p.1 + 1))) ∧
        s₃.log = s₂.log ++ r₂.enum.filterMap (fun p =>
          if fieldValidAt t index p.1 p.2 then none
          else some (specMessage (index.getD p.1 0) (s₁.i + 1) (p.1 + 1)))) := by
  have hcount : ∀ (input : List Record) (s : State),
      run t index input = .finished s →
        s.i = s.good.length ∧ s.good = input.filter (fun q => specRecordValid t index q) := by
    intro input s h
    obtain ⟨h1, -, h3, -⟩ := mainLoop_finished t index input State.init s h
    simp only [State.init, List.nil_append, Nat.zero_add] at h1 h3
    exact ⟨by rw [h3, h1], h1⟩
  constructor
  · intro pre post r s h
    obtain ⟨hr, s₁, s₂, h1, h2, -⟩ := mainLoop_split t index pre post r State.init s h
    have hc := hcount pre s₁ h1
    refine ⟨(hcount _ s h).1, s₁, s₂, h1, h2, hc.1, hc.2, ?_, ?_, ?_⟩
    · rw [← hc.1]
      exact rowStep_fits_log t index s₁ s₂ r hr h2
    · rw [rowStep_fits t index s₁ r hr] at h2
      simp only [Outcome.finished.injEq] at h2
      subst h2
      cases specRecordValid t index r <;> simp
    · rw [rowStep_fits t index s₁ r hr] at h2
      simp only [Outcome.finished.injEq] at h2
      subst h2
      cases specRecordValid t index r <;> simp
  · intro pre post r₁ r₂ s h hbad
    obtain ⟨hr₁, s₁, s₂, h1, h2, h3⟩ :=
      mainLoop_split t index pre (r₂ :: post) r₁ State.init s h
    obtain ⟨hr₂, s₂', s₃, h4, h5, -⟩ := mainLoop_split t index [] post r₂ s₂ s h3
    simp only [mainLoop, Outcome.finished.injEq] at h4
    subst h4
    have hi : s₂.i = s₁.i := by
      have := h2
      rw [rowStep_fits t index s₁ r₁ hr₁, hbad] at this
      simp only [Bool.false_eq_true, if_false, Outcome.finished.injEq] at this
      rw [← this]
    refine ⟨s₁, s₂, s₃, h1, h2, h5, rowStep_fits_log t index s₁ s₂ r₁ hr₁ h2, ?_⟩
    rw [← hi]
    exact rowStep_fits_log t index s₂ s₃ r₂ hr₂ h5

/-- Instance of C19: schema `F`, records `1`, `x`, `y`, `2`: the rejected
records `x` and `y` are both reported as row 2, and `i` ends at 2. -/
theorem C19_witness :
    run sampleTables (utf8 "F") [[utf8 "1"], [utf8 "x"], [utf8 "y"], [utf8 "2"]]
      = .finished { good := [[utf8 "1"], [utf8 "2"]], bad := [[utf8 "x"], [utf8 "y"]],
                    log := ["Row 2, Field 1 is not a floating point number",
                            "Row 2, Field 1 is not a floating point number"],
                    i := 2 } ∧
    ({ good := [[utf8 "1"], [utf8 "2"]], bad := [[utf8 "x"], [utf8 "y"]],
       log := ["Row 2, Field 1 is not a floating point number",
               "Row 2, Field 1 is not a floating point number"],
       i := 2 } : State).i
      = ({ good := [[utf8 "1"], [utf8 "2"]], bad := [[utf8 "x"], [utf8 "y"]],
           log := ["Row 2, Field 1 is not a floating point number",
                   "Row 2, Field 1 is not a floating point number"],
           i := 2 } : State).good.length :=
  ⟨by decide,
    ((C19_counter_counts_accepted sampleTables (utf8 "F")).1 [[utf8 "1"]]
      [[utf8 "y"], [utf8 "2"]] [utf8 "x"]
      { good := [[utf8 "1"], [utf8 "2"]], bad := [[utf8 "x"], [utf8 "y"]],
        log := ["Row 2, Field 1 is not a floating point number",
                "Row 2, Field 1 is not a floating point number"],
        i := 2 } (by decide)).1⟩

/-- C20: on a non-empty string each classifier gives the same result under
`NO_BLANK` and under `BLANK_ALLOWED`; so a field passes the check of `B`,
`Q`, `P` exactly when it is non-empty and passes the check of `S`, `F`, `N`
(the calls the `switch` makes for these tags); and a record the row step
accepts under a schema is still accepted under the schema in which every
`B`, `Q`, `P` is replaced by `S`, `F`, `N`. -/
theorem C20_blank_mode_only_empty (t : UnicodeTables) :
    (∀ s : GoString, s ≠ [] →
      OnlyPrintable t s (utf8 "NO_BLANK") = OnlyPrintable t s (utf8 "BLANK_ALLOWED") ∧
      OnlyDigits t s (utf8 "NO_BLANK") = OnlyDigits t s (utf8 "BLANK_ALLOWED") ∧
      IsFloat s (utf8 "NO_BLANK") = IsFloat s (utf8 "BLANK_ALLOWED")) ∧
    (∀ v : GoString,
      (OnlyPrintable t v (utf8 "NO_BLANK") = true ↔
        v ≠ [] ∧ OnlyPrintable t v (utf8 "BLANK_ALLOWED") = true) ∧
      (IsFloat v (utf8 "NO_BLANK") = true ↔
        v ≠ [] ∧ IsFloat v (utf8 "BLANK_ALLOWED") = true) ∧
      (OnlyDigits t v (utf8 "NO_BLANK") = true ↔
        v ≠ [] ∧ OnlyDigits t v (utf8 "BLANK_ALLOW") = true)) ∧
    (∀ (index : GoString) (s s' : State) (r : Record),
      rowStep t index s r = .finished s' → s'.good = s.good ++ [r] →
      ∃ s'', rowStep t (relaxSchema index) s r = .finished s'' ∧
        s''.good = s.good ++ [r] ∧ s''.bad = s.bad) := by
  refine ⟨?_, ?_, ?_⟩
  · intro s hs
    simp [OnlyPrintable, OnlyDigits, IsFloat, hs]
  · intro v
    by_cases hv : v = []
    · subst hv
      simp [OnlyPrintable, OnlyDigits, IsFloat]
    · simp [OnlyPrintable, OnlyDigits, IsFloat, hv]
  · intro index s s' r h hgood
    have hw : r.length ≤ index.length := by
      by_contra hnot
      obtain ⟨log, hlog⟩ := rowStep_too_wide t index s r (by omega)
      rw [hlog] at h
      exact absurd h (by simp)
    rw [rowStep_fits t index s r hw] at h
    have hv : specRecordValid t index r = true := by
      cases hv : specRecordValid t index r
      · simp only [hv, Bool.false_eq_true, if_false, Outcome.finished.injEq] at h
        subst h
        simp at hgood
      · rfl
    have hw' : r.length ≤ (relaxSchema index).length := by simpa [relaxSchema] using hw
    refine ⟨_, rowStep_fits t (relaxSchema index) s r hw', ?_, ?_⟩
    · simp [specRecordValid_relax t index r hv]
    · simp [specRecordValid_relax t index r hv]

/-- Instance of C20: the record `a,1.5,7` is accepted under `BQP` and under
the relaxed schema `SFN`. -/
theorem C20_witness :
    relaxSchema (utf8 "BQP") = utf8 "SFN" ∧
    rowStep sampleTables (utf8 "BQP") State.init [utf8 "a", utf8 "1.5", utf8 "7"]
      = .finished { good := [[utf8 "a", utf8 "1.5", utf8 "7"]], bad := [], log := [], i := 1 } ∧
    ∃ s'', rowStep sampleTables (relaxSchema (utf8 "BQP")) State.init
        [utf8 "a", utf8 "1.5", utf8 "7"] = .finished s'' ∧
      s''.good = State.init.good ++ [[utf8 "a", utf8 "1.5", utf8 "7"]] ∧
      s''.bad = State.init.bad :=
  ⟨by decide, by decide,
    (C20_blank_mode_only_empty sampleTables).2.2 (utf8 "BQP") State.init
      { good := [[utf8 "a", utf8 "1.5", utf8 "7"]], bad := [], log := [], i := 1 }
      [utf8 "a", utf8 "1.5", utf8 "7"] (by decide) (by decide)⟩

end CsvChecker
